import Mathlib

/-!
Verification of the Gorilla-style time-series compression engine
(BitWriter.py / BitReader.py / timestamp_compression.py / value_compression.py /
multivariate_storage.py).

The code is embedded shallowly:
* the mutable `bytearray` buffer of `BitWriter` becomes an explicit
  `List Nat` of finished bytes together with the partial-byte accumulator
  `cur` and its fill `nbits`, exactly as in the Python object;
* `BitReader` keeps the byte list plus the `byte_pos`/`bit_pos` cursor;
* Python exceptions become an explicit error type `PyErr` distinguishing the
  exception classes that the source raises (`ValueError`, `EOFError`,
  `struct.error`); a raising method returns the error together with the
  state as mutated up to the raise point, mirroring the fact that a Python
  exception does not roll back mutations already performed;
* IEEE-754 doubles are represented by their raw 64-bit patterns
  (`Nat < 2^64`): the Python code converts every float to its bit pattern
  with `struct.pack('>d', ...)` on entry and back on exit and never compares
  numeric values, so the bit pattern is the faithful carrier (and the claims
  themselves speak of bit-identical round-trips).

Machine integers are modelled as `Int`/`Nat` with explicit `% 2^w` where the
source wraps them.
-/

namespace Gorilla

/-- Error kinds raised by the Python source: `ValueError`, `EOFError` and
`struct.error` (the exception raised by `struct.pack`/`struct.unpack`);
`KeyError` (a dict lookup that misses) and `TypeError` (arithmetic or
attribute access on `None`) can only arise on paths that the storage layer's
own checks make unreachable, but they are kept so those paths stay faithful. -/
inductive PyErr where
  | valueError : PyErr
  | eofError : PyErr
  | structError : PyErr
  | keyError : PyErr
  | typeError : PyErr
deriving DecidableEq, Repr

/-! Bit-sequence helpers.  A bit is a `Nat` that is `0` or `1`; `natBits x n`
is the list of the low `n` bits of `x`, most significant first, which is the
order in which `BitWriter.write_bits` emits them. -/

/-- The low `n` bits of `x`, MSB first. -/
def natBits (x : Nat) : Nat → List Nat
  | 0 => []
  | n + 1 => ((x >>> n) % 2) :: natBits x n

/-- Recombine an MSB-first bit list into a number, exactly as
`BitReader.read_bits` accumulates `val = (val << 1) | bit`. -/
def bitsValAux (a : Nat) : List Nat → Nat
  | [] => a
  | b :: t => bitsValAux (2 * a + b % 2) t

def bitsVal (l : List Nat) : Nat := bitsValAux 0 l

/-- MSB-first bits of a byte sequence. -/
def bytesBits : List Nat → List Nat
  | [] => []
  | b :: t => natBits b 8 ++ bytesBits t

/-- Big-endian byte decomposition on `k` bytes (the layout produced by
`struct.pack` with formats `>I`, `>q`, `>Q`). -/
def beBytes : Nat → Nat → List Nat
  | 0, _ => []
  | k + 1, x => ((x >>> (8 * k)) % 256) :: beBytes k x

/-- Big-endian recombination of a byte sequence (as `struct.unpack` does). -/
def beVal (l : List Nat) : Nat := l.foldl (fun a b => a * 256 + b % 256) 0

theorem shiftLeft_one_or (c b : Nat) (hb : b < 2) :
    (c <<< 1) ||| b = 2 * c + b := by
  have h : c <<< 1 = 2 ^ 1 * c := by rw [Nat.shiftLeft_eq]; ring
  rw [h, ← Nat.mul_add_lt_is_or (by simpa using hb) c]

@[simp] theorem natBits_length (x n : Nat) : (natBits x n).length = n := by
  induction n with
  | zero => rfl
  | succ n ih => simp [natBits, ih]

@[simp] theorem bytesBits_length (l : List Nat) :
    (bytesBits l).length = 8 * l.length := by
  induction l with
  | nil => rfl
  | cons b t ih => simp [bytesBits, ih]; ring

theorem bytesBits_append (l m : List Nat) :
    bytesBits (l ++ m) = bytesBits l ++ bytesBits m := by
  induction l with
  | nil => rfl
  | cons b t ih => simp [bytesBits, ih]

theorem natBits_mod_eq (x n m : Nat) (h : n ≤ m) :
    natBits (x % 2 ^ m) n = natBits x n := by
  induction n with
  | zero => rfl
  | succ n ih =>
    have hn : n ≤ m := Nat.le_of_succ_le h
    simp only [natBits, ih hn]
    congr 1
    rw [Nat.shiftRight_eq_div_pow, Nat.shiftRight_eq_div_pow]
    rw [show 2 ^ m = 2 ^ n * 2 ^ (m - n) by rw [← pow_add]; congr 1; omega]
    rw [Nat.mod_mul_right_div_self]
    exact Nat.mod_mod_of_dvd _ (dvd_pow_self 2 (by omega))

theorem natBits_two_mul_add (x b n : Nat) (hb : b < 2) :
    natBits (2 * x + b) (n + 1) = natBits x n ++ [b] := by
  induction n with
  | zero =>
    simp only [natBits, Nat.shiftRight_zero, List.nil_append]
    congr 1
    omega
  | succ n ih =>
    have hs : (2 * x + b) >>> (n + 1) = x >>> n := by
      rw [Nat.shiftRight_eq_div_pow, Nat.shiftRight_eq_div_pow]
      rw [pow_succ, Nat.mul_comm (2 ^ n) 2, ← Nat.div_div_eq_div_mul]
      congr 1
      omega
    simp only [natBits] at ih ⊢
    rw [hs]
    simp [ih]

theorem natBits_shiftLeft (x n s : Nat) :
    natBits (x <<< s) (n + s) = natBits x n ++ List.replicate s 0 := by
  induction s with
  | zero => simp
  | succ s ih =>
    have h : x <<< (s + 1) = 2 * (x <<< s) + 0 := by
      rw [Nat.shiftLeft_eq, Nat.shiftLeft_eq, pow_succ]; ring
    rw [show n + (s + 1) = (n + s) + 1 by omega, h,
      natBits_two_mul_add _ _ _ (by omega), ih,
      List.replicate_succ' s 0, List.append_assoc]

/-- MSB-first split: the top `m` bits of an `(m+n)`-bit window come from
`x >>> n`. -/
theorem natBits_add (x m n : Nat) :
    natBits x (m + n) = natBits (x >>> n) m ++ natBits x n := by
  induction m with
  | zero => simp [natBits]
  | succ m ih =>
    have h : x >>> (n + m) = (x >>> n) >>> m := Nat.shiftRight_add x n m
    rw [show m + 1 + n = (m + n) + 1 by omega]
    simp only [natBits]
    rw [ih, show m + n = n + m by omega, h]
    rfl

theorem bitsValAux_append (a : Nat) (l m : List Nat) :
    bitsValAux a (l ++ m) = bitsValAux (bitsValAux a l) m := by
  induction l generalizing a with
  | nil => rfl
  | cons b t ih => simp [bitsValAux, ih]

theorem bitsValAux_natBits (a x n : Nat) :
    bitsValAux a (natBits x n) = a * 2 ^ n + x % 2 ^ n := by
  induction n generalizing a with
  | zero => simp [natBits, bitsValAux, Nat.mod_one]
  | succ n ih =>
    simp only [natBits, bitsValAux, ih]
    have h2 : x >>> n % 2 % 2 = x >>> n % 2 :=
      Nat.mod_mod_of_dvd _ (by omega)
    have hs : x >>> n % 2 = x / 2 ^ n % 2 := by
      rw [Nat.shiftRight_eq_div_pow]
    have hx : x % 2 ^ (n + 1) = x % 2 ^ n + 2 ^ n * (x / 2 ^ n % 2) :=
      Nat.mod_pow_succ
    rw [h2, hs, hx, pow_succ]
    ring

theorem bitsVal_natBits (x n : Nat) : bitsVal (natBits x n) = x % 2 ^ n := by
  simp [bitsVal, bitsValAux_natBits]

theorem bitsVal_natBits_of_lt (x n : Nat) (h : x < 2 ^ n) :
    bitsVal (natBits x n) = x := by
  rw [bitsVal_natBits, Nat.mod_eq_of_lt h]

theorem natBits_drop (x n q : Nat) :
    (natBits x n).drop q = natBits x (n - q) := by
  induction n generalizing q with
  | zero => simp [natBits]
  | succ n ih =>
    cases q with
    | zero => simp
    | succ q => simpa [natBits] using ih q

theorem bytesBits_drop (l : List Nat) (k : Nat) :
    bytesBits (l.drop k) = (bytesBits l).drop (8 * k) := by
  induction l generalizing k with
  | nil => simp [bytesBits]
  | cons b t ih =>
    cases k with
    | zero => simp
    | succ k =>
      have h8 : 8 * (k + 1) = 8 + 8 * k := by ring
      simp only [List.drop_succ_cons, bytesBits, ih, h8]
      rw [List.drop_append_eq_append_drop]
      simp [natBits_drop, natBits]

theorem bytesBits_take (l : List Nat) (k : Nat) :
    bytesBits (l.take k) = (bytesBits l).take (8 * k) := by
  induction l generalizing k with
  | nil => simp [bytesBits]
  | cons b t ih =>
    cases k with
    | zero => simp [bytesBits]
    | succ k =>
      have h8 : 8 * (k + 1) = 8 + 8 * k := by ring
      simp only [List.take_succ_cons, bytesBits, ih, h8]
      rw [List.take_append_eq_append_take]
      simp [show (natBits b 8).length = 8 from natBits_length b 8]

theorem beVal_eq_bitsVal (l : List Nat) : beVal l = bitsVal (bytesBits l) := by
  suffices h : ∀ a, l.foldl (fun x b => x * 256 + b % 256) a
      = bitsValAux a (bytesBits l) by
    simpa [beVal, bitsVal] using h 0
  induction l with
  | nil => intro a; rfl
  | cons b t ih =>
    intro a
    simp only [List.foldl_cons, bytesBits, bitsValAux_append, ih]
    congr 1
    rw [bitsValAux_natBits]
    norm_num

theorem bytesBits_beBytes (k x : Nat) :
    bytesBits (beBytes k x) = natBits x (8 * k) := by
  induction k with
  | zero => rfl
  | succ k ih =>
    simp only [beBytes, bytesBits, ih]
    have h : natBits ((x >>> (8 * k)) % 256) 8 = natBits (x >>> (8 * k)) 8 :=
      natBits_mod_eq _ 8 8 le_rfl
    rw [h, show 8 * (k + 1) = 8 + 8 * k by ring, natBits_add]

@[simp] theorem beBytes_length (k x : Nat) : (beBytes k x).length = k := by
  induction k with
  | zero => rfl
  | succ k ih => simp [beBytes, ih]

/-! The `BitWriter` of BitWriter.py: `_buf` (completed bytes), `_cur`
(partial byte accumulator) and `_nbits` (bits currently in `_cur`).
`initial_capacity` only pre-allocates memory in the source and has no
observable effect, so the constructor takes no argument here. -/

structure BitWriter where
  buf : List Nat
  cur : Nat
  nbits : Nat
deriving DecidableEq, Repr

def BitWriter.init : BitWriter := ⟨[], 0, 0⟩

/-- Number of bits written so far (`BitWriter.bit_length`). -/
def BitWriter.bit_length (w : BitWriter) : Nat := w.buf.length * 8 + w.nbits

/-- Number of bytes the output would have if closed now
(`BitWriter.byte_length`). -/
def BitWriter.byte_length (w : BitWriter) : Nat :=
  w.buf.length + (if w.nbits ≠ 0 then 1 else 0)

/-- The `write_bit` method: `cur = (cur << 1) | (bit & 1)` and a flush on
the eighth bit. -/
def BitWriter.write_bit (w : BitWriter) (bit : Nat) : BitWriter :=
  if w.nbits + 1 = 8 then ⟨w.buf ++ [((w.cur <<< 1) ||| (bit % 2)) % 256], 0, 0⟩
  else ⟨w.buf, (w.cur <<< 1) ||| (bit % 2), w.nbits + 1⟩

/-- The loop of `write_bits`: `for i in range(n - 1, -1, -1)` pushing
`(x >> i) & 1`. -/
def BitWriter.writeBitsLoop (w : BitWriter) (x : Nat) : Nat → BitWriter
  | 0 => w
  | i + 1 => (w.write_bit ((x >>> i) % 2)).writeBitsLoop x i

/-- The `write_bits` method: writes the low `n` bits of `x`, MSB first; a
wider `x` is silently masked first (`x & ((1 << n) - 1)`).  A negative `n`
or `x` raises in Python; both are excluded by the `Nat` types here. -/
def BitWriter.write_bits (w : BitWriter) (x n : Nat) : BitWriter :=
  if n = 0 then w
  else BitWriter.writeBitsLoop w (if 2 ^ n ≤ x then x % 2 ^ n else x) n

/-- The module-level `to_twos_complement`: represents `x` on `num_bits` bits
in two's complement, raising `ValueError` when `num_bits` is not positive or
`x` is out of range. -/
def to_twos_complement (x : Int) (num_bits : Nat) : Except PyErr Nat :=
  if num_bits = 0 then .error .valueError
  else
    let minv : Int := -(2 ^ (num_bits - 1))
    let maxv : Int := 2 ^ (num_bits - 1) - 1
    if x < minv ∨ maxv < x then .error .valueError
    else if x < 0 then .ok (2 ^ num_bits + x).toNat
    else .ok x.toNat

/-- The `write_signed` method.  `to_twos_complement` raises before any bit is
written, so a failing call leaves the writer untouched (hence the plain
`Except` return). -/
def BitWriter.write_signed (w : BitWriter) (x : Int) (bits : Nat) :
    Except PyErr BitWriter :=
  (to_twos_complement x bits).map fun t => w.write_bits t bits

/-- The `align_to_byte` method: pads the partial byte with zeros and flushes
it. -/
def BitWriter.align_to_byte (w : BitWriter) : BitWriter :=
  if w.nbits ≠ 0 then ⟨w.buf ++ [(w.cur <<< (8 - w.nbits)) % 256], 0, 0⟩
  else w

/-- The `write_bytes` method: aligns, then extends the buffer (a no-op on an
empty argument, before aligning). -/
def BitWriter.write_bytes (w : BitWriter) (bs : List Nat) : BitWriter :=
  if bs = [] then w
  else
    let w' := w.align_to_byte
    ⟨w'.buf ++ bs, w'.cur, w'.nbits⟩

/-- The `write_u32` method: `struct.pack(">I", x & 0xFFFFFFFF)`. -/
def BitWriter.write_u32 (w : BitWriter) (x : Nat) : BitWriter :=
  w.write_bytes (beBytes 4 (x % 2 ^ 32))

/-- The `write_i64` method: `struct.pack(">q", x)` raises `struct.error`
when `x` does not fit a signed 64-bit integer; otherwise its bytes are the
big-endian two's complement, i.e. `x mod 2^64`. -/
def BitWriter.write_i64 (w : BitWriter) (x : Int) : Except PyErr BitWriter :=
  if x < -(2 ^ 63) ∨ 2 ^ 63 - 1 < x then .error .structError
  else .ok (w.write_bytes (beBytes 8 (x.emod (2 ^ 64)).toNat))

/-- The `write_u64` method: `struct.pack(">Q", x & MASK64)`. -/
def BitWriter.write_u64 (w : BitWriter) (x : Nat) : BitWriter :=
  w.write_bytes (beBytes 8 (x % 2 ^ 64))

/-- The `to_bytes` method: closes the partial byte and returns the buffer. -/
def BitWriter.to_bytes (w : BitWriter) : List Nat := w.align_to_byte.buf

/-! Bit-sequence view of a writer, and its footprint lemmas. -/

/-- The sequence of bits written so far. -/
def BitWriter.wbits (w : BitWriter) : List Nat :=
  bytesBits w.buf ++ natBits w.cur w.nbits

/-- Structural invariant of a writer: the accumulator holds fewer than 8
bits and no junk above them. -/
def BitWriter.WFw (w : BitWriter) : Prop := w.nbits < 8 ∧ w.cur < 2 ^ w.nbits

theorem BitWriter.WFw_init : BitWriter.init.WFw := by
  constructor <;> simp [BitWriter.init]

@[simp] theorem BitWriter.wbits_init : BitWriter.init.wbits = [] := by
  simp [BitWriter.wbits, BitWriter.init, bytesBits, natBits]

theorem BitWriter.wbits_length (w : BitWriter) :
    w.wbits.length = w.buf.length * 8 + w.nbits := by
  simp [BitWriter.wbits]; ring

theorem BitWriter.write_bit_spec (w : BitWriter) (b : Nat) (hw : w.WFw) :
    (w.write_bit b).WFw ∧ (w.write_bit b).wbits = w.wbits ++ [b % 2] := by
  obtain ⟨h8, hc⟩ := hw
  have hb2 : b % 2 < 2 := Nat.mod_lt b (by norm_num)
  have hcur : (w.cur <<< 1) ||| (b % 2) = 2 * w.cur + b % 2 :=
    shiftLeft_one_or _ _ hb2
  unfold BitWriter.write_bit
  by_cases h : w.nbits + 1 = 8
  · have h7 : w.nbits = 7 := by omega
    have hlt : 2 * w.cur + b % 2 < 256 := by
      rw [h7] at hc; norm_num at hc; omega
    simp only [if_pos h, hcur]
    refine ⟨⟨by norm_num, by norm_num⟩, ?_⟩
    simp only [BitWriter.wbits, bytesBits_append]
    rw [Nat.mod_eq_of_lt hlt]
    simp only [bytesBits, List.append_nil, h7]
    rw [show (8 : Nat) = 7 + 1 from rfl, natBits_two_mul_add _ _ _ hb2]
    simp [natBits]
  · simp only [if_neg h, hcur]
    refine ⟨⟨?_, ?_⟩, ?_⟩
    · show w.nbits + 1 < 8
      omega
    · show 2 * w.cur + b % 2 < 2 ^ (w.nbits + 1)
      rw [pow_succ]
      omega
    · simp only [BitWriter.wbits]
      rw [natBits_two_mul_add _ _ _ hb2]
      simp

theorem BitWriter.writeBitsLoop_spec (x : Nat) :
    ∀ (n : Nat) (w : BitWriter), w.WFw →
      (w.writeBitsLoop x n).WFw ∧
      (w.writeBitsLoop x n).wbits = w.wbits ++ natBits x n := by
  intro n
  induction n with
  | zero =>
    intro w hw
    exact ⟨hw, by simp [BitWriter.writeBitsLoop, natBits]⟩
  | succ n ih =>
    intro w hw
    have h1 := BitWriter.write_bit_spec w ((x >>> n) % 2) hw
    have h2 := ih (w.write_bit ((x >>> n) % 2)) h1.1
    refine ⟨h2.1, ?_⟩
    simp only [BitWriter.writeBitsLoop, h2.2, h1.2, natBits]
    simp

theorem BitWriter.write_bits_spec (w : BitWriter) (x n : Nat) (hw : w.WFw) :
    (w.write_bits x n).WFw ∧
    (w.write_bits x n).wbits = w.wbits ++ natBits x n := by
  unfold BitWriter.write_bits
  by_cases h : n = 0
  · subst h; simpa [natBits]
  · simp only [if_neg h]
    by_cases hx : 2 ^ n ≤ x
    · simp only [if_pos hx]
      have := BitWriter.writeBitsLoop_spec (x % 2 ^ n) n w hw
      rwa [natBits_mod_eq x n n le_rfl] at this
    · simp only [if_neg hx]
      exact BitWriter.writeBitsLoop_spec x n w hw

/-- Padding appended by `align_to_byte`. -/
def padLen (nbits : Nat) : Nat := if nbits = 0 then 0 else 8 - nbits

theorem BitWriter.align_to_byte_spec (w : BitWriter) (hw : w.WFw) :
    w.align_to_byte.WFw ∧ w.align_to_byte.nbits = 0 ∧
    w.align_to_byte.wbits = w.wbits ++ List.replicate (padLen w.nbits) 0 := by
  obtain ⟨h8, hc⟩ := hw
  unfold BitWriter.align_to_byte
  by_cases h : w.nbits ≠ 0
  · simp only [if_pos h]
    refine ⟨⟨by norm_num, by norm_num⟩, by trivial, ?_⟩
    have hlt : w.cur <<< (8 - w.nbits) < 256 := by
      rw [Nat.shiftLeft_eq]
      have h1 : w.cur * 2 ^ (8 - w.nbits) < 2 ^ w.nbits * 2 ^ (8 - w.nbits) :=
        mul_lt_mul_of_pos_right hc (pow_pos (by norm_num) _)
      have h2 : (2 : Nat) ^ w.nbits * 2 ^ (8 - w.nbits) = 2 ^ 8 := by
        rw [← pow_add]; congr 1; omega
      rw [h2] at h1
      exact h1.trans_le (by norm_num)
    simp only [BitWriter.wbits, bytesBits_append]
    rw [Nat.mod_eq_of_lt hlt]
    simp only [bytesBits, List.append_nil, padLen, if_neg h]
    have hnb : natBits (w.cur <<< (8 - w.nbits)) 8
        = natBits w.cur w.nbits ++ List.replicate (8 - w.nbits) 0 := by
      have := natBits_shiftLeft w.cur w.nbits (8 - w.nbits)
      rwa [show w.nbits + (8 - w.nbits) = 8 by omega] at this
    rw [hnb]
    simp [natBits]
  · simp only [if_neg h]
    push_neg at h
    refine ⟨⟨h8, hc⟩, h, ?_⟩
    simp [padLen, h]

theorem BitWriter.write_bytes_spec (w : BitWriter) (bs : List Nat)
    (hw : w.WFw) :
    (w.write_bytes bs).WFw ∧
    (w.write_bytes bs).nbits = (if bs = [] then w.nbits else 0) ∧
    (w.write_bytes bs).wbits =
      (if bs = [] then w.wbits
       else w.wbits ++ List.replicate (padLen w.nbits) 0 ++ bytesBits bs) := by
  unfold BitWriter.write_bytes
  by_cases h : bs = []
  · subst h
    simp only [if_pos rfl]
    exact ⟨hw, by simp, by simp⟩
  · obtain ⟨ha, hn, hb⟩ := BitWriter.align_to_byte_spec w hw
    simp only [if_neg h]
    refine ⟨⟨ha.1, ?_⟩, by simp [hn], ?_⟩
    · simpa [hn] using ha.2
    · simp only [BitWriter.wbits, bytesBits_append] at hb ⊢
      have hcur : natBits w.align_to_byte.cur w.align_to_byte.nbits = [] := by
        simp [hn, natBits]
      rw [hcur] at hb
      simp only [List.append_nil] at hb
      simp only [hn, natBits, List.append_nil]
      rw [hb, List.append_assoc]

/-- Bytes-aligned writers append `write_bytes` payloads with no padding. -/
theorem BitWriter.write_bytes_aligned (w : BitWriter) (bs : List Nat)
    (hw : w.WFw) (hn : w.nbits = 0) :
    (w.write_bytes bs).WFw ∧ (w.write_bytes bs).nbits = 0 ∧
    (w.write_bytes bs).wbits = w.wbits ++ bytesBits bs := by
  obtain ⟨h1, h2, h3⟩ := BitWriter.write_bytes_spec w bs hw
  by_cases h : bs = []
  · subst h
    refine ⟨h1, by simpa [hn] using h2, by simp [h3, bytesBits]⟩
  · refine ⟨h1, by simpa [h] using h2, ?_⟩
    rw [h3]
    simp [h, padLen, hn]

theorem BitWriter.write_u64_aligned (w : BitWriter) (x : Nat) (hw : w.WFw)
    (hn : w.nbits = 0) :
    (w.write_u64 x).WFw ∧ (w.write_u64 x).nbits = 0 ∧
    (w.write_u64 x).wbits = w.wbits ++ natBits x 64 := by
  have h := BitWriter.write_bytes_aligned w (beBytes 8 (x % 2 ^ 64)) hw hn
  rw [bytesBits_beBytes, show (8 : Nat) * 8 = 64 from rfl,
    natBits_mod_eq x 64 64 le_rfl] at h
  exact h

/-- Bit pattern written for an in-range signed 64-bit value. -/
def i64bits (x : Int) : List Nat := natBits (x.emod (2 ^ 64)).toNat 64

theorem BitWriter.write_i64_ok (w : BitWriter) (x : Int) (hw : w.WFw)
    (hn : w.nbits = 0) (hlo : -(2 ^ 63) ≤ x) (hhi : x ≤ 2 ^ 63 - 1) :
    w.write_i64 x = .ok (w.write_bytes (beBytes 8 (x.emod (2 ^ 64)).toNat)) ∧
    (w.write_bytes (beBytes 8 (x.emod (2 ^ 64)).toNat)).WFw ∧
    (w.write_bytes (beBytes 8 (x.emod (2 ^ 64)).toNat)).nbits = 0 ∧
    (w.write_bytes (beBytes 8 (x.emod (2 ^ 64)).toNat)).wbits
      = w.wbits ++ i64bits x := by
  have hc : ¬(x < -(2 ^ 63) ∨ (2 ^ 63 : Int) - 1 < x) := by push_neg; omega
  have h := BitWriter.write_bytes_aligned w
    (beBytes 8 (x.emod (2 ^ 64)).toNat) hw hn
  rw [bytesBits_beBytes, show (8 : Nat) * 8 = 64 from rfl] at h
  have heq : w.write_i64 x
      = .ok (w.write_bytes (beBytes 8 (x.emod (2 ^ 64)).toNat)) := by
    unfold BitWriter.write_i64
    rw [if_neg hc]
  exact ⟨heq, h.1, h.2.1, h.2.2⟩

theorem BitWriter.to_bytes_spec (w : BitWriter) (hw : w.WFw) :
    bytesBits w.to_bytes = w.wbits ++ List.replicate (padLen w.nbits) 0 := by
  obtain ⟨ha, hn, hb⟩ := BitWriter.align_to_byte_spec w hw
  unfold BitWriter.to_bytes
  have h : bytesBits w.align_to_byte.buf = w.align_to_byte.wbits := by
    simp [BitWriter.wbits, hn, natBits]
  rw [h, hb]

/-! The `BitReader` of BitReader.py: the immutable byte source `_data` and
the cursor `_byte_pos` / `_bit_pos`. -/

structure BitReader where
  data : List Nat
  byte_pos : Nat
  bit_pos : Nat
deriving DecidableEq, Repr

/-- The `read_bit` method: raises `EOFError` at end of stream, otherwise
extracts `(data[byte_pos] >> (7 - bit_pos)) & 1` and advances the cursor. -/
def BitReader.read_bit (r : BitReader) : Except PyErr (Nat × BitReader) :=
  if r.byte_pos < r.data.length then
    .ok ((r.data.getD r.byte_pos 0 >>> (7 - r.bit_pos)) % 2,
      if r.bit_pos + 1 = 8 then ⟨r.data, r.byte_pos + 1, 0⟩
      else ⟨r.data, r.byte_pos, r.bit_pos + 1⟩)
  else .error .eofError

/-- The loop of `read_bits`: `val = (val << 1) | read_bit()`, `n` times; an
`EOFError` from `read_bit` propagates. -/
def BitReader.readBitsLoop : Nat → Nat → BitReader → Except PyErr (Nat × BitReader)
  | 0, val, r => .ok (val, r)
  | n + 1, val, r =>
    match r.read_bit with
    | .error e => .error e
    | .ok (b, r') => BitReader.readBitsLoop n ((val <<< 1) ||| b) r'

/-- The `read_bits` method (a negative `n` raises in Python; excluded by the
`Nat` type). -/
def BitReader.read_bits (r : BitReader) (n : Nat) : Except PyErr (Nat × BitReader) :=
  BitReader.readBitsLoop n 0 r

/-- The `read_signed` method: reads `bits` bits and reinterprets them as
two's complement (`val -= 1 << bits` when the sign bit is set).  With
`bits = 0` the Python code raises `ValueError` evaluating `1 << (bits - 1)`,
after the no-op `read_bits(0)`. -/
def BitReader.read_signed (r : BitReader) (bits : Nat) :
    Except PyErr (Int × BitReader) :=
  if bits = 0 then .error .valueError
  else
    match r.read_bits bits with
    | .error e => .error e
    | .ok (val, r') =>
      if val &&& (1 <<< (bits - 1)) ≠ 0 then .ok ((val : Int) - 2 ^ bits, r')
      else .ok ((val : Int), r')

/-- The reader's `align_to_byte`: skip to the next byte boundary. -/
def BitReader.align_to_byte (r : BitReader) : BitReader :=
  if 0 < r.bit_pos then ⟨r.data, r.byte_pos + 1, 0⟩ else r

/-- The `read_u32` method.  The source slices 4 bytes and hands them to
`struct.unpack(">I", ...)` with no bounds check of its own; a short slice
makes `struct.unpack` raise `struct.error` (not `EOFError`). -/
def BitReader.read_u32 (r : BitReader) : Except PyErr (Nat × BitReader) :=
  let q := r.align_to_byte
  if q.data.length < q.byte_pos + 4 then .error .structError
  else .ok (beVal ((q.data.drop q.byte_pos).take 4),
    ⟨q.data, q.byte_pos + 4, q.bit_pos⟩)

/-- The `read_i64` method: like `read_u32` but 8 bytes, reinterpreted as
signed (`struct.unpack(">q", ...)`), with the same missing bounds check. -/
def BitReader.read_i64 (r : BitReader) : Except PyErr (Int × BitReader) :=
  let q := r.align_to_byte
  if q.data.length < q.byte_pos + 8 then .error .structError
  else
    let v := beVal ((q.data.drop q.byte_pos).take 8)
    .ok ((if v < 2 ^ 63 then (v : Int) else (v : Int) - 2 ^ 64),
      ⟨q.data, q.byte_pos + 8, q.bit_pos⟩)

/-- The `read_u64` method (`struct.unpack(">Q", ...)`). -/
def BitReader.read_u64 (r : BitReader) : Except PyErr (Nat × BitReader) :=
  let q := r.align_to_byte
  if q.data.length < q.byte_pos + 8 then .error .structError
  else .ok (beVal ((q.data.drop q.byte_pos).take 8),
    ⟨q.data, q.byte_pos + 8, q.bit_pos⟩)

/-- The `peek_bit` method. -/
def BitReader.peek_bit (r : BitReader) : Except PyErr Nat :=
  if r.byte_pos < r.data.length then
    .ok ((r.data.getD r.byte_pos 0 >>> (7 - r.bit_pos)) % 2)
  else .error .eofError

/-- The `read_bytes` method: aligns, checks the bound itself, and raises
`EOFError` on underrun. -/
def BitReader.read_bytes (r : BitReader) (n : Nat) :
    Except PyErr (List Nat × BitReader) :=
  let q := r.align_to_byte
  if q.data.length < q.byte_pos + n then .error .eofError
  else .ok ((q.data.drop q.byte_pos).take n, ⟨q.data, q.byte_pos + n, q.bit_pos⟩)

/-- The `bits_remaining` property. -/
def BitReader.bits_remaining (r : BitReader) : Nat :=
  (r.data.length - r.byte_pos) * 8 - r.bit_pos

/-! Bit-stream view of a reader. -/

/-- Absolute position of the cursor, in bits. -/
def BitReader.rpos (r : BitReader) : Nat := 8 * r.byte_pos + r.bit_pos

/-- The unread suffix of the bit stream. -/
def BitReader.rbits (r : BitReader) : List Nat :=
  (bytesBits r.data).drop r.rpos

theorem natBits_bits_lt (x : Nat) : ∀ n, ∀ b ∈ natBits x n, b < 2 := by
  intro n
  induction n with
  | zero => simp [natBits]
  | succ n ih =>
    intro b hb
    simp only [natBits, List.mem_cons] at hb
    rcases hb with rfl | hb
    · exact Nat.mod_lt _ (by norm_num)
    · exact ih b hb

theorem bytesBits_bits_lt (l : List Nat) : ∀ b ∈ bytesBits l, b < 2 := by
  induction l with
  | nil => simp [bytesBits]
  | cons x t ih =>
    intro b hb
    simp only [bytesBits, List.mem_append] at hb
    rcases hb with hb | hb
    · exact natBits_bits_lt x 8 b hb
    · exact ih b hb

theorem rbits_byte_split (data : List Nat) (bp q : Nat) (hq : q < 8)
    (hbp : bp < data.length) :
    (bytesBits data).drop (8 * bp + q)
      = natBits (data.getD bp 0) (8 - q) ++ bytesBits (data.drop (bp + 1)) := by
  induction data generalizing bp with
  | nil => simp at hbp
  | cons B t ih =>
    cases bp with
    | zero =>
      simp only [bytesBits, Nat.mul_zero, Nat.zero_add, List.getD_cons_zero,
        List.drop_succ_cons, List.drop_zero]
      rw [List.drop_append_eq_append_drop]
      rw [natBits_drop]
      simp [Nat.sub_eq_zero_of_le (le_of_lt (by simpa using hq))]
    | succ bp =>
      have h8 : 8 * (bp + 1) + q = 8 + (8 * bp + q) := by ring
      simp only [bytesBits, h8, List.getD_cons_succ, List.drop_succ_cons]
      rw [List.drop_append_eq_append_drop]
      have hlen : (natBits B 8).length = 8 := natBits_length B 8
      rw [natBits_drop]
      simp only [hlen]
      have hz : (8 : Nat) - (8 + (8 * bp + q)) = 0 := by omega
      rw [hz]
      simp only [natBits, List.nil_append]
      have := ih bp (by simpa using hbp)
      rw [show 8 + (8 * bp + q) - 8 = 8 * bp + q by omega, this]

theorem BitReader.read_bit_ok (r : BitReader) (b : Nat) (rest : List Nat)
    (hbp : r.bit_pos < 8) (h : r.rbits = b :: rest) :
    ∃ r', r.read_bit = .ok (b, r') ∧ r'.data = r.data ∧ r'.bit_pos < 8 ∧
      r'.rbits = rest ∧ r'.rpos = r.rpos + 1 := by
  have hlen : r.rpos < (bytesBits r.data).length := by
    by_contra hc
    push_neg at hc
    rw [BitReader.rbits, List.drop_eq_nil_of_le hc] at h
    cases h
  have hbplen : r.byte_pos < r.data.length := by
    have := hlen
    rw [bytesBits_length] at this
    unfold BitReader.rpos at this
    omega
  have hsplit := rbits_byte_split r.data r.byte_pos r.bit_pos hbp hbplen
  have h8q : 8 - r.bit_pos = (7 - r.bit_pos) + 1 := by omega
  have hbit : (bytesBits r.data).drop r.rpos
      = ((r.data.getD r.byte_pos 0 >>> (7 - r.bit_pos)) % 2)
        :: (natBits (r.data.getD r.byte_pos 0) (7 - r.bit_pos)
           ++ bytesBits (r.data.drop (r.byte_pos + 1))) := by
    rw [BitReader.rpos, hsplit, h8q]
    simp only [natBits, List.cons_append]
  have hcons : r.rbits
      = ((r.data.getD r.byte_pos 0 >>> (7 - r.bit_pos)) % 2)
        :: (natBits (r.data.getD r.byte_pos 0) (7 - r.bit_pos)
           ++ bytesBits (r.data.drop (r.byte_pos + 1))) := hbit
  have hb : b = (r.data.getD r.byte_pos 0 >>> (7 - r.bit_pos)) % 2 := by
    have hbr := h.symm.trans hcons
    exact (List.cons.injEq _ _ _ _ ▸ hbr).1
  have htail : (bytesBits r.data).drop (r.rpos + 1) = rest := by
    have h1 : (bytesBits r.data).drop (r.rpos + 1)
        = ((bytesBits r.data).drop r.rpos).drop 1 := by
      rw [List.drop_drop]
    have h2 : (bytesBits r.data).drop r.rpos = b :: rest := h
    rw [h1, h2]
    rfl
  have hok : r.read_bit = .ok (b,
      if r.bit_pos + 1 = 8 then (⟨r.data, r.byte_pos + 1, 0⟩ : BitReader)
      else ⟨r.data, r.byte_pos, r.bit_pos + 1⟩) := by
    unfold BitReader.read_bit
    rw [if_pos hbplen, hb]
  by_cases h18 : r.bit_pos + 1 = 8
  · refine ⟨⟨r.data, r.byte_pos + 1, 0⟩, ?_, rfl, by norm_num, ?_, ?_⟩
    · rw [hok, if_pos h18]
    · show (bytesBits r.data).drop (8 * (r.byte_pos + 1) + 0) = rest
      rw [show 8 * (r.byte_pos + 1) + 0 = r.rpos + 1 by
        unfold BitReader.rpos; omega]
      exact htail
    · show 8 * (r.byte_pos + 1) + 0 = r.rpos + 1
      unfold BitReader.rpos
      omega
  · refine ⟨⟨r.data, r.byte_pos, r.bit_pos + 1⟩, ?_, rfl,
      show r.bit_pos + 1 < 8 by omega, ?_, ?_⟩
    · rw [hok, if_neg h18]
    · show (bytesBits r.data).drop (8 * r.byte_pos + (r.bit_pos + 1)) = rest
      rw [show 8 * r.byte_pos + (r.bit_pos + 1) = r.rpos + 1 by
        unfold BitReader.rpos; omega]
      exact htail
    · show 8 * r.byte_pos + (r.bit_pos + 1) = r.rpos + 1
      unfold BitReader.rpos
      omega

theorem BitReader.read_bit_eof (r : BitReader) (hbp : r.bit_pos < 8)
    (h : r.rbits = []) : r.read_bit = .error .eofError := by
  have hclen : (bytesBits r.data).length ≤ r.rpos := by
    by_contra hc
    push_neg at hc
    have := List.drop_eq_nil_iff.mp h
    omega
  rw [bytesBits_length] at hclen
  unfold BitReader.rpos at hclen
  have : r.data.length ≤ r.byte_pos := by omega
  unfold BitReader.read_bit
  rw [if_neg (by omega)]

theorem BitReader.readBitsLoop_ok :
    ∀ (n : Nat) (l rest : List Nat) (val : Nat) (r : BitReader),
      r.bit_pos < 8 → r.rbits = l ++ rest → l.length = n →
      ∃ r', BitReader.readBitsLoop n val r = .ok (bitsValAux val l, r') ∧
        r'.data = r.data ∧ r'.bit_pos < 8 ∧ r'.rbits = rest ∧
        r'.rpos = r.rpos + n := by
  intro n
  induction n with
  | zero =>
    intro l rest val r hbp h hl
    rw [List.length_eq_zero.mp hl] at h ⊢
    exact ⟨r, rfl, rfl, hbp, by simpa using h, by omega⟩
  | succ n ih =>
    intro l rest val r hbp h hl
    cases l with
    | nil => simp at hl
    | cons b t =>
      have hlt : (∀ x ∈ r.rbits, x < 2) := by
        intro x hx
        rw [BitReader.rbits] at hx
        exact bytesBits_bits_lt r.data x (List.mem_of_mem_drop hx)
      have hb2 : b < 2 := by
        apply hlt
        rw [h]
        simp
      obtain ⟨r1, hr1, hd1, hp1, hb1, hq1⟩ :=
        BitReader.read_bit_ok r b (t ++ rest) hbp (by simpa using h)
      obtain ⟨r2, hr2, hd2, hp2, hb2', hq2⟩ :=
        ih t rest ((val <<< 1) ||| b) r1 hp1 hb1 (by simpa using hl)
      refine ⟨r2, ?_, by rw [hd2, hd1], hp2, hb2', by rw [hq2, hq1]; omega⟩
      have hstep : BitReader.readBitsLoop (n + 1) val r
          = BitReader.readBitsLoop n ((val <<< 1) ||| b) r1 := by
        simp only [BitReader.readBitsLoop, hr1]
      rw [hstep, hr2]
      have harg : (val <<< 1) ||| b = 2 * val + b % 2 := by
        rw [shiftLeft_one_or _ _ hb2, Nat.mod_eq_of_lt hb2]
      rw [show bitsValAux val (b :: t) = bitsValAux (2 * val + b % 2) t from rfl,
        harg]

theorem BitReader.read_bits_ok (r : BitReader) (x n : Nat) (rest : List Nat)
    (hbp : r.bit_pos < 8) (h : r.rbits = natBits x n ++ rest)
    (hx : x < 2 ^ n) :
    ∃ r', r.read_bits n = .ok (x, r') ∧ r'.data = r.data ∧ r'.bit_pos < 8 ∧
      r'.rbits = rest ∧ r'.rpos = r.rpos + n := by
  obtain ⟨r', h1, h2, h3, h4, h5⟩ :=
    BitReader.readBitsLoop_ok n (natBits x n) rest 0 r hbp h (natBits_length x n)
  refine ⟨r', ?_, h2, h3, h4, h5⟩
  rw [BitReader.read_bits, h1]
  have : bitsValAux 0 (natBits x n) = x := bitsVal_natBits_of_lt x n hx
  rw [this]

/-! Two's complement round trip between `write_signed` and `read_signed`. -/

/-- The number that `to_twos_complement` produces for an in-range `x`:
`x mod 2^m` in the Euclidean sense. -/
def twosN (x : Int) (m : Nat) : Nat := (x.emod (2 ^ m)).toNat

/-- Bit pattern written by a successful `write_signed x m`. -/
def sbits (x : Int) (m : Nat) : List Nat := natBits (twosN x m) m

theorem twosN_int (x : Int) (m : Nat)
    (hlo : -(2 ^ (m - 1) : Int) ≤ x) (hhi : x ≤ 2 ^ (m - 1) - 1) :
    ((twosN x m : Nat) : Int) = (if x < 0 then x + 2 ^ m else x) ∧
    twosN x m < 2 ^ m := by
  have hmle : (2 : Int) ^ (m - 1) ≤ 2 ^ m := by
    apply pow_le_pow_right₀ (by norm_num)
    omega
  have hmpos : (0 : Int) < 2 ^ m := by positivity
  have habs : x.emod (2 ^ m) = (if x < 0 then x + 2 ^ m else x) := by
    by_cases hx : x < 0
    · rw [if_pos hx]
      have h1 : (x + 2 ^ m).emod (2 ^ m) = x.emod (2 ^ m) := by
        have h0 := Int.add_mul_emod_self_left x (2 ^ m) 1
        rwa [mul_one] at h0
      rw [← h1]
      exact Int.emod_eq_of_lt (by omega) (by omega)
    · rw [if_neg hx]
      push_neg at hx
      exact Int.emod_eq_of_lt (by omega) (by omega)
  have hnn : 0 ≤ (if x < 0 then x + 2 ^ m else x) := by
    by_cases hx : x < 0
    · rw [if_pos hx]
      omega
    · rw [if_neg hx]
      omega
  constructor
  · rw [twosN, habs, Int.toNat_of_nonneg hnn]
  · have hcast : ((twosN x m : Nat) : Int) < ((2 ^ m : Nat) : Int) := by
      rw [twosN, habs, Int.toNat_of_nonneg hnn]
      push_cast
      by_cases hx : x < 0
      · rw [if_pos hx]
        omega
      · rw [if_neg hx]
        omega
    exact_mod_cast hcast

theorem to_twos_ok (x : Int) (m : Nat) (hm : m ≠ 0)
    (hlo : -(2 ^ (m - 1) : Int) ≤ x) (hhi : x ≤ 2 ^ (m - 1) - 1) :
    to_twos_complement x m = .ok (twosN x m) := by
  obtain ⟨hint, hlt⟩ := twosN_int x m hlo hhi
  unfold to_twos_complement
  rw [if_neg hm, if_neg (by push_neg; exact ⟨hlo, hhi⟩)]
  have hmle : (2 : Int) ^ (m - 1) ≤ 2 ^ m := by
    apply pow_le_pow_right₀ (by norm_num)
    omega
  by_cases hx : x < 0
  · rw [if_pos hx]
    rw [if_pos hx] at hint
    congr 1
    have hgoal : (((2 ^ m + x).toNat : Nat) : Int) = ((twosN x m : Nat) : Int) := by
      rw [hint, Int.toNat_of_nonneg (by omega)]
      ring
    exact_mod_cast hgoal
  · rw [if_neg hx]
    rw [if_neg hx] at hint
    congr 1
    have hgoal : ((x.toNat : Nat) : Int) = ((twosN x m : Nat) : Int) := by
      rw [hint, Int.toNat_of_nonneg (by omega)]
    exact_mod_cast hgoal

theorem BitWriter.write_signed_ok (w : BitWriter) (x : Int) (m : Nat)
    (hw : w.WFw) (hm : m ≠ 0)
    (hlo : -(2 ^ (m - 1) : Int) ≤ x) (hhi : x ≤ 2 ^ (m - 1) - 1) :
    w.write_signed x m = .ok (w.write_bits (twosN x m) m) ∧
    (w.write_bits (twosN x m) m).WFw ∧
    (w.write_bits (twosN x m) m).wbits = w.wbits ++ sbits x m := by
  have h1 := to_twos_ok x m hm hlo hhi
  obtain ⟨h2, h3⟩ := BitWriter.write_bits_spec w (twosN x m) m hw
  exact ⟨by rw [BitWriter.write_signed, h1]; rfl, h2, h3⟩

theorem BitReader.read_signed_ok (r : BitReader) (x : Int) (m : Nat)
    (rest : List Nat) (hm : m ≠ 0) (hbp : r.bit_pos < 8)
    (hlo : -(2 ^ (m - 1) : Int) ≤ x) (hhi : x ≤ 2 ^ (m - 1) - 1)
    (h : r.rbits = sbits x m ++ rest) :
    ∃ r', r.read_signed m = .ok (x, r') ∧ r'.data = r.data ∧ r'.bit_pos < 8 ∧
      r'.rbits = rest ∧ r'.rpos = r.rpos + m := by
  obtain ⟨hint, hlt⟩ := twosN_int x m hlo hhi
  obtain ⟨r', h1, h2, h3, h4, h5⟩ :=
    BitReader.read_bits_ok r (twosN x m) m rest hbp h hlt
  refine ⟨r', ?_, h2, h3, h4, h5⟩
  unfold BitReader.read_signed
  rw [if_neg hm, h1]
  show (if (twosN x m) &&& 1 <<< (m - 1) ≠ 0
      then Except.ok (((twosN x m : Nat) : Int) - 2 ^ m, r')
      else Except.ok (((twosN x m : Nat) : Int), r')) = Except.ok (x, r')
  have hp2 : (0 : Nat) < 2 ^ (m - 1) := by positivity
  have hpm : (2 : Nat) ^ m = 2 ^ (m - 1) * 2 := by
    rw [← pow_succ]
    congr 1
    omega
  have hc1 : ((2 : Int) ^ (m - 1)) = ((2 ^ (m - 1) : Nat) : Int) := by
    push_cast
    ring
  have hc2 : ((2 : Int) ^ m) = ((2 ^ m : Nat) : Int) := by
    push_cast
    ring
  have htb : (twosN x m) &&& (1 <<< (m - 1))
      = (Nat.testBit (twosN x m) (m - 1)).toNat * 2 ^ (m - 1) := by
    rw [Nat.one_shiftLeft, Nat.and_two_pow]
  by_cases hx : x < 0
  · rw [if_pos hx] at hint
    rw [hc2] at hint
    rw [hc1] at hlo
    have hge : 2 ^ (m - 1) ≤ twosN x m := by omega
    have hbit : Nat.testBit (twosN x m) (m - 1) = true := by
      rw [Nat.testBit_to_div_mod]
      have hdiv : twosN x m / 2 ^ (m - 1) = 1 :=
        Nat.div_eq_of_lt_le (by omega) (by omega)
      simp [hdiv]
    rw [htb, hbit]
    simp only [Bool.toNat_true, one_mul]
    rw [if_pos (by positivity)]
    have heq : ((twosN x m : Nat) : Int) - 2 ^ m = x := by
      rw [hc2]
      omega
    rw [heq]
  · rw [if_neg hx] at hint
    rw [hc1] at hhi
    have hltm : twosN x m < 2 ^ (m - 1) := by omega
    have hbit : Nat.testBit (twosN x m) (m - 1) = false :=
      Nat.testBit_lt_two_pow hltm
    rw [htb, hbit]
    simp only [Bool.toNat_false, Nat.zero_mul]
    rw [if_neg (by simp)]
    rw [hint]

/-! Aligned fixed-width reads. -/

theorem BitReader.align_id (r : BitReader) (hbp : r.bit_pos = 0) :
    r.align_to_byte = r := by
  unfold BitReader.align_to_byte
  rw [if_neg (by omega)]

theorem BitReader.read8_aligned (r : BitReader) (y : Nat) (rest : List Nat)
    (hbp : r.bit_pos = 0) (h : r.rbits = natBits y 64 ++ rest)
    (hy : y < 2 ^ 64) :
    r.byte_pos + 8 ≤ r.data.length ∧
    beVal ((r.data.drop r.byte_pos).take 8) = y ∧
    (⟨r.data, r.byte_pos + 8, r.bit_pos⟩ : BitReader).rbits = rest ∧
    (⟨r.data, r.byte_pos + 8, r.bit_pos⟩ : BitReader).rpos = r.rpos + 64 := by
  have hrb : r.rbits = bytesBits (r.data.drop r.byte_pos) := by
    rw [BitReader.rbits, BitReader.rpos, hbp, bytesBits_drop]
    congr 1
  have hlen8 : r.byte_pos + 8 ≤ r.data.length := by
    have h1 : (r.rbits).length = 8 * (r.data.length - r.byte_pos) := by
      rw [hrb, bytesBits_length, List.length_drop]
    have h2 : (r.rbits).length = 64 + rest.length := by
      rw [h]
      simp
    omega
  refine ⟨hlen8, ?_, ?_, ?_⟩
  · rw [beVal_eq_bitsVal, bytesBits_take, ← hrb,
      show (8 : Nat) * 8 = 64 from rfl, h]
    have htk : (natBits y 64 ++ rest).take 64 = natBits y 64 := by
      rw [List.take_append_eq_append_take]
      simp only [natBits_length]
      rw [List.take_of_length_le (by simp), show (64 : Nat) - 64 = 0 by rfl]
      simp
    rw [htk]
    exact bitsVal_natBits_of_lt y 64 hy
  · show (bytesBits r.data).drop (8 * (r.byte_pos + 8) + r.bit_pos) = rest
    have hdd : 8 * (r.byte_pos + 8) + r.bit_pos = r.rpos + 64 := by
      unfold BitReader.rpos
      omega
    rw [hdd]
    have h1 : (bytesBits r.data).drop (r.rpos + 64)
        = (r.rbits).drop 64 := by
      rw [BitReader.rbits, List.drop_drop]
    rw [h1, h]
    rw [List.drop_append_eq_append_drop]
    simp [natBits_drop, natBits]
  · show 8 * (r.byte_pos + 8) + r.bit_pos = r.rpos + 64
    unfold BitReader.rpos
    omega

theorem BitReader.read_u64_ok (r : BitReader) (x : Nat) (rest : List Nat)
    (hbp : r.bit_pos = 0) (h : r.rbits = natBits x 64 ++ rest)
    (hx : x < 2 ^ 64) :
    ∃ r', r.read_u64 = .ok (x, r') ∧ r'.data = r.data ∧ r'.bit_pos = 0 ∧
      r'.rbits = rest ∧ r'.rpos = r.rpos + 64 := by
  obtain ⟨h1, h2, h3, h4⟩ := BitReader.read8_aligned r x rest hbp h hx
  refine ⟨⟨r.data, r.byte_pos + 8, r.bit_pos⟩, ?_, rfl, hbp, h3, h4⟩
  unfold BitReader.read_u64
  rw [BitReader.align_id r hbp]
  rw [if_neg (by omega), h2]

theorem BitReader.read_i64_ok (r : BitReader) (z : Int) (rest : List Nat)
    (hbp : r.bit_pos = 0) (h : r.rbits = i64bits z ++ rest)
    (hlo : -(2 ^ 63) ≤ z) (hhi : z ≤ 2 ^ 63 - 1) :
    ∃ r', r.read_i64 = .ok (z, r') ∧ r'.data = r.data ∧ r'.bit_pos = 0 ∧
      r'.rbits = rest ∧ r'.rpos = r.rpos + 64 := by
  have hz := twosN_int z 64 (by simpa using hlo) (by simpa using hhi)
  obtain ⟨hint, hlt⟩ := hz
  have hsame : i64bits z = natBits (twosN z 64) 64 := rfl
  rw [hsame] at h
  obtain ⟨h1, h2, h3, h4⟩ := BitReader.read8_aligned r (twosN z 64) rest hbp h hlt
  refine ⟨⟨r.data, r.byte_pos + 8, r.bit_pos⟩, ?_, rfl, hbp, h3, h4⟩
  unfold BitReader.read_i64
  rw [BitReader.align_id r hbp]
  rw [if_neg (by omega), h2]
  show Except.ok
      ((if twosN z 64 < 2 ^ 63 then ((twosN z 64 : Nat) : Int)
        else ((twosN z 64 : Nat) : Int) - 2 ^ 64),
      (⟨r.data, r.byte_pos + 8, r.bit_pos⟩ : BitReader))
    = Except.ok (z, ⟨r.data, r.byte_pos + 8, r.bit_pos⟩)
  have hc64 : ((2 : Int) ^ 64) = ((2 ^ 64 : Nat) : Int) := by norm_num
  have hc63 : ((2 : Int) ^ 63) = ((2 ^ 63 : Nat) : Int) := by norm_num
  by_cases hneg : z < 0
  · rw [if_pos hneg] at hint
    rw [hc64] at hint
    have hge : 2 ^ 63 ≤ twosN z 64 := by
      rw [hc63] at hlo
      have hp : (2 : Nat) ^ 64 = 2 ^ 63 * 2 := by norm_num
      omega
    rw [if_neg (by omega)]
    have heq : ((twosN z 64 : Nat) : Int) - 2 ^ 64 = z := by
      rw [hc64]
      omega
    rw [heq]
  · rw [if_neg hneg] at hint
    push_neg at hneg
    have hltz : twosN z 64 < 2 ^ 63 := by
      rw [hc63] at hhi
      omega
    rw [if_pos hltz]
    rw [hint]

/-! timestamp_compression.py: delta-of-delta codec. -/

/-- State of `TimestampEncoder` (the writer is passed explicitly). -/
structure TsEnc where
  prev_timestamp : Option Int
  prev_delta : Option Int
  count : Nat
deriving DecidableEq, Repr

def TsEnc.init : TsEnc := ⟨none, none, 0⟩

/-- The `_encode_delta_of_delta` method.  The control bits are written
before `write_signed` runs its range check, so on a range failure they stay
in the writer; the pair therefore always carries the (possibly mutated)
writer together with the Python exception, if any. -/
def encodeDod (w : BitWriter) (dod : Int) : BitWriter × Option PyErr :=
  if dod = 0 then (w.write_bit 0, none)
  else if -63 ≤ dod ∧ dod ≤ 64 then
    match ((w.write_bit 1).write_bit 0).write_signed dod 7 with
    | .ok w2 => (w2, none)
    | .error e => ((w.write_bit 1).write_bit 0, some e)
  else if -255 ≤ dod ∧ dod ≤ 256 then
    match (((w.write_bit 1).write_bit 1).write_bit 0).write_signed dod 9 with
    | .ok w2 => (w2, none)
    | .error e => (((w.write_bit 1).write_bit 1).write_bit 0, some e)
  else if -2047 ≤ dod ∧ dod ≤ 2048 then
    match ((((w.write_bit 1).write_bit 1).write_bit 1).write_bit 0).write_signed dod 12 with
    | .ok w2 => (w2, none)
    | .error e => ((((w.write_bit 1).write_bit 1).write_bit 1).write_bit 0, some e)
  else
    match ((((w.write_bit 1).write_bit 1).write_bit 1).write_bit 1).write_signed dod 32 with
    | .ok w2 => (w2, none)
    | .error e => ((((w.write_bit 1).write_bit 1).write_bit 1).write_bit 1, some e)

/-- The `add_timestamp` method.  On an exception the encoder state is
returned unchanged (its field updates happen after the writes in the
source), while the writer keeps whatever the failing call had appended.
The `none` branches are unreachable (`_prev_timestamp`/`_prev_delta` are
always set before `count` reaches the regime that reads them); Python would
fault on `None` arithmetic there. -/
def TsEnc.add_timestamp (e : TsEnc) (w : BitWriter) (t : Int) :
    TsEnc × BitWriter × Option PyErr :=
  if e.count = 0 then
    match w.write_i64 t with
    | .ok w' => (⟨some t, e.prev_delta, 1⟩, w', none)
    | .error er => (e, w, some er)
  else
    match e.prev_timestamp with
    | none => (e, w, some .valueError)
    | some pt =>
      if e.count = 1 then
        match w.write_i64 (t - pt) with
        | .ok w' => (⟨some t, some (t - pt), 2⟩, w', none)
        | .error er => (e, w, some er)
      else
        match e.prev_delta with
        | none => (e, w, some .valueError)
        | some pd =>
          match encodeDod w ((t - pt) - pd) with
          | (w', none) => (⟨some t, some (t - pt), e.count + 1⟩, w', none)
          | (w', some er) => (e, w', some er)

/-- State of `TimestampDecoder`. -/
structure TsDec where
  prev_timestamp : Option Int
  prev_delta : Option Int
  count : Nat
deriving DecidableEq, Repr

def TsDec.init : TsDec := ⟨none, none, 0⟩

/-- The `_decode_delta_of_delta` method. -/
def decodeDod (r : BitReader) : Except PyErr (Int × BitReader) :=
  match r.read_bit with
  | .error e => .error e
  | .ok (b1, r) =>
    if b1 = 0 then .ok (0, r)
    else
      match r.read_bit with
      | .error e => .error e
      | .ok (b2, r) =>
        if b2 = 0 then r.read_signed 7
        else
          match r.read_bit with
          | .error e => .error e
          | .ok (b3, r) =>
            if b3 = 0 then r.read_signed 9
            else
              match r.read_bit with
              | .error e => .error e
              | .ok (b4, r) =>
                if b4 = 0 then r.read_signed 12
                else r.read_signed 32

/-- The `read_timestamp` method; the `none` branches are unreachable on the
decoder's own state discipline. -/
def TsDec.read_timestamp (d : TsDec) (r : BitReader) :
    Except PyErr (Int × TsDec × BitReader) :=
  if d.count = 0 then
    match r.read_i64 with
    | .error e => .error e
    | .ok (timestamp, r) => .ok (timestamp, ⟨some timestamp, d.prev_delta, 1⟩, r)
  else if d.count = 1 then
    match d.prev_timestamp with
    | none => .error .valueError
    | some pt =>
      match r.read_i64 with
      | .error e => .error e
      | .ok (delta, r) => .ok (pt + delta, ⟨some (pt + delta), some delta, 2⟩, r)
  else
    match d.prev_timestamp, d.prev_delta with
    | some pt, some pd =>
      match decodeDod r with
      | .error e => .error e
      | .ok (dod, r) =>
        .ok (pt + (pd + dod), ⟨some (pt + (pd + dod)), some (pd + dod), d.count + 1⟩, r)
    | _, _ => .error .valueError

/-! Specification of the delta-of-delta wire code. -/

/-- Values the encoder accepts: zero; each asymmetric tier intersected with
its own two's-complement range (the tier max `64`/`256`/`2048` is selected
by the range test but rejected by `write_signed`); and the final tier, which
only holds signed 32-bit values. -/
def dodEncOk (dod : Int) : Prop :=
  dod = 0 ∨ (-63 ≤ dod ∧ dod ≤ 63)
    ∨ (¬(-63 ≤ dod ∧ dod ≤ 64) ∧ -255 ≤ dod ∧ dod ≤ 255)
    ∨ (¬(-255 ≤ dod ∧ dod ≤ 256) ∧ -2047 ≤ dod ∧ dod ≤ 2047)
    ∨ (¬(-2047 ≤ dod ∧ dod ≤ 2048) ∧ -(2 ^ 31) ≤ dod ∧ dod ≤ 2 ^ 31 - 1)

instance dodEncOk_dec : DecidablePred dodEncOk := by
  intro d
  unfold dodEncOk
  infer_instance

/-- The bits a successful `_encode_delta_of_delta` appends. -/
def dodBits (dod : Int) : List Nat :=
  if dod = 0 then [0]
  else if -63 ≤ dod ∧ dod ≤ 64 then 1 :: 0 :: sbits dod 7
  else if -255 ≤ dod ∧ dod ≤ 256 then 1 :: 1 :: 0 :: sbits dod 9
  else if -2047 ≤ dod ∧ dod ≤ 2048 then 1 :: 1 :: 1 :: 0 :: sbits dod 12
  else 1 :: 1 :: 1 :: 1 :: sbits dod 32

theorem encodeDod_ok (w : BitWriter) (dod : Int) (hw : w.WFw)
    (hok : dodEncOk dod) :
    ∃ w', encodeDod w dod = (w', none) ∧ w'.WFw ∧
      w'.wbits = w.wbits ++ dodBits dod := by
  unfold dodEncOk at hok
  by_cases h0 : dod = 0
  · subst h0
    obtain ⟨hw1, hb1⟩ := BitWriter.write_bit_spec w 0 hw
    refine ⟨w.write_bit 0, ?_, hw1, ?_⟩
    · unfold encodeDod
      rw [if_pos rfl]
    · rw [hb1]
      unfold dodBits
      rw [if_pos rfl]
  · by_cases h7 : -63 ≤ dod ∧ dod ≤ 64
    · have hrange : -(2 ^ (7 - 1) : Int) ≤ dod ∧ dod ≤ 2 ^ (7 - 1) - 1 := by
        norm_num
        omega
      obtain ⟨hwa, hba⟩ := BitWriter.write_bit_spec w 1 hw
      obtain ⟨hwb, hbb⟩ := BitWriter.write_bit_spec (w.write_bit 1) 0 hwa
      obtain ⟨hs, hws, hbs⟩ := BitWriter.write_signed_ok
        ((w.write_bit 1).write_bit 0) dod 7 hwb (by norm_num) hrange.1 hrange.2
      refine ⟨_, ?_, hws, ?_⟩
      · unfold encodeDod
        rw [if_neg h0, if_pos h7, hs]
      · rw [hbs, hbb, hba]
        unfold dodBits
        rw [if_neg h0, if_pos h7]
        simp
    · by_cases h9 : -255 ≤ dod ∧ dod ≤ 256
      · have hrange : -(2 ^ (9 - 1) : Int) ≤ dod ∧ dod ≤ 2 ^ (9 - 1) - 1 := by
          norm_num
          omega
        obtain ⟨hwa, hba⟩ := BitWriter.write_bit_spec w 1 hw
        obtain ⟨hwb, hbb⟩ := BitWriter.write_bit_spec (w.write_bit 1) 1 hwa
        obtain ⟨hwc, hbc⟩ :=
          BitWriter.write_bit_spec ((w.write_bit 1).write_bit 1) 0 hwb
        obtain ⟨hs, hws, hbs⟩ := BitWriter.write_signed_ok
          (((w.write_bit 1).write_bit 1).write_bit 0) dod 9 hwc (by norm_num)
          hrange.1 hrange.2
        refine ⟨_, ?_, hws, ?_⟩
        · unfold encodeDod
          rw [if_neg h0, if_neg h7, if_pos h9, hs]
        · rw [hbs, hbc, hbb, hba]
          unfold dodBits
          rw [if_neg h0, if_neg h7, if_pos h9]
          simp
      · by_cases h12 : -2047 ≤ dod ∧ dod ≤ 2048
        · have hrange : -(2 ^ (12 - 1) : Int) ≤ dod ∧ dod ≤ 2 ^ (12 - 1) - 1 := by
            norm_num
            omega
          obtain ⟨hwa, hba⟩ := BitWriter.write_bit_spec w 1 hw
          obtain ⟨hwb, hbb⟩ := BitWriter.write_bit_spec (w.write_bit 1) 1 hwa
          obtain ⟨hwc, hbc⟩ :=
            BitWriter.write_bit_spec ((w.write_bit 1).write_bit 1) 1 hwb
          obtain ⟨hwd, hbd⟩ :=
            BitWriter.write_bit_spec (((w.write_bit 1).write_bit 1).write_bit 1) 0 hwc
          obtain ⟨hs, hws, hbs⟩ := BitWriter.write_signed_ok
            ((((w.write_bit 1).write_bit 1).write_bit 1).write_bit 0) dod 12 hwd
            (by norm_num) hrange.1 hrange.2
          refine ⟨_, ?_, hws, ?_⟩
          · unfold encodeDod
            rw [if_neg h0, if_neg h7, if_neg h9, if_pos h12, hs]
          · rw [hbs, hbd, hbc, hbb, hba]
            unfold dodBits
            rw [if_neg h0, if_neg h7, if_neg h9, if_pos h12]
            simp
        · have hrange : -(2 ^ (32 - 1) : Int) ≤ dod ∧ dod ≤ 2 ^ (32 - 1) - 1 := by
            norm_num
            omega
          obtain ⟨hwa, hba⟩ := BitWriter.write_bit_spec w 1 hw
          obtain ⟨hwb, hbb⟩ := BitWriter.write_bit_spec (w.write_bit 1) 1 hwa
          obtain ⟨hwc, hbc⟩ :=
            BitWriter.write_bit_spec ((w.write_bit 1).write_bit 1) 1 hwb
          obtain ⟨hwd, hbd⟩ :=
            BitWriter.write_bit_spec (((w.write_bit 1).write_bit 1).write_bit 1) 1 hwc
          obtain ⟨hs, hws, hbs⟩ := BitWriter.write_signed_ok
            ((((w.write_bit 1).write_bit 1).write_bit 1).write_bit 1) dod 32 hwd
            (by norm_num) hrange.1 hrange.2
          refine ⟨_, ?_, hws, ?_⟩
          · unfold encodeDod
            rw [if_neg h0, if_neg h7, if_neg h9, if_neg h12, hs]
          · rw [hbs, hbd, hbc, hbb, hba]
            unfold dodBits
            rw [if_neg h0, if_neg h7, if_neg h9, if_neg h12]
            simp

theorem decodeDod_ok (r : BitReader) (dod : Int) (rest : List Nat)
    (hbp : r.bit_pos < 8) (hok : dodEncOk dod)
    (h : r.rbits = dodBits dod ++ rest) :
    ∃ r', decodeDod r = .ok (dod, r') ∧ r'.data = r.data ∧ r'.bit_pos < 8 ∧
      r'.rbits = rest := by
  unfold dodEncOk at hok
  by_cases h0 : dod = 0
  · subst h0
    rw [dodBits, if_pos rfl] at h
    obtain ⟨r1, hr1, hd1, hp1, hb1, _⟩ :=
      BitReader.read_bit_ok r 0 rest hbp (by simpa using h)
    refine ⟨r1, ?_, hd1, hp1, hb1⟩
    unfold decodeDod
    simp only [hr1]
    rfl
  · by_cases h7 : -63 ≤ dod ∧ dod ≤ 64
    · rw [dodBits, if_neg h0, if_pos h7] at h
      obtain ⟨r1, hr1, hd1, hp1, hb1, _⟩ :=
        BitReader.read_bit_ok r 1 (0 :: sbits dod 7 ++ rest) hbp (by simpa using h)
      obtain ⟨r2, hr2, hd2, hp2, hb2, _⟩ :=
        BitReader.read_bit_ok r1 0 (sbits dod 7 ++ rest) hp1 (by simpa using hb1)
      obtain ⟨r3, hr3, hd3, hp3, hb3, _⟩ :=
        BitReader.read_signed_ok r2 dod 7 rest (by norm_num) hp2
          (by norm_num; omega) (by norm_num; omega) hb2
      refine ⟨r3, ?_, by rw [hd3, hd2, hd1], hp3, hb3⟩
      unfold decodeDod
      simp only [hr1, hr2, hr3]
      norm_num
    · by_cases h9 : -255 ≤ dod ∧ dod ≤ 256
      · rw [dodBits, if_neg h0, if_neg h7, if_pos h9] at h
        obtain ⟨r1, hr1, hd1, hp1, hb1, _⟩ :=
          BitReader.read_bit_ok r 1 (1 :: 0 :: sbits dod 9 ++ rest) hbp
            (by simpa using h)
        obtain ⟨r2, hr2, hd2, hp2, hb2, _⟩ :=
          BitReader.read_bit_ok r1 1 (0 :: sbits dod 9 ++ rest) hp1
            (by simpa using hb1)
        obtain ⟨r3, hr3, hd3, hp3, hb3, _⟩ :=
          BitReader.read_bit_ok r2 0 (sbits dod 9 ++ rest) hp2
            (by simpa using hb2)
        obtain ⟨r4, hr4, hd4, hp4, hb4, _⟩ :=
          BitReader.read_signed_ok r3 dod 9 rest (by norm_num) hp3
            (by norm_num; omega) (by norm_num; omega) hb3
        refine ⟨r4, ?_, by rw [hd4, hd3, hd2, hd1], hp4, hb4⟩
        unfold decodeDod
        simp only [hr1, hr2, hr3, hr4]
        norm_num
      · by_cases h12 : -2047 ≤ dod ∧ dod ≤ 2048
        · rw [dodBits, if_neg h0, if_neg h7, if_neg h9, if_pos h12] at h
          obtain ⟨r1, hr1, hd1, hp1, hb1, _⟩ :=
            BitReader.read_bit_ok r 1 (1 :: 1 :: 0 :: sbits dod 12 ++ rest) hbp
              (by simpa using h)
          obtain ⟨r2, hr2, hd2, hp2, hb2, _⟩ :=
            BitReader.read_bit_ok r1 1 (1 :: 0 :: sbits dod 12 ++ rest) hp1
              (by simpa using hb1)
          obtain ⟨r3, hr3, hd3, hp3, hb3, _⟩ :=
            BitReader.read_bit_ok r2 1 (0 :: sbits dod 12 ++ rest) hp2
              (by simpa using hb2)
          obtain ⟨r4, hr4, hd4, hp4, hb4, _⟩ :=
            BitReader.read_bit_ok r3 0 (sbits dod 12 ++ rest) hp3
              (by simpa using hb3)
          obtain ⟨r5, hr5, hd5, hp5, hb5, _⟩ :=
            BitReader.read_signed_ok r4 dod 12 rest (by norm_num) hp4
              (by norm_num; omega) (by norm_num; omega) hb4
          refine ⟨r5, ?_, by rw [hd5, hd4, hd3, hd2, hd1], hp5, hb5⟩
          unfold decodeDod
          simp only [hr1, hr2, hr3, hr4, hr5]
          norm_num
        · rw [dodBits, if_neg h0, if_neg h7, if_neg h9, if_neg h12] at h
          obtain ⟨r1, hr1, hd1, hp1, hb1, _⟩ :=
            BitReader.read_bit_ok r 1 (1 :: 1 :: 1 :: sbits dod 32 ++ rest) hbp
              (by simpa using h)
          obtain ⟨r2, hr2, hd2, hp2, hb2, _⟩ :=
            BitReader.read_bit_ok r1 1 (1 :: 1 :: sbits dod 32 ++ rest) hp1
              (by simpa using hb1)
          obtain ⟨r3, hr3, hd3, hp3, hb3, _⟩ :=
            BitReader.read_bit_ok r2 1 (1 :: sbits dod 32 ++ rest) hp2
              (by simpa using hb2)
          obtain ⟨r4, hr4, hd4, hp4, hb4, _⟩ :=
            BitReader.read_bit_ok r3 1 (sbits dod 32 ++ rest) hp3
              (by simpa using hb3)
          obtain ⟨r5, hr5, hd5, hp5, hb5, _⟩ :=
            BitReader.read_signed_ok r4 dod 32 rest (by norm_num) hp4
              (by norm_num; omega) (by norm_num; omega) hb4
          refine ⟨r5, ?_, by rw [hd5, hd4, hd3, hd2, hd1], hp5, hb5⟩
          unfold decodeDod
          simp only [hr1, hr2, hr3, hr4, hr5]
          norm_num

/-! Per-point abstractions for the timestamp codec. -/

/-- Signed 64-bit range accepted by `struct.pack(">q", ...)`. -/
def i64Ok (x : Int) : Prop := -(2 ^ 63) ≤ x ∧ x ≤ 2 ^ 63 - 1

instance i64Ok_dec : DecidablePred i64Ok := by
  intro x
  unfold i64Ok
  infer_instance

/-- Encoder state after a successful `add_timestamp`. -/
def tsStepState (e : TsEnc) (t : Int) : TsEnc :=
  if e.count = 0 then ⟨some t, e.prev_delta, 1⟩
  else
    match e.prev_timestamp with
    | none => e
    | some pt =>
      if e.count = 1 then ⟨some t, some (t - pt), 2⟩
      else ⟨some t, some (t - pt), e.count + 1⟩

/-- Bits appended by a successful `add_timestamp`. -/
def tsStepBits (e : TsEnc) (t : Int) : List Nat :=
  if e.count = 0 then i64bits t
  else
    match e.prev_timestamp with
    | none => []
    | some pt =>
      if e.count = 1 then i64bits (t - pt)
      else
        match e.prev_delta with
        | none => []
        | some pd => dodBits ((t - pt) - pd)

/-- Condition under which `add_timestamp` succeeds. -/
def tsStepOk (e : TsEnc) (t : Int) : Prop :=
  if e.count = 0 then i64Ok t
  else
    match e.prev_timestamp with
    | none => False
    | some pt =>
      if e.count = 1 then i64Ok (t - pt)
      else
        match e.prev_delta with
        | none => False
        | some pd => dodEncOk ((t - pt) - pd)

instance tsStepOk_dec (e : TsEnc) : Decidable (tsStepOk e t) := by
  unfold tsStepOk
  rcases e.prev_timestamp with _ | pt
  · dsimp only
    split <;> infer_instance
  · dsimp only
    split <;> [infer_instance; skip]
    rcases e.prev_delta with _ | pd
    · dsimp only
      split <;> infer_instance
    · dsimp only
      split <;> infer_instance

/-- Encoder/decoder state synchronisation for timestamps. -/
def TsSync (e : TsEnc) (d : TsDec) : Prop :=
  d.count = e.count ∧ d.prev_timestamp = e.prev_timestamp ∧
  d.prev_delta = e.prev_delta

theorem TsSync_init : TsSync TsEnc.init TsDec.init := ⟨rfl, rfl, rfl⟩

theorem TsEnc.add_timestamp_ok (e : TsEnc) (w : BitWriter) (t : Int)
    (hw : w.WFw) (hal : e.count ≤ 1 → w.nbits = 0) (hok : tsStepOk e t) :
    ∃ w', e.add_timestamp w t = (tsStepState e t, w', none) ∧ w'.WFw ∧
      w'.wbits = w.wbits ++ tsStepBits e t ∧ (e.count ≤ 1 → w'.nbits = 0) := by
  by_cases hc0 : e.count = 0
  · simp only [tsStepOk, if_pos hc0] at hok
    obtain ⟨heq, hw', hn', hb'⟩ :=
      BitWriter.write_i64_ok w t hw (hal (by omega)) hok.1 hok.2
    refine ⟨_, ?_, hw', ?_, fun _ => hn'⟩
    · unfold TsEnc.add_timestamp
      simp only [if_pos hc0, heq]
      unfold tsStepState
      rw [if_pos hc0]
    · rw [hb']
      unfold tsStepBits
      rw [if_pos hc0]
  · rcases hpt : e.prev_timestamp with _ | pt
    · simp only [tsStepOk, if_neg hc0, hpt] at hok
    · by_cases hc1 : e.count = 1
      · simp only [tsStepOk, if_neg hc0, hpt, if_pos hc1] at hok
        obtain ⟨heq, hw', hn', hb'⟩ :=
          BitWriter.write_i64_ok w (t - pt) hw (hal (by omega)) hok.1 hok.2
        refine ⟨_, ?_, hw', ?_, fun _ => hn'⟩
        · unfold TsEnc.add_timestamp
          simp only [if_neg hc0, hpt, if_pos hc1, heq]
          unfold tsStepState
          simp only [if_neg hc0, hpt, if_pos hc1]
        · rw [hb']
          unfold tsStepBits
          simp only [if_neg hc0, hpt, if_pos hc1]
      · rcases hpd : e.prev_delta with _ | pd
        · simp only [tsStepOk, if_neg hc0, hpt, if_neg hc1, hpd] at hok
        · simp only [tsStepOk, if_neg hc0, hpt, if_neg hc1, hpd] at hok
          obtain ⟨w', henc, hw', hb'⟩ :=
            encodeDod_ok w ((t - pt) - pd) hw hok
          refine ⟨w', ?_, hw', ?_, by omega⟩
          · unfold TsEnc.add_timestamp
            simp only [if_neg hc0, hpt, if_neg hc1, hpd, henc]
            unfold tsStepState
            simp only [if_neg hc0, hpt, if_neg hc1]
          · rw [hb']
            unfold tsStepBits
            simp only [if_neg hc0, hpt, if_neg hc1, hpd]

theorem TsDec.read_timestamp_ok (e : TsEnc) (d : TsDec) (r : BitReader)
    (t : Int) (rest : List Nat) (hs : TsSync e d) (hbp : r.bit_pos < 8)
    (hal : e.count ≤ 1 → r.bit_pos = 0) (hok : tsStepOk e t)
    (h : r.rbits = tsStepBits e t ++ rest) :
    ∃ d' r', d.read_timestamp r = .ok (t, d', r') ∧
      TsSync (tsStepState e t) d' ∧ r'.data = r.data ∧ r'.bit_pos < 8 ∧
      (e.count ≤ 1 → r'.bit_pos = 0) ∧ r'.rbits = rest := by
  obtain ⟨hsc, hspt, hspd⟩ := hs
  by_cases hc0 : e.count = 0
  · simp only [tsStepOk, if_pos hc0] at hok
    rw [tsStepBits, if_pos hc0] at h
    obtain ⟨r', hrd, hd', hp', hb', _⟩ :=
      BitReader.read_i64_ok r t rest (hal (by omega)) h hok.1 hok.2
    refine ⟨⟨some t, d.prev_delta, 1⟩, r', ?_, ?_, hd', by omega, fun _ => hp', hb'⟩
    · unfold TsDec.read_timestamp
      simp only [hsc, if_pos hc0, hrd]
    · unfold tsStepState TsSync
      simp [hc0, hspd]
  · rcases hpt : e.prev_timestamp with _ | pt
    · simp only [tsStepOk, if_neg hc0, hpt] at hok
    · by_cases hc1 : e.count = 1
      · simp only [tsStepOk, if_neg hc0, hpt, if_pos hc1] at hok
        rw [tsStepBits] at h
        simp only [if_neg hc0, hpt, if_pos hc1] at h
        obtain ⟨r', hrd, hd', hp', hb', _⟩ :=
          BitReader.read_i64_ok r (t - pt) rest (hal (by omega)) h hok.1 hok.2
        have hteq : pt + (t - pt) = t := by ring
        refine ⟨⟨some (pt + (t - pt)), some (t - pt), 2⟩, r', ?_, ?_, hd',
          by omega, fun _ => hp', hb'⟩
        · unfold TsDec.read_timestamp
          simp only [hsc, if_neg hc0, if_pos hc1, hspt, hpt, hrd, hteq]
        · unfold tsStepState TsSync
          simp [hc0, hpt, hc1, hteq]
      · rcases hpd : e.prev_delta with _ | pd
        · simp only [tsStepOk, if_neg hc0, hpt, if_neg hc1, hpd] at hok
        · simp only [tsStepOk, if_neg hc0, hpt, if_neg hc1, hpd] at hok
          rw [tsStepBits] at h
          simp only [if_neg hc0, hpt, if_neg hc1, hpd] at h
          obtain ⟨r', hrd, hd', hp', hb'⟩ :=
            decodeDod_ok r ((t - pt) - pd) rest hbp hok h
          have hdelta : pd + ((t - pt) - pd) = t - pt := by ring
          have hteq : pt + (pd + ((t - pt) - pd)) = t := by ring
          refine ⟨⟨some (pt + (pd + ((t - pt) - pd))),
            some (pd + ((t - pt) - pd)), d.count + 1⟩, r', ?_, ?_, hd', hp',
            by omega, hb'⟩
          · unfold TsDec.read_timestamp
            simp only [hsc, if_neg hc0, if_neg hc1, hspt, hpt, hspd, hpd, hrd,
              hteq]
          · unfold tsStepState TsSync
            simp [hc0, hpt, hc1, hteq, hdelta, hsc]

/-! value_compression.py: XOR codec on raw 64-bit patterns. -/

/-- Fuel-bounded bit length (`int.bit_length` for values below `2^fuel`). -/
def bitLenAux : Nat → Nat → Nat
  | 0, _ => 0
  | f + 1, n => if n = 0 then 0 else bitLenAux f (n / 2) + 1

/-- Bit length of a value known to fit 64 bits.  The source computes the
leading-zero count of the zfilled 64-character binary string, which equals
`64 - bit_length`. -/
def bitLen64 (n : Nat) : Nat := bitLenAux 64 n

/-- Fuel-bounded count of trailing zero bits.  The source strips trailing
`'0'` characters from the binary string, which for a nonzero value equals
this count. -/
def tzAux : Nat → Nat → Nat
  | 0, _ => 0
  | f + 1, n => if n % 2 = 1 then 0 else tzAux f (n / 2) + 1

def tz64 (n : Nat) : Nat := tzAux 64 n

theorem bitLenAux_spec : ∀ (f n : Nat), n < 2 ^ f →
    n < 2 ^ bitLenAux f n ∧ bitLenAux f n ≤ f ∧
    (n ≠ 0 → 2 ^ (bitLenAux f n - 1) ≤ n ∧ 1 ≤ bitLenAux f n) := by
  intro f
  induction f with
  | zero =>
    intro n hn
    have : n = 0 := by simpa [pow_zero] using hn
    subst this
    exact ⟨by simp [bitLenAux], le_rfl, by simp⟩
  | succ f ih =>
    intro n hn
    by_cases h0 : n = 0
    · subst h0
      exact ⟨by simp [bitLenAux], by simp [bitLenAux], by simp⟩
    · have hdiv : n / 2 < 2 ^ f := by
        rw [pow_succ] at hn
        omega
      obtain ⟨ha, hb, hc⟩ := ih (n / 2) hdiv
      have hval : bitLenAux (f + 1) n = bitLenAux f (n / 2) + 1 := by
        show (if n = 0 then 0 else bitLenAux f (n / 2) + 1)
          = bitLenAux f (n / 2) + 1
        rw [if_neg h0]
      refine ⟨?_, by omega, fun _ => ?_⟩
      · rw [hval, pow_succ]
        omega
      · rw [hval]
        refine ⟨?_, by omega⟩
        by_cases hd0 : n / 2 = 0
        · have hone : n = 1 := by omega
          subst hone
          have hz : bitLenAux f 0 = 0 := by
            cases f <;> rfl
          norm_num [hz]
        · obtain ⟨hc1, hc2⟩ := hc hd0
          have : 2 ^ (bitLenAux f (n / 2) + 1 - 1) = 2 ^ (bitLenAux f (n / 2) - 1) * 2 := by
            rw [← pow_succ]
            congr 1
            omega
          rw [this]
          omega

theorem tzAux_spec : ∀ (f n : Nat), n ≠ 0 → n < 2 ^ f →
    2 ^ tzAux f n ∣ n ∧ (n >>> tzAux f n) % 2 = 1 := by
  intro f
  induction f with
  | zero =>
    intro n h0 hn
    have : n = 0 := by simpa [pow_zero] using hn
    omega
  | succ f ih =>
    intro n h0 hn
    by_cases hodd : n % 2 = 1
    · have hval : tzAux (f + 1) n = 0 := by
        show (if n % 2 = 1 then 0 else tzAux f (n / 2) + 1) = 0
        rw [if_pos hodd]
      rw [hval]
      exact ⟨by simp, by simpa using hodd⟩
    · have hval : tzAux (f + 1) n = tzAux f (n / 2) + 1 := by
        show (if n % 2 = 1 then 0 else tzAux f (n / 2) + 1)
          = tzAux f (n / 2) + 1
        rw [if_neg hodd]
      have hd0 : n / 2 ≠ 0 := by omega
      have hdlt : n / 2 < 2 ^ f := by
        rw [pow_succ] at hn
        omega
      obtain ⟨ha, hb⟩ := ih (n / 2) hd0 hdlt
      rw [hval]
      constructor
      · set t := tzAux f (n / 2) with ht
        obtain ⟨k, hk⟩ := ha
        refine ⟨k, ?_⟩
        calc n = n / 2 * 2 := by omega
          _ = 2 ^ t * k * 2 := by rw [hk]
          _ = 2 ^ (t + 1) * k := by rw [pow_succ]; ring
      · rw [Nat.shiftRight_eq_div_pow] at hb ⊢
        rw [pow_succ]
        rw [show n / (2 ^ tzAux f (n / 2) * 2) = n / 2 / 2 ^ tzAux f (n / 2) by
          rw [Nat.div_div_eq_div_mul]
          ring_nf]
        exact hb

/-- State of `ValueEncoder`. -/
structure ValEnc where
  prev_value_bits : Nat
  prev_leading : Nat
  prev_trailing : Nat
  count : Nat
deriving DecidableEq, Repr

def ValEnc.init : ValEnc := ⟨0, 255, 255, 0⟩

/-- Clamped leading-zero count of a nonzero xor (`if leading > 31: leading = 31`). -/
def xorLeading (xor : Nat) : Nat :=
  if 31 < 64 - bitLen64 xor then 31 else 64 - bitLen64 xor

/-- Trailing-zero count of a nonzero xor. -/
def xorTrailing (xor : Nat) : Nat := tz64 xor

/-- The window-reuse condition of `add_value`. -/
def valReuse (e : ValEnc) (xor : Nat) : Prop :=
  e.prev_leading ≠ 255 ∧ e.prev_leading ≤ xorLeading xor ∧
  e.prev_trailing ≤ xorTrailing xor

instance valReuse_dec (e : ValEnc) (xor : Nat) : Decidable (valReuse e xor) := by
  unfold valReuse
  infer_instance

/-- The stricter window-reuse condition of `add_value_verification`: the same
three conjuncts plus
`not ((64 - prev_trailing - prev_leading) - (64 - trailing - leading) > 11)`. -/
def valReuseV (e : ValEnc) (xor : Nat) : Prop :=
  e.prev_leading ≠ 255 ∧ e.prev_leading ≤ xorLeading xor ∧
  e.prev_trailing ≤ xorTrailing xor ∧
  ¬(11 < (64 - e.prev_trailing - e.prev_leading)
      - (64 - xorTrailing xor - xorLeading xor))

instance valReuseV_dec (e : ValEnc) (xor : Nat) : Decidable (valReuseV e xor) := by
  unfold valReuseV
  infer_instance

/-- The `add_value` method (`val` is carried as its 64-bit pattern;
`float(...)` conversion and `_float_to_bits` are the identity on the
pattern). -/
def ValEnc.add_value (e : ValEnc) (w : BitWriter) (v : Nat) : ValEnc × BitWriter :=
  if e.count = 0 then (⟨v, e.prev_leading, e.prev_trailing, 1⟩, w.write_u64 v)
  else
    if v ^^^ e.prev_value_bits = 0 then
      (⟨v, e.prev_leading, e.prev_trailing, e.count + 1⟩, w.write_bit 0)
    else
      if valReuse e (v ^^^ e.prev_value_bits) then
        (⟨v, e.prev_leading, e.prev_trailing, e.count + 1⟩,
          ((w.write_bit 1).write_bit 0).write_bits
            ((v ^^^ e.prev_value_bits) >>> e.prev_trailing)
            (64 - e.prev_leading - e.prev_trailing))
      else
        (⟨v, xorLeading (v ^^^ e.prev_value_bits),
            xorTrailing (v ^^^ e.prev_value_bits), e.count + 1⟩,
          ((((w.write_bit 1).write_bit 1).write_bits
                (xorLeading (v ^^^ e.prev_value_bits)) 5).write_bits
              (64 - xorLeading (v ^^^ e.prev_value_bits)
                - xorTrailing (v ^^^ e.prev_value_bits) - 1) 6).write_bits
            ((v ^^^ e.prev_value_bits) >>> xorTrailing (v ^^^ e.prev_value_bits))
            (64 - xorLeading (v ^^^ e.prev_value_bits)
              - xorTrailing (v ^^^ e.prev_value_bits)))

/-- The `add_value_verification` method: identical to `add_value` except for
the reuse condition. -/
def ValEnc.add_value_verification (e : ValEnc) (w : BitWriter) (v : Nat) :
    ValEnc × BitWriter :=
  if e.count = 0 then (⟨v, e.prev_leading, e.prev_trailing, 1⟩, w.write_u64 v)
  else
    if v ^^^ e.prev_value_bits = 0 then
      (⟨v, e.prev_leading, e.prev_trailing, e.count + 1⟩, w.write_bit 0)
    else
      if valReuseV e (v ^^^ e.prev_value_bits) then
        (⟨v, e.prev_leading, e.prev_trailing, e.count + 1⟩,
          ((w.write_bit 1).write_bit 0).write_bits
            ((v ^^^ e.prev_value_bits) >>> e.prev_trailing)
            (64 - e.prev_leading - e.prev_trailing))
      else
        (⟨v, xorLeading (v ^^^ e.prev_value_bits),
            xorTrailing (v ^^^ e.prev_value_bits), e.count + 1⟩,
          ((((w.write_bit 1).write_bit 1).write_bits
                (xorLeading (v ^^^ e.prev_value_bits)) 5).write_bits
              (64 - xorLeading (v ^^^ e.prev_value_bits)
                - xorTrailing (v ^^^ e.prev_value_bits) - 1) 6).write_bits
            ((v ^^^ e.prev_value_bits) >>> xorTrailing (v ^^^ e.prev_value_bits))
            (64 - xorLeading (v ^^^ e.prev_value_bits)
              - xorTrailing (v ^^^ e.prev_value_bits)))

/-- State of `ValueDecoder`. -/
structure ValDec where
  prev_value_bits : Nat
  prev_leading : Nat
  prev_trailing : Nat
  count : Nat
deriving DecidableEq, Repr

def ValDec.init : ValDec := ⟨0, 0, 0, 0⟩

/-- The `read_value` method.  In the source a negative `meaningful_bits`
also raises; with `Nat` subtraction that case collapses into the `> 64`
check (it cannot arise on encoder-produced streams, which our theorems are
about). -/
def ValDec.read_value (d : ValDec) (r : BitReader) :
    Except PyErr (Nat × ValDec × BitReader) :=
  if d.count = 0 then
    match r.read_u64 with
    | .error e => .error e
    | .ok (bits, r) => .ok (bits, ⟨bits, d.prev_leading, d.prev_trailing, 1⟩, r)
  else
    match r.read_bit with
    | .error e => .error e
    | .ok (b1, r) =>
      if b1 = 0 then .ok (d.prev_value_bits, d, r)
      else
        match r.read_bit with
        | .error e => .error e
        | .ok (b2, r) =>
          if b2 = 0 then
            if 64 < 64 - d.prev_leading - d.prev_trailing then .error .valueError
            else
              match r.read_bits (64 - d.prev_leading - d.prev_trailing) with
              | .error e => .error e
              | .ok (xv, r) =>
                .ok (d.prev_value_bits ^^^ (xv <<< d.prev_trailing),
                  ⟨d.prev_value_bits ^^^ (xv <<< d.prev_trailing),
                    d.prev_leading, d.prev_trailing, d.count + 1⟩, r)
          else
            match r.read_bits 5 with
            | .error e => .error e
            | .ok (pl, r) =>
              match r.read_bits 6 with
              | .error e => .error e
              | .ok (lb, r) =>
                if 64 < lb + 1 then .error .valueError
                else
                  match r.read_bits (lb + 1) with
                  | .error e => .error e
                  | .ok (xv, r) =>
                    .ok (d.prev_value_bits ^^^ (xv <<< (64 - pl - (lb + 1))),
                      ⟨d.prev_value_bits ^^^ (xv <<< (64 - pl - (lb + 1))),
                        pl, 64 - pl - (lb + 1), d.count + 1⟩, r)

/-- Encoder state after `add_value` (shared by both variants up to the
reuse decision, which does not change the stored window in the reuse case). -/
def valStepState (e : ValEnc) (v : Nat) : ValEnc :=
  if e.count = 0 then ⟨v, e.prev_leading, e.prev_trailing, 1⟩
  else if v ^^^ e.prev_value_bits = 0 then
    ⟨v, e.prev_leading, e.prev_trailing, e.count + 1⟩
  else if valReuse e (v ^^^ e.prev_value_bits) then
    ⟨v, e.prev_leading, e.prev_trailing, e.count + 1⟩
  else
    ⟨v, xorLeading (v ^^^ e.prev_value_bits),
      xorTrailing (v ^^^ e.prev_value_bits), e.count + 1⟩

def valStepStateV (e : ValEnc) (v : Nat) : ValEnc :=
  if e.count = 0 then ⟨v, e.prev_leading, e.prev_trailing, 1⟩
  else if v ^^^ e.prev_value_bits = 0 then
    ⟨v, e.prev_leading, e.prev_trailing, e.count + 1⟩
  else if valReuseV e (v ^^^ e.prev_value_bits) then
    ⟨v, e.prev_leading, e.prev_trailing, e.count + 1⟩
  else
    ⟨v, xorLeading (v ^^^ e.prev_value_bits),
      xorTrailing (v ^^^ e.prev_value_bits), e.count + 1⟩

/-- Bits of a fresh window record. -/
def newWindowBits (xor : Nat) : List Nat :=
  1 :: 1 :: (natBits (xorLeading xor) 5
    ++ natBits (64 - xorLeading xor - xorTrailing xor - 1) 6
    ++ natBits (xor >>> xorTrailing xor) (64 - xorLeading xor - xorTrailing xor))

/-- Bits of a window-reuse record. -/
def reuseBits (e : ValEnc) (xor : Nat) : List Nat :=
  1 :: 0 :: natBits (xor >>> e.prev_trailing)
    (64 - e.prev_leading - e.prev_trailing)

/-- Bits appended by `add_value`. -/
def valStepBits (e : ValEnc) (v : Nat) : List Nat :=
  if e.count = 0 then natBits v 64
  else if v ^^^ e.prev_value_bits = 0 then [0]
  else if valReuse e (v ^^^ e.prev_value_bits) then
    reuseBits e (v ^^^ e.prev_value_bits)
  else newWindowBits (v ^^^ e.prev_value_bits)

/-- Bits appended by `add_value_verification`. -/
def valStepBitsV (e : ValEnc) (v : Nat) : List Nat :=
  if e.count = 0 then natBits v 64
  else if v ^^^ e.prev_value_bits = 0 then [0]
  else if valReuseV e (v ^^^ e.prev_value_bits) then
    reuseBits e (v ^^^ e.prev_value_bits)
  else newWindowBits (v ^^^ e.prev_value_bits)

theorem xorWindow_facts (xor : Nat) (h0 : xor ≠ 0) (hlt : xor < 2 ^ 64) :
    xorLeading xor ≤ 31 ∧
    xorLeading xor + xorTrailing xor ≤ 63 ∧
    xor < 2 ^ (64 - xorLeading xor) ∧
    2 ^ xorTrailing xor ∣ xor ∧
    (xor >>> xorTrailing xor) % 2 = 1 := by
  obtain ⟨ha, hb, hc⟩ := bitLenAux_spec 64 xor hlt
  obtain ⟨hc1, hc2⟩ := hc h0
  obtain ⟨hd, he⟩ := tzAux_spec 64 xor h0 hlt
  have hBL : bitLen64 xor = bitLenAux 64 xor := rfl
  have hTZ : xorTrailing xor = tzAux 64 xor := rfl
  have htzle : 2 ^ tzAux 64 xor ≤ xor := Nat.le_of_dvd (by omega) hd
  have htzlt : tzAux 64 xor < bitLenAux 64 xor := by
    have hpp : (2 : Nat) ^ tzAux 64 xor < 2 ^ bitLenAux 64 xor := by omega
    exact (Nat.pow_lt_pow_iff_right (by norm_num)).mp hpp
  have hl31 : xorLeading xor ≤ 31 := by
    unfold xorLeading
    split <;> omega
  have hlle : xorLeading xor ≤ 64 - bitLenAux 64 xor := by
    unfold xorLeading
    rw [hBL]
    split <;> omega
  refine ⟨hl31, ?_, ?_, hd, he⟩
  · rw [hTZ]
    omega
  · have hmon : (2 : Nat) ^ bitLenAux 64 xor ≤ 2 ^ (64 - xorLeading xor) := by
      apply Nat.pow_le_pow_right (by norm_num)
      omega
    omega

theorem xor_recombine (xor s : Nat) (hdvd : 2 ^ s ∣ xor) :
    (xor >>> s) <<< s = xor := by
  rw [Nat.shiftLeft_eq, Nat.shiftRight_eq_div_pow]
  exact Nat.div_mul_cancel hdvd

theorem xor_unxor (prev v : Nat) : prev ^^^ (v ^^^ prev) = v := by
  rw [Nat.xor_comm v prev, ← Nat.xor_assoc, Nat.xor_self, Nat.zero_xor]

/-- Encoder/decoder synchronisation for one variable's value codec. -/
def ValSync (e : ValEnc) (d : ValDec) : Prop :=
  (e.count = 0 ↔ d.count = 0) ∧
  (e.count = 0 → e.prev_leading = 255) ∧
  (e.count ≠ 0 → d.prev_value_bits = e.prev_value_bits ∧
    e.prev_value_bits < 2 ^ 64) ∧
  (e.prev_leading ≠ 255 →
    d.prev_leading = e.prev_leading ∧ d.prev_trailing = e.prev_trailing ∧
    e.prev_leading ≤ 31 ∧ e.prev_leading + e.prev_trailing ≤ 63)

theorem ValSync_init : ValSync ValEnc.init ValDec.init := by
  refine ⟨by simp [ValEnc.init, ValDec.init], fun _ => rfl, ?_, ?_⟩
  · intro h
    simp [ValEnc.init] at h
  · intro h
    simp [ValEnc.init] at h

theorem ValEnc.add_value_ok (e : ValEnc) (w : BitWriter) (v : Nat)
    (hw : w.WFw) (hal : e.count = 0 → w.nbits = 0) :
    (e.add_value w v).1 = valStepState e v ∧ (e.add_value w v).2.WFw ∧
    (e.add_value w v).2.wbits = w.wbits ++ valStepBits e v ∧
    (e.count = 0 → (e.add_value w v).2.nbits = 0) := by
  by_cases hc0 : e.count = 0
  · obtain ⟨h1, h2, h3⟩ := BitWriter.write_u64_aligned w v hw (hal hc0)
    have hpair : e.add_value w v
        = (⟨v, e.prev_leading, e.prev_trailing, 1⟩, w.write_u64 v) := by
      unfold ValEnc.add_value
      rw [if_pos hc0]
    rw [hpair]
    refine ⟨?_, h1, ?_, fun _ => h2⟩
    · unfold valStepState
      rw [if_pos hc0]
    · rw [h3]
      unfold valStepBits
      rw [if_pos hc0]
  · by_cases hx0 : v ^^^ e.prev_value_bits = 0
    · obtain ⟨h1, h2⟩ := BitWriter.write_bit_spec w 0 hw
      have hpair : e.add_value w v
          = (⟨v, e.prev_leading, e.prev_trailing, e.count + 1⟩, w.write_bit 0) := by
        unfold ValEnc.add_value
        rw [if_neg hc0, if_pos hx0]
      rw [hpair]
      refine ⟨?_, h1, ?_, fun h => absurd h hc0⟩
      · unfold valStepState
        rw [if_neg hc0, if_pos hx0]
      · rw [h2]
        unfold valStepBits
        rw [if_neg hc0, if_pos hx0]
    · by_cases hru : valReuse e (v ^^^ e.prev_value_bits)
      · obtain ⟨ha1, ha2⟩ := BitWriter.write_bit_spec w 1 hw
        obtain ⟨hb1, hb2⟩ := BitWriter.write_bit_spec (w.write_bit 1) 0 ha1
        obtain ⟨hd1, hd2⟩ := BitWriter.write_bits_spec
          ((w.write_bit 1).write_bit 0)
          ((v ^^^ e.prev_value_bits) >>> e.prev_trailing)
          (64 - e.prev_leading - e.prev_trailing) hb1
        have hpair : e.add_value w v
            = (⟨v, e.prev_leading, e.prev_trailing, e.count + 1⟩,
              ((w.write_bit 1).write_bit 0).write_bits
                ((v ^^^ e.prev_value_bits) >>> e.prev_trailing)
                (64 - e.prev_leading - e.prev_trailing)) := by
          unfold ValEnc.add_value
          rw [if_neg hc0, if_neg hx0, if_pos hru]
        rw [hpair]
        refine ⟨?_, hd1, ?_, fun h => absurd h hc0⟩
        · unfold valStepState
          rw [if_neg hc0, if_neg hx0, if_pos hru]
        · rw [hd2, hb2, ha2]
          unfold valStepBits reuseBits
          rw [if_neg hc0, if_neg hx0, if_pos hru]
          simp
      · obtain ⟨ha1, ha2⟩ := BitWriter.write_bit_spec w 1 hw
        obtain ⟨hb1, hb2⟩ := BitWriter.write_bit_spec (w.write_bit 1) 1 ha1
        obtain ⟨hc1, hc2⟩ := BitWriter.write_bits_spec
          ((w.write_bit 1).write_bit 1) (xorLeading (v ^^^ e.prev_value_bits)) 5 hb1
        obtain ⟨hd1, hd2⟩ := BitWriter.write_bits_spec
          (((w.write_bit 1).write_bit 1).write_bits
            (xorLeading (v ^^^ e.prev_value_bits)) 5)
          (64 - xorLeading (v ^^^ e.prev_value_bits)
            - xorTrailing (v ^^^ e.prev_value_bits) - 1) 6 hc1
        obtain ⟨he1, he2⟩ := BitWriter.write_bits_spec
          ((((w.write_bit 1).write_bit 1).write_bits
            (xorLeading (v ^^^ e.prev_value_bits)) 5).write_bits
            (64 - xorLeading (v ^^^ e.prev_value_bits)
              - xorTrailing (v ^^^ e.prev_value_bits) - 1) 6)
          ((v ^^^ e.prev_value_bits) >>> xorTrailing (v ^^^ e.prev_value_bits))
          (64 - xorLeading (v ^^^ e.prev_value_bits)
            - xorTrailing (v ^^^ e.prev_value_bits)) hd1
        have hpair : e.add_value w v
            = (⟨v, xorLeading (v ^^^ e.prev_value_bits),
                xorTrailing (v ^^^ e.prev_value_bits), e.count + 1⟩,
              ((((w.write_bit 1).write_bit 1).write_bits
                  (xorLeading (v ^^^ e.prev_value_bits)) 5).write_bits
                (64 - xorLeading (v ^^^ e.prev_value_bits)
                  - xorTrailing (v ^^^ e.prev_value_bits) - 1) 6).write_bits
                ((v ^^^ e.prev_value_bits) >>> xorTrailing (v ^^^ e.prev_value_bits))
                (64 - xorLeading (v ^^^ e.prev_value_bits)
                  - xorTrailing (v ^^^ e.prev_value_bits))) := by
          unfold ValEnc.add_value
          rw [if_neg hc0, if_neg hx0, if_neg hru]
        rw [hpair]
        refine ⟨?_, he1, ?_, fun h => absurd h hc0⟩
        · unfold valStepState
          rw [if_neg hc0, if_neg hx0, if_neg hru]
        · rw [he2, hd2, hc2, hb2, ha2]
          unfold valStepBits newWindowBits
          rw [if_neg hc0, if_neg hx0, if_neg hru]
          simp

theorem ValEnc.add_value_verification_ok (e : ValEnc) (w : BitWriter) (v : Nat)
    (hw : w.WFw) (hal : e.count = 0 → w.nbits = 0) :
    (e.add_value_verification w v).1 = valStepStateV e v ∧
    (e.add_value_verification w v).2.WFw ∧
    (e.add_value_verification w v).2.wbits = w.wbits ++ valStepBitsV e v ∧
    (e.count = 0 → (e.add_value_verification w v).2.nbits = 0) := by
  by_cases hc0 : e.count = 0
  · obtain ⟨h1, h2, h3⟩ := BitWriter.write_u64_aligned w v hw (hal hc0)
    have hpair : e.add_value_verification w v
        = (⟨v, e.prev_leading, e.prev_trailing, 1⟩, w.write_u64 v) := by
      unfold ValEnc.add_value_verification
      rw [if_pos hc0]
    rw [hpair]
    refine ⟨?_, h1, ?_, fun _ => h2⟩
    · unfold valStepStateV
      rw [if_pos hc0]
    · rw [h3]
      unfold valStepBitsV
      rw [if_pos hc0]
  · by_cases hx0 : v ^^^ e.prev_value_bits = 0
    · obtain ⟨h1, h2⟩ := BitWriter.write_bit_spec w 0 hw
      have hpair : e.add_value_verification w v
          = (⟨v, e.prev_leading, e.prev_trailing, e.count + 1⟩, w.write_bit 0) := by
        unfold ValEnc.add_value_verification
        rw [if_neg hc0, if_pos hx0]
      rw [hpair]
      refine ⟨?_, h1, ?_, fun h => absurd h hc0⟩
      · unfold valStepStateV
        rw [if_neg hc0, if_pos hx0]
      · rw [h2]
        unfold valStepBitsV
        rw [if_neg hc0, if_pos hx0]
    · by_cases hru : valReuseV e (v ^^^ e.prev_value_bits)
      · obtain ⟨ha1, ha2⟩ := BitWriter.write_bit_spec w 1 hw
        obtain ⟨hb1, hb2⟩ := BitWriter.write_bit_spec (w.write_bit 1) 0 ha1
        obtain ⟨hd1, hd2⟩ := BitWriter.write_bits_spec
          ((w.write_bit 1).write_bit 0)
          ((v ^^^ e.prev_value_bits) >>> e.prev_trailing)
          (64 - e.prev_leading - e.prev_trailing) hb1
        have hpair : e.add_value_verification w v
            = (⟨v, e.prev_leading, e.prev_trailing, e.count + 1⟩,
              ((w.write_bit 1).write_bit 0).write_bits
                ((v ^^^ e.prev_value_bits) >>> e.prev_trailing)
                (64 - e.prev_leading - e.prev_trailing)) := by
          unfold ValEnc.add_value_verification
          rw [if_neg hc0, if_neg hx0, if_pos hru]
        rw [hpair]
        refine ⟨?_, hd1, ?_, fun h => absurd h hc0⟩
        · unfold valStepStateV
          rw [if_neg hc0, if_neg hx0, if_pos hru]
        · rw [hd2, hb2, ha2]
          unfold valStepBitsV reuseBits
          rw [if_neg hc0, if_neg hx0, if_pos hru]
          simp
      · obtain ⟨ha1, ha2⟩ := BitWriter.write_bit_spec w 1 hw
        obtain ⟨hb1, hb2⟩ := BitWriter.write_bit_spec (w.write_bit 1) 1 ha1
        obtain ⟨hc1, hc2⟩ := BitWriter.write_bits_spec
          ((w.write_bit 1).write_bit 1) (xorLeading (v ^^^ e.prev_value_bits)) 5 hb1
        obtain ⟨hd1, hd2⟩ := BitWriter.write_bits_spec
          (((w.write_bit 1).write_bit 1).write_bits
            (xorLeading (v ^^^ e.prev_value_bits)) 5)
          (64 - xorLeading (v ^^^ e.prev_value_bits)
            - xorTrailing (v ^^^ e.prev_value_bits) - 1) 6 hc1
        obtain ⟨he1, he2⟩ := BitWriter.write_bits_spec
          ((((w.write_bit 1).write_bit 1).write_bits
            (xorLeading (v ^^^ e.prev_value_bits)) 5).write_bits
            (64 - xorLeading (v ^^^ e.prev_value_bits)
              - xorTrailing (v ^^^ e.prev_value_bits) - 1) 6)
          ((v ^^^ e.prev_value_bits) >>> xorTrailing (v ^^^ e.prev_value_bits))
          (64 - xorLeading (v ^^^ e.prev_value_bits)
            - xorTrailing (v ^^^ e.prev_value_bits)) hd1
        have hpair : e.add_value_verification w v
            = (⟨v, xorLeading (v ^^^ e.prev_value_bits),
                xorTrailing (v ^^^ e.prev_value_bits), e.count + 1⟩,
              ((((w.write_bit 1).write_bit 1).write_bits
                  (xorLeading (v ^^^ e.prev_value_bits)) 5).write_bits
                (64 - xorLeading (v ^^^ e.prev_value_bits)
                  - xorTrailing (v ^^^ e.prev_value_bits) - 1) 6).write_bits
                ((v ^^^ e.prev_value_bits) >>> xorTrailing (v ^^^ e.prev_value_bits))
                (64 - xorLeading (v ^^^ e.prev_value_bits)
                  - xorTrailing (v ^^^ e.prev_value_bits))) := by
          unfold ValEnc.add_value_verification
          rw [if_neg hc0, if_neg hx0, if_neg hru]
        rw [hpair]
        refine ⟨?_, he1, ?_, fun h => absurd h hc0⟩
        · unfold valStepStateV
          rw [if_neg hc0, if_neg hx0, if_neg hru]
        · rw [he2, hd2, hc2, hb2, ha2]
          unfold valStepBitsV newWindowBits
          rw [if_neg hc0, if_neg hx0, if_neg hru]
          simp

/-! Decoder-side record lemmas. -/

theorem ValDec.readValue_first (d : ValDec) (r : BitReader) (v : Nat)
    (rest : List Nat) (hd0 : d.count = 0) (hbp0 : r.bit_pos = 0)
    (hv : v < 2 ^ 64) (h : r.rbits = natBits v 64 ++ rest) :
    ∃ r', d.read_value r
        = .ok (v, ⟨v, d.prev_leading, d.prev_trailing, 1⟩, r') ∧
      r'.data = r.data ∧ r'.bit_pos = 0 ∧ r'.rbits = rest := by
  obtain ⟨r', h1, h2, h3, h4, _⟩ := BitReader.read_u64_ok r v rest hbp0 h hv
  refine ⟨r', ?_, h2, h3, h4⟩
  unfold ValDec.read_value
  simp only [if_pos hd0, h1]

theorem ValDec.readValue_same (d : ValDec) (r : BitReader) (rest : List Nat)
    (hd0 : d.count ≠ 0) (hbp : r.bit_pos < 8) (h : r.rbits = 0 :: rest) :
    ∃ r', d.read_value r = .ok (d.prev_value_bits, d, r') ∧
      r'.data = r.data ∧ r'.bit_pos < 8 ∧ r'.rbits = rest := by
  obtain ⟨r', h1, h2, h3, h4, _⟩ := BitReader.read_bit_ok r 0 rest hbp h
  refine ⟨r', ?_, h2, h3, h4⟩
  unfold ValDec.read_value
  simp only [if_neg hd0, h1]
  rfl

theorem ValDec.readValue_reuse (d : ValDec) (r : BitReader) (rest : List Nat)
    (X : Nat) (hd0 : d.count ≠ 0) (hbp : r.bit_pos < 8)
    (hmb : d.prev_leading + d.prev_trailing ≤ 63)
    (hX : X < 2 ^ (64 - d.prev_leading - d.prev_trailing))
    (h : r.rbits
      = 1 :: 0 :: natBits X (64 - d.prev_leading - d.prev_trailing) ++ rest) :
    ∃ r', d.read_value r
        = .ok (d.prev_value_bits ^^^ (X <<< d.prev_trailing),
          ⟨d.prev_value_bits ^^^ (X <<< d.prev_trailing),
            d.prev_leading, d.prev_trailing, d.count + 1⟩, r') ∧
      r'.data = r.data ∧ r'.bit_pos < 8 ∧ r'.rbits = rest := by
  obtain ⟨r1, h1, hd1, hp1, hb1, _⟩ := BitReader.read_bit_ok r 1
    (0 :: natBits X (64 - d.prev_leading - d.prev_trailing) ++ rest) hbp
    (by simpa using h)
  obtain ⟨r2, h2, hd2, hp2, hb2, _⟩ := BitReader.read_bit_ok r1 0
    (natBits X (64 - d.prev_leading - d.prev_trailing) ++ rest) hp1
    (by simpa using hb1)
  obtain ⟨r3, h3, hd3, hp3, hb3, _⟩ := BitReader.read_bits_ok r2 X
    (64 - d.prev_leading - d.prev_trailing) rest hp2 hb2 hX
  refine ⟨r3, ?_, by rw [hd3, hd2, hd1], hp3, hb3⟩
  unfold ValDec.read_value
  simp only [if_neg hd0, h1, h2, h3]
  have hcond : ¬(64 < 64 - d.prev_leading - d.prev_trailing) := by omega
  simp [hcond]

theorem ValDec.readValue_new (d : ValDec) (r : BitReader) (rest : List Nat)
    (l t X : Nat) (hd0 : d.count ≠ 0) (hbp : r.bit_pos < 8) (hl : l ≤ 31)
    (hlt63 : l + t ≤ 63) (hX : X < 2 ^ (64 - l - t))
    (h : r.rbits = 1 :: 1 :: (natBits l 5 ++ natBits (64 - l - t - 1) 6
      ++ natBits X (64 - l - t)) ++ rest) :
    ∃ r', d.read_value r
        = .ok (d.prev_value_bits ^^^ (X <<< t),
          ⟨d.prev_value_bits ^^^ (X <<< t), l, t, d.count + 1⟩, r') ∧
      r'.data = r.data ∧ r'.bit_pos < 8 ∧ r'.rbits = rest := by
  obtain ⟨r1, h1, hd1, hp1, hb1, _⟩ := BitReader.read_bit_ok r 1
    (1 :: (natBits l 5 ++ natBits (64 - l - t - 1) 6
      ++ natBits X (64 - l - t)) ++ rest) hbp (by simpa using h)
  obtain ⟨r2, h2, hd2, hp2, hb2, _⟩ := BitReader.read_bit_ok r1 1
    ((natBits l 5 ++ natBits (64 - l - t - 1) 6
      ++ natBits X (64 - l - t)) ++ rest) hp1 (by simpa using hb1)
  have hb2' : r2.rbits = natBits l 5
      ++ (natBits (64 - l - t - 1) 6 ++ natBits X (64 - l - t) ++ rest) := by
    rw [hb2]
    simp [List.append_assoc]
  obtain ⟨r3, h3, hd3, hp3, hb3, _⟩ := BitReader.read_bits_ok r2 l 5
    (natBits (64 - l - t - 1) 6 ++ natBits X (64 - l - t) ++ rest) hp2 hb2'
    (by norm_num; omega)
  have hb3' : r3.rbits = natBits (64 - l - t - 1) 6
      ++ (natBits X (64 - l - t) ++ rest) := by
    rw [hb3]
    simp [List.append_assoc]
  obtain ⟨r4, h4, hd4, hp4, hb4, _⟩ := BitReader.read_bits_ok r3
    (64 - l - t - 1) 6 (natBits X (64 - l - t) ++ rest) hp3 hb3'
    (by norm_num; omega)
  have hmb : 64 - l - t - 1 + 1 = 64 - l - t := by omega
  obtain ⟨r5, h5, hd5, hp5, hb5, _⟩ := BitReader.read_bits_ok r4 X
    (64 - l - t) rest hp4 (by rw [hb4]) hX
  have hpt : 64 - l - (64 - l - t - 1 + 1) = t := by omega
  refine ⟨r5, ?_, by rw [hd5, hd4, hd3, hd2, hd1], hp5, hb5⟩
  unfold ValDec.read_value
  simp only [if_neg hd0, h1, h2, h3, h4, hmb, h5, hpt]
  have hcond : ¬(64 < 64 - l - t) := by omega
  have hpt2 : 64 - l - (64 - l - t) = t := by omega
  simp [hcond, hpt2]

/-- Decoder step against the standard encoder. -/
theorem ValDec.read_value_ok (e : ValEnc) (d : ValDec) (r : BitReader)
    (v : Nat) (rest : List Nat) (hs : ValSync e d) (hv : v < 2 ^ 64)
    (hbp : r.bit_pos < 8) (hal : e.count = 0 → r.bit_pos = 0)
    (h : r.rbits = valStepBits e v ++ rest) :
    ∃ d' r', d.read_value r = .ok (v, d', r') ∧
      ValSync (valStepState e v) d' ∧ r'.data = r.data ∧ r'.bit_pos < 8 ∧
      (e.count = 0 → r'.bit_pos = 0) ∧ r'.rbits = rest := by
  obtain ⟨hcnt, hpl255, hprev, hwin⟩ := hs
  by_cases hc0 : e.count = 0
  · rw [valStepBits, if_pos hc0] at h
    obtain ⟨r', h1, h2, h3, h4⟩ := ValDec.readValue_first d r v rest
      (hcnt.mp hc0) (hal hc0) hv h
    refine ⟨_, r', h1, ?_, h2, by omega, fun _ => h3, h4⟩
    unfold valStepState ValSync
    rw [if_pos hc0]
    refine ⟨by simp, by simp, fun _ => ⟨rfl, hv⟩, ?_⟩
    intro hne
    exact absurd (hpl255 hc0) hne
  · have hdc0 : d.count ≠ 0 := fun hh => hc0 (hcnt.mpr hh)
    obtain ⟨hdprev, hplt⟩ := hprev hc0
    by_cases hx0 : v ^^^ e.prev_value_bits = 0
    · rw [valStepBits, if_neg hc0, if_pos hx0] at h
      obtain ⟨r', h1, h2, h3, h4⟩ := ValDec.readValue_same d r rest hdc0 hbp h
      have hveq : v = e.prev_value_bits := Nat.xor_eq_zero.mp hx0
      refine ⟨d, r', ?_, ?_, h2, h3, fun hh => absurd hh hc0, h4⟩
      · rw [h1, hdprev, hveq]
      · unfold valStepState ValSync
        rw [if_neg hc0, if_pos hx0]
        refine ⟨by simp [hdc0], by simp, fun _ => ?_, fun hne => ?_⟩
        · exact ⟨by simp [hdprev, hveq], by simpa using hv⟩
        · exact hwin hne
    · have hxlt : v ^^^ e.prev_value_bits < 2 ^ 64 :=
        Nat.xor_lt_two_pow hv hplt
      obtain ⟨hf1, hf2, hf3, hf4, hf5⟩ :=
        xorWindow_facts (v ^^^ e.prev_value_bits) hx0 hxlt
      by_cases hru : valReuse e (v ^^^ e.prev_value_bits)
      · obtain ⟨hne255, hlle, htle⟩ := hru
        obtain ⟨hwpl, hwpt, hw31, hw63⟩ := hwin hne255
        rw [valStepBits, if_neg hc0, if_neg hx0,
          if_pos ⟨hne255, hlle, htle⟩] at h
        rw [reuseBits] at h
        have hXlt : (v ^^^ e.prev_value_bits) >>> e.prev_trailing
            < 2 ^ (64 - e.prev_leading - e.prev_trailing) := by
          rw [Nat.shiftRight_eq_div_pow]
          apply Nat.div_lt_of_lt_mul
          have hsum : 64 - e.prev_leading
              = (64 - e.prev_leading - e.prev_trailing) + e.prev_trailing := by
            omega
          have hlt2 : v ^^^ e.prev_value_bits < 2 ^ (64 - e.prev_leading) := by
            have hmon : (2 : Nat) ^ (64 - xorLeading (v ^^^ e.prev_value_bits))
                ≤ 2 ^ (64 - e.prev_leading) :=
              Nat.pow_le_pow_right (by norm_num) (by omega)
            omega
          calc v ^^^ e.prev_value_bits < 2 ^ (64 - e.prev_leading) := hlt2
            _ = 2 ^ e.prev_trailing
                * 2 ^ (64 - e.prev_leading - e.prev_trailing) := by
                rw [← pow_add]
                congr 1
                omega
        have hdvd : 2 ^ e.prev_trailing ∣ v ^^^ e.prev_value_bits :=
          dvd_trans (pow_dvd_pow 2 htle) hf4
        obtain ⟨r', h1, h2, h3, h4⟩ := ValDec.readValue_reuse d r rest
          ((v ^^^ e.prev_value_bits) >>> e.prev_trailing) hdc0 hbp
          (by omega) (by rw [hwpl, hwpt]; exact hXlt)
          (by rw [hwpl, hwpt]; exact h)
        have hrec : ((v ^^^ e.prev_value_bits) >>> e.prev_trailing)
            <<< d.prev_trailing = v ^^^ e.prev_value_bits := by
          rw [hwpt]
          exact xor_recombine _ _ hdvd
        have hval : d.prev_value_bits
            ^^^ (((v ^^^ e.prev_value_bits) >>> e.prev_trailing)
              <<< d.prev_trailing) = v := by
          rw [hrec, hdprev]
          exact xor_unxor _ _
        refine ⟨⟨d.prev_value_bits
            ^^^ (((v ^^^ e.prev_value_bits) >>> e.prev_trailing)
              <<< d.prev_trailing), d.prev_leading, d.prev_trailing,
            d.count + 1⟩, r', ?_, ?_, h2, h3, fun hh => absurd hh hc0, h4⟩
        · rw [h1, hval]
        · unfold valStepState ValSync
          rw [if_neg hc0, if_neg hx0, if_pos ⟨hne255, hlle, htle⟩]
          refine ⟨by simp [hcnt, hdc0, hc0], by simp, fun _ => ⟨?_, hv⟩,
            fun hne => ?_⟩
          · simp [hval]
          · exact ⟨by simp [hwpl], by simp [hwpt], hw31, hw63⟩
      · rw [valStepBits, if_neg hc0, if_neg hx0, if_neg hru] at h
        rw [newWindowBits] at h
        have hXlt : (v ^^^ e.prev_value_bits)
            >>> xorTrailing (v ^^^ e.prev_value_bits)
            < 2 ^ (64 - xorLeading (v ^^^ e.prev_value_bits)
              - xorTrailing (v ^^^ e.prev_value_bits)) := by
          rw [Nat.shiftRight_eq_div_pow]
          apply Nat.div_lt_of_lt_mul
          calc v ^^^ e.prev_value_bits
              < 2 ^ (64 - xorLeading (v ^^^ e.prev_value_bits)) := hf3
            _ = 2 ^ xorTrailing (v ^^^ e.prev_value_bits)
                * 2 ^ (64 - xorLeading (v ^^^ e.prev_value_bits)
                  - xorTrailing (v ^^^ e.prev_value_bits)) := by
                rw [← pow_add]
                congr 1
                omega
        obtain ⟨r', h1, h2, h3, h4⟩ := ValDec.readValue_new d r rest
          (xorLeading (v ^^^ e.prev_value_bits))
          (xorTrailing (v ^^^ e.prev_value_bits))
          ((v ^^^ e.prev_value_bits) >>> xorTrailing (v ^^^ e.prev_value_bits))
          hdc0 hbp hf1 hf2 hXlt h
        have hrec : ((v ^^^ e.prev_value_bits)
            >>> xorTrailing (v ^^^ e.prev_value_bits))
            <<< xorTrailing (v ^^^ e.prev_value_bits) = v ^^^ e.prev_value_bits :=
          xor_recombine _ _ hf4
        have hval : d.prev_value_bits
            ^^^ (((v ^^^ e.prev_value_bits)
              >>> xorTrailing (v ^^^ e.prev_value_bits))
              <<< xorTrailing (v ^^^ e.prev_value_bits)) = v := by
          rw [hrec, hdprev]
          exact xor_unxor _ _
        refine ⟨⟨d.prev_value_bits
            ^^^ (((v ^^^ e.prev_value_bits)
              >>> xorTrailing (v ^^^ e.prev_value_bits))
              <<< xorTrailing (v ^^^ e.prev_value_bits)),
            xorLeading (v ^^^ e.prev_value_bits),
            xorTrailing (v ^^^ e.prev_value_bits), d.count + 1⟩, r',
            ?_, ?_, h2, h3, fun hh => absurd hh hc0, h4⟩
        · rw [h1, hval]
        · unfold valStepState ValSync
          rw [if_neg hc0, if_neg hx0, if_neg hru]
          refine ⟨by simp [hcnt, hdc0, hc0], by simp, fun _ => ⟨?_, hv⟩,
            fun _ => ⟨by simp [hval], by simp, hf1, hf2⟩⟩
          simp [hval]

/-- Decoder step against the verification-variant encoder: the decoder is
the same; only which record was emitted differs. -/
theorem ValDec.read_value_okV (e : ValEnc) (d : ValDec) (r : BitReader)
    (v : Nat) (rest : List Nat) (hs : ValSync e d) (hv : v < 2 ^ 64)
    (hbp : r.bit_pos < 8) (hal : e.count = 0 → r.bit_pos = 0)
    (h : r.rbits = valStepBitsV e v ++ rest) :
    ∃ d' r', d.read_value r = .ok (v, d', r') ∧
      ValSync (valStepStateV e v) d' ∧ r'.data = r.data ∧ r'.bit_pos < 8 ∧
      (e.count = 0 → r'.bit_pos = 0) ∧ r'.rbits = rest := by
  obtain ⟨hcnt, hpl255, hprev, hwin⟩ := hs
  by_cases hc0 : e.count = 0
  · rw [valStepBitsV, if_pos hc0] at h
    obtain ⟨r', h1, h2, h3, h4⟩ := ValDec.readValue_first d r v rest
      (hcnt.mp hc0) (hal hc0) hv h
    refine ⟨_, r', h1, ?_, h2, by omega, fun _ => h3, h4⟩
    unfold valStepStateV ValSync
    rw [if_pos hc0]
    refine ⟨by simp, by simp, fun _ => ⟨rfl, hv⟩, ?_⟩
    intro hne
    exact absurd (hpl255 hc0) hne
  · have hdc0 : d.count ≠ 0 := fun hh => hc0 (hcnt.mpr hh)
    obtain ⟨hdprev, hplt⟩ := hprev hc0
    by_cases hx0 : v ^^^ e.prev_value_bits = 0
    · rw [valStepBitsV, if_neg hc0, if_pos hx0] at h
      obtain ⟨r', h1, h2, h3, h4⟩ := ValDec.readValue_same d r rest hdc0 hbp h
      have hveq : v = e.prev_value_bits := Nat.xor_eq_zero.mp hx0
      refine ⟨d, r', ?_, ?_, h2, h3, fun hh => absurd hh hc0, h4⟩
      · rw [h1, hdprev, hveq]
      · unfold valStepStateV ValSync
        rw [if_neg hc0, if_pos hx0]
        refine ⟨by simp [hdc0], by simp, fun _ => ?_, fun hne => ?_⟩
        · exact ⟨by simp [hdprev, hveq], by simpa using hv⟩
        · exact hwin hne
    · have hxlt : v ^^^ e.prev_value_bits < 2 ^ 64 :=
        Nat.xor_lt_two_pow hv hplt
      obtain ⟨hf1, hf2, hf3, hf4, hf5⟩ :=
        xorWindow_facts (v ^^^ e.prev_value_bits) hx0 hxlt
      by_cases hru : valReuseV e (v ^^^ e.prev_value_bits)
      · obtain ⟨hne255, hlle, htle, hwaste⟩ := hru
        obtain ⟨hwpl, hwpt, hw31, hw63⟩ := hwin hne255
        rw [valStepBitsV, if_neg hc0, if_neg hx0,
          if_pos ⟨hne255, hlle, htle, hwaste⟩] at h
        rw [reuseBits] at h
        have hXlt : (v ^^^ e.prev_value_bits) >>> e.prev_trailing
            < 2 ^ (64 - e.prev_leading - e.prev_trailing) := by
          rw [Nat.shiftRight_eq_div_pow]
          apply Nat.div_lt_of_lt_mul
          have hlt2 : v ^^^ e.prev_value_bits < 2 ^ (64 - e.prev_leading) := by
            have hmon : (2 : Nat) ^ (64 - xorLeading (v ^^^ e.prev_value_bits))
                ≤ 2 ^ (64 - e.prev_leading) :=
              Nat.pow_le_pow_right (by norm_num) (by omega)
            omega
          calc v ^^^ e.prev_value_bits < 2 ^ (64 - e.prev_leading) := hlt2
            _ = 2 ^ e.prev_trailing
                * 2 ^ (64 - e.prev_leading - e.prev_trailing) := by
                rw [← pow_add]
                congr 1
                omega
        have hdvd : 2 ^ e.prev_trailing ∣ v ^^^ e.prev_value_bits :=
          dvd_trans (pow_dvd_pow 2 htle) hf4
        obtain ⟨r', h1, h2, h3, h4⟩ := ValDec.readValue_reuse d r rest
          ((v ^^^ e.prev_value_bits) >>> e.prev_trailing) hdc0 hbp
          (by omega) (by rw [hwpl, hwpt]; exact hXlt)
          (by rw [hwpl, hwpt]; exact h)
        have hrec : ((v ^^^ e.prev_value_bits) >>> e.prev_trailing)
            <<< d.prev_trailing = v ^^^ e.prev_value_bits := by
          rw [hwpt]
          exact xor_recombine _ _ hdvd
        have hval : d.prev_value_bits
            ^^^ (((v ^^^ e.prev_value_bits) >>> e.prev_trailing)
              <<< d.prev_trailing) = v := by
          rw [hrec, hdprev]
          exact xor_unxor _ _
        refine ⟨⟨d.prev_value_bits
            ^^^ (((v ^^^ e.prev_value_bits) >>> e.prev_trailing)
              <<< d.prev_trailing), d.prev_leading, d.prev_trailing,
            d.count + 1⟩, r', ?_, ?_, h2, h3, fun hh => absurd hh hc0, h4⟩
        · rw [h1, hval]
        · unfold valStepStateV ValSync
          rw [if_neg hc0, if_neg hx0, if_pos ⟨hne255, hlle, htle, hwaste⟩]
          refine ⟨by simp [hcnt, hdc0, hc0], by simp, fun _ => ⟨?_, hv⟩,
            fun hne => ?_⟩
          · simp [hval]
          · exact ⟨by simp [hwpl], by simp [hwpt], hw31, hw63⟩
      · rw [valStepBitsV, if_neg hc0, if_neg hx0, if_neg hru] at h
        rw [newWindowBits] at h
        have hXlt : (v ^^^ e.prev_value_bits)
            >>> xorTrailing (v ^^^ e.prev_value_bits)
            < 2 ^ (64 - xorLeading (v ^^^ e.prev_value_bits)
              - xorTrailing (v ^^^ e.prev_value_bits)) := by
          rw [Nat.shiftRight_eq_div_pow]
          apply Nat.div_lt_of_lt_mul
          calc v ^^^ e.prev_value_bits
              < 2 ^ (64 - xorLeading (v ^^^ e.prev_value_bits)) := hf3
            _ = 2 ^ xorTrailing (v ^^^ e.prev_value_bits)
                * 2 ^ (64 - xorLeading (v ^^^ e.prev_value_bits)
                  - xorTrailing (v ^^^ e.prev_value_bits)) := by
                rw [← pow_add]
                congr 1
                omega
        obtain ⟨r', h1, h2, h3, h4⟩ := ValDec.readValue_new d r rest
          (xorLeading (v ^^^ e.prev_value_bits))
          (xorTrailing (v ^^^ e.prev_value_bits))
          ((v ^^^ e.prev_value_bits) >>> xorTrailing (v ^^^ e.prev_value_bits))
          hdc0 hbp hf1 hf2 hXlt h
        have hrec : ((v ^^^ e.prev_value_bits)
            >>> xorTrailing (v ^^^ e.prev_value_bits))
            <<< xorTrailing (v ^^^ e.prev_value_bits) = v ^^^ e.prev_value_bits :=
          xor_recombine _ _ hf4
        have hval : d.prev_value_bits
            ^^^ (((v ^^^ e.prev_value_bits)
              >>> xorTrailing (v ^^^ e.prev_value_bits))
              <<< xorTrailing (v ^^^ e.prev_value_bits)) = v := by
          rw [hrec, hdprev]
          exact xor_unxor _ _
        refine ⟨⟨d.prev_value_bits
            ^^^ (((v ^^^ e.prev_value_bits)
              >>> xorTrailing (v ^^^ e.prev_value_bits))
              <<< xorTrailing (v ^^^ e.prev_value_bits)),
            xorLeading (v ^^^ e.prev_value_bits),
            xorTrailing (v ^^^ e.prev_value_bits), d.count + 1⟩, r',
            ?_, ?_, h2, h3, fun hh => absurd hh hc0, h4⟩
        · rw [h1, hval]
        · unfold valStepStateV ValSync
          rw [if_neg hc0, if_neg hx0, if_neg hru]
          refine ⟨by simp [hcnt, hdc0, hc0], by simp, fun _ => ⟨?_, hv⟩,
            fun _ => ⟨by simp [hval], by simp, hf1, hf2⟩⟩
          simp [hval]

/-! multivariate_storage.py: blocks, decoder, series.

The Python `_val_encoders`/`_val_decoders` dicts are built by a
comprehension over `var_names`, so their keys are exactly the (unique)
variable names; they are embedded as association lists in `var_names`
order, read with `alookup` and written with `aupdate` (first match), which
agrees with the dict on those keys.  A `values` dict argument becomes a
partial map `String → Option Nat` from names to 64-bit double patterns. -/

/-- First-match association-list lookup (`d[name]`). -/
def alookup {β : Type} : List (String × β) → String → Option β
  | [], _ => none
  | p :: t, n => if p.1 = n then some p.2 else alookup t n

/-- First-match association-list update (`d[name] = x`; the key is left in
place, preserving dict ordering). -/
def aupdate {β : Type} : List (String × β) → String → β → List (String × β)
  | [], _, _ => []
  | p :: t, n, x => if p.1 = n then (p.1, x) :: t else p :: aupdate t n x

/-- State of `MultiVariateBlock`.  After `seal` the Python code nulls
`_writer`/`_ts_encoder`/`_val_encoders`; the embedding keeps their last
values, which no method of a closed block reads. -/
structure MultiVariateBlock where
  var_names : List String
  writer : BitWriter
  ts_encoder : TsEnc
  val_encoders : List (String × ValEnc)
  count : Nat
  closed : Bool
  compressed_data : Option (List Nat)
  start_timestamp : Option Int
deriving DecidableEq, Repr

/-- `MultiVariateBlock.__init__`. -/
def MultiVariateBlock.mkBlock (variable_names : List String)
    (start_timestamp : Option Int) : Except PyErr MultiVariateBlock :=
  if variable_names = [] then .error .valueError
  else
    .ok ⟨variable_names, BitWriter.init, TsEnc.init,
      variable_names.map (fun n => (n, ValEnc.init)), 0, false, none,
      start_timestamp⟩

/-- The value-encoding loop of `MultiVariateBlock.add`
(`for name in self._var_names: self._val_encoders[name].add_value(...)`).
A missing dict key would raise `KeyError` with the state mutated so far. -/
def encodeValues (values : String → Option Nat) :
    List String → List (String × ValEnc) → BitWriter →
    List (String × ValEnc) × BitWriter × Option PyErr
  | [], encs, w => (encs, w, none)
  | n :: rest, encs, w =>
    match alookup encs n with
    | none => (encs, w, some .keyError)
    | some enc =>
      match values n with
      | none => (encs, w, some .keyError)
      | some x =>
        encodeValues values rest (aupdate encs n (enc.add_value w x).1)
          (enc.add_value w x).2

/-- `MultiVariateBlock.add`.  The checks run in source order: closed block,
missing variables, then `start_timestamp` is set on the first point, the
timestamp is encoded, and each value is encoded in `var_names` order.  An
exception leaves every mutation made before the raise in place. -/
def MultiVariateBlock.add (b : MultiVariateBlock) (timestamp : Int)
    (values : String → Option Nat) : MultiVariateBlock × Option PyErr :=
  if b.closed then (b, some .valueError)
  else if ∃ n ∈ b.var_names, values n = none then (b, some .valueError)
  else
    match ({ b with start_timestamp :=
        if b.count = 0 ∧ b.start_timestamp = none then some timestamp
        else b.start_timestamp } : MultiVariateBlock) with
    | b1 =>
      match b1.ts_encoder.add_timestamp b1.writer timestamp with
      | (e', w', some er) => ({ b1 with ts_encoder := e', writer := w' }, some er)
      | (e', w', none) =>
        match encodeValues values b1.var_names b1.val_encoders w' with
        | (encs', w2, some er) =>
          ({ b1 with ts_encoder := e', writer := w2, val_encoders := encs' },
            some er)
        | (encs', w2, none) =>
          ({ b1 with
              ts_encoder := e', writer := w2, val_encoders := encs'
              count := b1.count + 1 }, none)

/-- `MultiVariateBlock.seal`: flush the writer (`to_bytes` pads the partial
byte with zero bits), store the data and mark the block closed; idempotent. -/
def MultiVariateBlock.seal (b : MultiVariateBlock) :
    MultiVariateBlock × List Nat :=
  if b.closed then (b, b.compressed_data.getD [])
  else
    ({ b with closed := true, compressed_data := some b.writer.to_bytes },
      b.writer.to_bytes)

/-- `MultiVariateBlock.get_compressed_data`.  On an open block the source
returns `self._writer.to_bytes()`, and `to_bytes` calls `align_to_byte` on
the live writer before copying the buffer, so the open block's writer is
zero-padded to a byte boundary as a side effect of the read. -/
def MultiVariateBlock.get_compressed_data (b : MultiVariateBlock) :
    Option (List Nat) × MultiVariateBlock :=
  if b.closed = false then
    (some b.writer.to_bytes, { b with writer := b.writer.align_to_byte })
  else (b.compressed_data, b)

/-- State of `MultiVariateDecoder`. -/
structure MultiVariateDecoder where
  var_names : List String
  reader : BitReader
  ts_decoder : TsDec
  val_decoders : List (String × ValDec)
  count : Nat
deriving DecidableEq, Repr

/-- `MultiVariateDecoder.__init__`. -/
def MultiVariateDecoder.mkDecoder (data : List Nat)
    (variable_names : List String) : MultiVariateDecoder :=
  ⟨variable_names, ⟨data, 0, 0⟩, TsDec.init,
    variable_names.map (fun n => (n, ValDec.init)), 0⟩

/-- The value-reading loop of `read_point`; the decoded values are collected
in `var_names` order, which is the association order of the Python dict it
builds. -/
def readValues : List String → List (String × ValDec) → BitReader →
    Except PyErr (List (String × Nat) × List (String × ValDec) × BitReader)
  | [], decs, r => .ok ([], decs, r)
  | n :: rest, decs, r =>
    match alookup decs n with
    | none => .error .keyError
    | some dec =>
      match dec.read_value r with
      | .error e => .error e
      | .ok (v, dec', r') =>
        match readValues rest (aupdate decs n dec') r' with
        | .error e => .error e
        | .ok (vs, decs', r2) => .ok ((n, v) :: vs, decs', r2)

/-- `MultiVariateDecoder.read_point`. -/
def MultiVariateDecoder.read_point (d : MultiVariateDecoder) :
    Except PyErr ((Int × List (String × Nat)) × MultiVariateDecoder) :=
  match d.ts_decoder.read_timestamp d.reader with
  | .error e => .error e
  | .ok (timestamp, ts', r') =>
    match readValues d.var_names d.val_decoders r' with
    | .error e => .error e
    | .ok (vs, decs', r2) =>
      .ok ((timestamp, vs), ⟨d.var_names, r2, ts', decs', d.count + 1⟩)

/-- `MultiVariateDecoder.read_all`. -/
def MultiVariateDecoder.read_all (d : MultiVariateDecoder) :
    Nat → Except PyErr (List (Int × List (String × Nat)) × MultiVariateDecoder)
  | 0 => .ok ([], d)
  | k + 1 =>
    match d.read_point with
    | .error e => .error e
    | .ok (p, d') =>
      match d'.read_all k with
      | .error e => .error e
      | .ok (ps, d2) => .ok (p :: ps, d2)

/-- State of `MultiVariateSeries`; a closed-block entry is
`(start_ts, count, data)` as in the source. -/
structure MultiVariateSeries where
  var_names : List String
  block_duration : Int
  open_block : Option MultiVariateBlock
  closed_blocks : List (Int × Nat × List Nat)
deriving DecidableEq, Repr

/-- `MultiVariateSeries.__init__`. -/
def MultiVariateSeries.mkSeries (variable_names : List String)
    (block_duration_ms : Int) : MultiVariateSeries :=
  ⟨variable_names, block_duration_ms, none, []⟩

/-- `MultiVariateSeries._create_new_block`: Python `//` is flooring
division, `Int.fdiv`. -/
def MultiVariateSeries.create_new_block (s : MultiVariateSeries)
    (timestamp : Int) : MultiVariateSeries × Option PyErr :=
  match MultiVariateBlock.mkBlock s.var_names
      (some (Int.fdiv timestamp s.block_duration * s.block_duration)) with
  | .error e => (s, some e)
  | .ok b => ({ s with open_block := some b }, none)

/-- `MultiVariateSeries._close_current_block`.  The guard
`if self._open_block and self._open_block.count > 0` seals and records the
block; either way `_open_block` becomes `None`.  A `None` start timestamp
cannot reach the record (a block with a point has one), matching the `getD`. -/
def MultiVariateSeries.close_current_block (s : MultiVariateSeries) :
    MultiVariateSeries :=
  match s.open_block with
  | some b =>
    if 0 < b.count then
      { s with
        open_block := none
        closed_blocks := s.closed_blocks
          ++ [(b.start_timestamp.getD 0, b.count, b.seal.2)] }
    else { s with open_block := none }
  | none => { s with open_block := none }

/-- The final `self._open_block.add(timestamp, values)` of `insert`; on the
(unreachable) `None` block Python would raise `AttributeError`, folded into
`typeError` here. -/
def insertIntoOpen (s : MultiVariateSeries) (timestamp : Int)
    (values : String → Option Nat) : MultiVariateSeries × Option PyErr :=
  match s.open_block with
  | none => (s, some .typeError)
  | some b =>
    match b.add timestamp values with
    | (b', er) => ({ s with open_block := some b' }, er)

/-- `MultiVariateSeries.insert`: rotate to a fresh aligned block when the
timestamp falls at or beyond the open block's end, then add the point.
`None + int` in the rotation test would be a `TypeError` (unreachable:
blocks are created with a start). -/
def MultiVariateSeries.insert (s : MultiVariateSeries) (timestamp : Int)
    (values : String → Option Nat) : MultiVariateSeries × Option PyErr :=
  match s.open_block with
  | none =>
    match s.create_new_block timestamp with
    | (s', some e) => (s', some e)
    | (s', none) => insertIntoOpen s' timestamp values
  | some b =>
    match b.start_timestamp with
    | none => (s, some .typeError)
    | some st =>
      if st + s.block_duration ≤ timestamp then
        match (s.close_current_block).create_new_block timestamp with
        | (s', some e) => (s', some e)
        | (s', none) => insertIntoOpen s' timestamp values
      else insertIntoOpen s timestamp values

/-- `MultiVariateSeries.flush`. -/
def MultiVariateSeries.flush (s : MultiVariateSeries) : MultiVariateSeries :=
  s.close_current_block

/-- The `for _ in range(count)` decode-and-filter loop of `query`
(`if t_start <= ts <= t_end: results.append(...)`). -/
def queryBlockLoop (t_start t_end : Int) :
    Nat → MultiVariateDecoder → Except PyErr (List (Int × List (String × Nat)))
  | 0, _ => .ok []
  | k + 1, d =>
    match d.read_point with
    | .error e => .error e
    | .ok ((ts, vs), d') =>
      match queryBlockLoop t_start t_end k d' with
      | .error e => .error e
      | .ok res =>
        .ok (if t_start ≤ ts ∧ ts ≤ t_end then (ts, vs) :: res else res)

/-- The closed-block scan of `query`: a block overlapping
`[t_start, t_end]` (`block_start <= t_end and block_end >= t_start`) is
decoded from scratch and filtered. -/
def queryClosed (var_names : List String) (dur t_start t_end : Int) :
    List (Int × Nat × List Nat) → Except PyErr (List (Int × List (String × Nat)))
  | [] => .ok []
  | (block_start, count, data) :: rest =>
    if block_start ≤ t_end ∧ t_start ≤ block_start + dur then
      match queryBlockLoop t_start t_end count
          (MultiVariateDecoder.mkDecoder data var_names) with
      | .error e => .error e
      | .ok res =>
        match queryClosed var_names dur t_start t_end rest with
        | .error e => .error e
        | .ok res2 => .ok (res ++ res2)
    else queryClosed var_names dur t_start t_end rest

/-- `MultiVariateSeries.query`: scan the closed blocks, then the open block
if it has points and overlaps.  The open-block path calls
`get_compressed_data`, whose writer flush mutates the series, so the
(possibly) mutated series is returned alongside the results. -/
def MultiVariateSeries.query (s : MultiVariateSeries) (t_start t_end : Int) :
    Except PyErr (List (Int × List (String × Nat))) × MultiVariateSeries :=
  match queryClosed s.var_names s.block_duration t_start t_end
      s.closed_blocks with
  | .error e => (.error e, s)
  | .ok res1 =>
    match s.open_block with
    | none => (.ok res1, s)
    | some b =>
      if 0 < b.count then
        match b.start_timestamp with
        | none => (.error .typeError, s)
        | some block_start =>
          if block_start ≤ t_end ∧ t_start ≤ block_start + s.block_duration then
            match b.get_compressed_data with
            | (none, b') => (.error .typeError, { s with open_block := some b' })
            | (some data, b') =>
              match queryBlockLoop t_start t_end b.count
                  (MultiVariateDecoder.mkDecoder data s.var_names) with
              | .error e => (.error e, { s with open_block := some b' })
              | .ok res2 =>
                (.ok (res1 ++ res2), { s with open_block := some b' })
          else (.ok res1, s)
      else (.ok res1, s)

/-- `MultiVariateSeries.query_all`. -/
def MultiVariateSeries.query_all (s : MultiVariateSeries) :
    Except PyErr (List (Int × List (String × Nat))) × MultiVariateSeries :=
  s.query 0 (2 ^ 63 - 1)

/-! Iterated insertion, and the views the round-trip statements use. -/

/-- A point as handed to `add`/`insert`: a timestamp and the per-variable
64-bit double patterns. -/
abbrev MVPoint := Int × (String → Option Nat)

/-- `add` called once per point, stopping at the first exception. -/
def blockAddAll (b : MultiVariateBlock) :
    List MVPoint → MultiVariateBlock × Option PyErr
  | [] => (b, none)
  | p :: rest =>
    match b.add p.1 p.2 with
    | (b', none) => blockAddAll b' rest
    | (b', some e) => (b', some e)

/-- `insert` called once per point, stopping at the first exception. -/
def insertAll (s : MultiVariateSeries) :
    List MVPoint → MultiVariateSeries × Option PyErr
  | [] => (s, none)
  | p :: rest =>
    match s.insert p.1 p.2 with
    | (s', none) => insertAll s' rest
    | (s', some e) => (s', some e)

/-- What `read_point` should return for an input point: the timestamp and
the values listed in `var_names` order. -/
def pointView (V : List String) (p : MVPoint) : Int × List (String × Nat) :=
  (p.1, V.map (fun n => (n, (p.2 n).getD 0)))

/-- Every variable of `V` is present in `vals` with a 64-bit pattern. -/
def ValsOk (V : List String) (vals : String → Option Nat) : Prop :=
  ∀ n ∈ V, (vals n).getD (2 ^ 64) < 2 ^ 64

instance ValsOk_dec (V : List String) (vals : String → Option Nat) :
    Decidable (ValsOk V vals) := by
  unfold ValsOk
  infer_instance

/-! Association-list facts used to reason about the encoder/decoder dicts. -/

theorem aupdate_keys {β : Type} (l : List (String × β)) (n : String) (x : β) :
    (aupdate l n x).map Prod.fst = l.map Prod.fst := by
  induction l with
  | nil => rfl
  | cons p t ih =>
    unfold aupdate
    by_cases h : p.1 = n
    · rw [if_pos h]
      simp [h]
    · rw [if_neg h]
      simp [ih]

theorem alookup_isSome_iff {β : Type} (l : List (String × β)) (n : String) :
    (alookup l n).isSome ↔ n ∈ l.map Prod.fst := by
  induction l with
  | nil => simp [alookup]
  | cons p t ih =>
    unfold alookup
    by_cases h : p.1 = n
    · rw [if_pos h]
      simp [h]
    · rw [if_neg h]
      simp only [List.map_cons, List.mem_cons, ih]
      constructor
      · intro hh
        exact Or.inr hh
      · rintro (hh | hh)
        · exact absurd hh.symm h
        · exact hh

theorem alookup_aupdate_self {β : Type} (l : List (String × β)) (n : String)
    (x : β) (h : (alookup l n).isSome) :
    alookup (aupdate l n x) n = some x := by
  induction l with
  | nil => simp [alookup] at h
  | cons p t ih =>
    unfold aupdate
    by_cases hp : p.1 = n
    · rw [if_pos hp]
      unfold alookup
      rw [if_pos hp]
    · rw [if_neg hp]
      unfold alookup
      rw [if_neg hp]
      unfold alookup at h
      rw [if_neg hp] at h
      exact ih h

theorem alookup_aupdate_ne {β : Type} (l : List (String × β)) (n m : String)
    (x : β) (h : m ≠ n) : alookup (aupdate l n x) m = alookup l m := by
  induction l with
  | nil => rfl
  | cons p t ih =>
    unfold aupdate
    by_cases hp : p.1 = n
    · rw [if_pos hp]
      unfold alookup
      have hm : ¬ p.1 = m := fun hh => h (hh ▸ hp)
      rw [if_neg hm, if_neg hm]
    · rw [if_neg hp]
      unfold alookup
      by_cases hm : p.1 = m
      · rw [if_pos hm, if_pos hm]
      · rw [if_neg hm, if_neg hm]
        exact ih

theorem alookup_mem {β : Type} (l : List (String × β)) (n : String) (x : β)
    (h : alookup l n = some x) : (n, x) ∈ l := by
  induction l with
  | nil => simp [alookup] at h
  | cons p t ih =>
    unfold alookup at h
    by_cases hp : p.1 = n
    · rw [if_pos hp] at h
      have hx : p.2 = x := by
        injection h
      have hpe : (n, x) = p := by
        rw [← hp, ← hx]
      rw [hpe]
      exact List.mem_cons_self p t
    · rw [if_neg hp] at h
      exact List.mem_cons_of_mem _ (ih h)

theorem mem_aupdate_nodup {β : Type} (l : List (String × β)) (n : String)
    (x : β) (hnd : (l.map Prod.fst).Nodup) :
    ∀ p ∈ aupdate l n x, (p ∈ l ∧ p.1 ≠ n) ∨ p = (n, x) := by
  induction l with
  | nil => intro p hp; simp [aupdate] at hp
  | cons q t ih =>
    simp only [List.map_cons, List.nodup_cons] at hnd
    intro p hp
    unfold aupdate at hp
    by_cases hq : q.1 = n
    · rw [if_pos hq] at hp
      rcases List.mem_cons.mp hp with hh | hh
      · right
        rw [hh, hq]
      · left
        refine ⟨List.mem_cons_of_mem _ hh, ?_⟩
        intro hcon
        have hmm : p.1 ∈ t.map Prod.fst := List.mem_map_of_mem Prod.fst hh
        have hq1 : q.1 = p.1 := by rw [hq, hcon]
        exact hnd.1 (hq1 ▸ hmm)
    · rw [if_neg hq] at hp
      rcases List.mem_cons.mp hp with hh | hh
      · left
        exact ⟨hh ▸ List.mem_cons_self q t, hh ▸ hq⟩
      · rcases ih hnd.2 p hh with hcase | hcase
        · exact Or.inl ⟨List.mem_cons_of_mem _ hcase.1, hcase.2⟩
        · exact Or.inr hcase

theorem alookup_map_const {β : Type} (V : List String) (c : β) (n : String)
    (h : n ∈ V) : alookup (V.map (fun m => (m, c))) n = some c := by
  induction V with
  | nil => simp at h
  | cons m t ih =>
    unfold alookup
    simp only [List.map_cons]
    by_cases hm : m = n
    · rw [if_pos hm]
    · rw [if_neg hm]
      rcases List.mem_cons.mp h with hh | hh
      · exact absurd hh.symm hm
      · exact ih hh

/-- Pointwise synchronisation of the per-variable encoder and decoder
dicts: same keys in the same order, `ValSync` entrywise. -/
def ValsSync (encs : List (String × ValEnc)) (decs : List (String × ValDec)) :
    Prop :=
  List.Forall₂ (fun pe pd => pe.1 = pd.1 ∧ ValSync pe.2 pd.2) encs decs

theorem valsSync_init (V : List String) :
    ValsSync (V.map (fun n => (n, ValEnc.init)))
      (V.map (fun n => (n, ValDec.init))) := by
  induction V with
  | nil => exact List.Forall₂.nil
  | cons n t ih => exact List.Forall₂.cons ⟨rfl, ValSync_init⟩ ih

theorem valsSync_lookup (encs : List (String × ValEnc))
    (decs : List (String × ValDec)) (n : String) (e : ValEnc)
    (hs : ValsSync encs decs) (h : alookup encs n = some e) :
    ∃ d, alookup decs n = some d ∧ ValSync e d := by
  induction hs with
  | nil => simp [alookup] at h
  | cons hpq hrest ih =>
    rename_i pe pd te td
    unfold alookup at h ⊢
    by_cases hp : pe.1 = n
    · rw [if_pos hp] at h
      rw [if_pos (hpq.1 ▸ hp)]
      have he : pe.2 = e := by
        injection h
      exact ⟨pd.2, rfl, he ▸ hpq.2⟩
    · rw [if_neg hp] at h
      rw [if_neg (fun hh => hp (hpq.1 ▸ hh))]
      exact ih h

theorem valsSync_update (encs : List (String × ValEnc))
    (decs : List (String × ValDec)) (n : String) (e : ValEnc) (d : ValDec)
    (hs : ValsSync encs decs) (h : ValSync e d) :
    ValsSync (aupdate encs n e) (aupdate decs n d) := by
  induction hs with
  | nil => exact List.Forall₂.nil
  | cons hpq hrest ih =>
    rename_i pe pd te td
    unfold aupdate
    by_cases hp : pe.1 = n
    · rw [if_pos hp, if_pos (hpq.1 ▸ hp)]
      exact List.Forall₂.cons ⟨hpq.1, h⟩ hrest
    · rw [if_neg hp, if_neg (fun hh => hp (hpq.1 ▸ hh))]
      exact List.Forall₂.cons hpq ih

theorem valsSync_keys (encs : List (String × ValEnc))
    (decs : List (String × ValDec)) (hs : ValsSync encs decs) :
    decs.map Prod.fst = encs.map Prod.fst := by
  induction hs with
  | nil => rfl
  | cons hpq hrest ih =>
    simp only [List.map_cons, ih, hpq.1]

/-! Pure views of the value-encoding loop. -/

/-- Encoder dict after the value loop of one `add`. -/
def valsStepEncs (values : String → Option Nat) :
    List String → List (String × ValEnc) → List (String × ValEnc)
  | [], encs => encs
  | n :: rest, encs =>
    match alookup encs n with
    | none => encs
    | some enc =>
      valsStepEncs values rest
        (aupdate encs n (valStepState enc ((values n).getD 0)))

/-- Bits appended by the value loop of one `add`. -/
def valsStepBits (values : String → Option Nat) :
    List String → List (String × ValEnc) → List Nat
  | [], _ => []
  | n :: rest, encs =>
    match alookup encs n with
    | none => []
    | some enc =>
      valStepBits enc ((values n).getD 0)
        ++ valsStepBits values rest
          (aupdate encs n (valStepState enc ((values n).getD 0)))

theorem valsStepEncs_cons (values : String → Option Nat) (n : String)
    (rest : List String) (encs : List (String × ValEnc)) (enc : ValEnc)
    (henc : alookup encs n = some enc) :
    valsStepEncs values (n :: rest) encs
      = valsStepEncs values rest
          (aupdate encs n (valStepState enc ((values n).getD 0))) := by
  unfold valsStepEncs
  simp only [henc]
  cases rest <;> rfl

theorem valsStepBits_cons (values : String → Option Nat) (n : String)
    (rest : List String) (encs : List (String × ValEnc)) (enc : ValEnc)
    (henc : alookup encs n = some enc) :
    valsStepBits values (n :: rest) encs
      = valStepBits enc ((values n).getD 0)
        ++ valsStepBits values rest
          (aupdate encs n (valStepState enc ((values n).getD 0))) := by
  unfold valsStepBits
  simp only [henc]
  cases rest <;> rfl

theorem encodeValues_cons (values : String → Option Nat) (n : String)
    (rest : List String) (encs : List (String × ValEnc)) (w : BitWriter)
    (enc : ValEnc) (x : Nat) (henc : alookup encs n = some enc)
    (hx : values n = some x) :
    encodeValues values (n :: rest) encs w
      = encodeValues values rest (aupdate encs n (enc.add_value w x).1)
          (enc.add_value w x).2 := by
  unfold encodeValues
  simp only [henc, hx]
  cases rest <;> rfl

theorem valsStepEncs_keys (values : String → Option Nat) :
    ∀ (names : List String) (encs : List (String × ValEnc)),
    (∀ n ∈ names, n ∈ encs.map Prod.fst) →
    (valsStepEncs values names encs).map Prod.fst = encs.map Prod.fst := by
  intro names
  induction names with
  | nil => intro encs _; rfl
  | cons n rest ih =>
    intro encs hkeys
    have hn : (alookup encs n).isSome :=
      (alookup_isSome_iff encs n).mpr (hkeys n (List.mem_cons_self n rest))
    obtain ⟨enc, henc⟩ := Option.isSome_iff_exists.mp hn
    unfold valsStepEncs
    rw [henc]
    rw [ih _ ?_, aupdate_keys]
    intro m hm
    rw [aupdate_keys]
    exact hkeys m (List.mem_cons_of_mem n hm)

theorem valsStepEncs_counts (values : String → Option Nat) :
    ∀ (names : List String) (encs : List (String × ValEnc)) (c : Nat),
    names.Nodup → (encs.map Prod.fst).Nodup →
    (∀ n ∈ names, n ∈ encs.map Prod.fst) →
    (∀ p ∈ encs, (p.1 ∈ names → p.2.count = c) ∧
      (p.1 ∉ names → p.2.count = c + 1)) →
    ∀ p ∈ valsStepEncs values names encs, p.2.count = c + 1 := by
  intro names
  induction names with
  | nil =>
    intro encs c _ _ _ hcnt p hp
    exact (hcnt p hp).2 (by simp)
  | cons n rest ih =>
    intro encs c hnd hknd hkeys hcnt
    have hn : (alookup encs n).isSome :=
      (alookup_isSome_iff encs n).mpr (hkeys n (List.mem_cons_self n rest))
    obtain ⟨enc, henc⟩ := Option.isSome_iff_exists.mp hn
    have hencc : enc.count = c :=
      (hcnt _ (alookup_mem encs n enc henc)).1 (List.mem_cons_self n rest)
    unfold valsStepEncs
    rw [henc]
    have hstepc : (valStepState enc ((values n).getD 0)).count = c + 1 := by
      unfold valStepState
      split
      · rename_i h0
        rw [show (⟨(values n).getD 0, enc.prev_leading, enc.prev_trailing,
          1⟩ : ValEnc).count = 1 from rfl]
        omega
      · split
        · rw [show ∀ a b c1, (⟨a, b, c1, enc.count + 1⟩ : ValEnc).count
            = enc.count + 1 from fun _ _ _ => rfl]
          omega
        · split
          · rw [show ∀ a b c1, (⟨a, b, c1, enc.count + 1⟩ : ValEnc).count
              = enc.count + 1 from fun _ _ _ => rfl]
            omega
          · rw [show ∀ a b c1, (⟨a, b, c1, enc.count + 1⟩ : ValEnc).count
              = enc.count + 1 from fun _ _ _ => rfl]
            omega
    apply ih _ c (List.Nodup.of_cons hnd) ?_ ?_ ?_
    · rw [aupdate_keys]
      exact hknd
    · intro m hm
      rw [aupdate_keys]
      exact hkeys m (List.mem_cons_of_mem n hm)
    · intro p hp
      rcases mem_aupdate_nodup encs n _ hknd p hp with ⟨hpin, hpne⟩ | hpeq
      · constructor
        · intro hrest
          exact (hcnt p hpin).1 (List.mem_cons_of_mem n hrest)
        · intro hrest
          apply (hcnt p hpin).2
          intro hcon
          rcases List.mem_cons.mp hcon with hh | hh
          · exact hpne hh
          · exact hrest hh
      · have hnd1 := List.nodup_cons.mp hnd
        constructor
        · intro hrest
          rw [hpeq] at hrest
          exact absurd hrest hnd1.1
        · intro _
          rw [hpeq]
          exact hstepc

theorem encodeValues_ok (values : String → Option Nat) :
    ∀ (names : List String) (encs : List (String × ValEnc)) (w : BitWriter)
      (c : Nat),
    names.Nodup → (encs.map Prod.fst).Nodup → w.WFw →
    (∀ n ∈ names, n ∈ encs.map Prod.fst) →
    (∀ n ∈ names, (values n).isSome) →
    (∀ p ∈ encs, (p.1 ∈ names → p.2.count = c) ∧
      (p.1 ∉ names → p.2.count = c + 1)) →
    (c = 0 → w.nbits = 0) →
    ∃ w', encodeValues values names encs w
        = (valsStepEncs values names encs, w', none) ∧
      w'.WFw ∧ w'.wbits = w.wbits ++ valsStepBits values names encs ∧
      (c = 0 → w'.nbits = 0) := by
  intro names
  induction names with
  | nil =>
    intro encs w c _ _ hw _ _ _ hal
    exact ⟨w, rfl, hw, by simp [valsStepBits], hal⟩
  | cons n rest ih =>
    intro encs w c hnd hknd hw hkeys hvals hcnt hal
    have hn : (alookup encs n).isSome :=
      (alookup_isSome_iff encs n).mpr (hkeys n (List.mem_cons_self n rest))
    obtain ⟨enc, henc⟩ := Option.isSome_iff_exists.mp hn
    obtain ⟨x, hx⟩ :=
      Option.isSome_iff_exists.mp (hvals n (List.mem_cons_self n rest))
    have hgd : (values n).getD 0 = x := by
      rw [hx]
      rfl
    have hencc : enc.count = c :=
      (hcnt _ (alookup_mem encs n enc henc)).1 (List.mem_cons_self n rest)
    obtain ⟨hst, hwf1, hwb1, hnb1⟩ := ValEnc.add_value_ok enc w x hw
      (fun h0 => hal (by omega))
    have hstep1 : (valStepState enc ((values n).getD 0)).count = c + 1 := by
      unfold valStepState
      split
      · show 1 = c + 1
        omega
      · split
        · show enc.count + 1 = c + 1
          omega
        · split
          · show enc.count + 1 = c + 1
            omega
          · show enc.count + 1 = c + 1
            omega
    have hcnt' : ∀ p ∈ aupdate encs n (valStepState enc ((values n).getD 0)),
        (p.1 ∈ rest → p.2.count = c) ∧ (p.1 ∉ rest → p.2.count = c + 1) := by
      intro p hp
      rcases mem_aupdate_nodup encs n _ hknd p hp with ⟨hpin, hpne⟩ | hpeq
      · constructor
        · intro hrest
          exact (hcnt p hpin).1 (List.mem_cons_of_mem n hrest)
        · intro hrest
          apply (hcnt p hpin).2
          intro hcon
          rcases List.mem_cons.mp hcon with hh | hh
          · exact hpne hh
          · exact hrest hh
      · have hnd1 := List.nodup_cons.mp hnd
        constructor
        · intro hrest
          rw [hpeq] at hrest
          exact absurd hrest hnd1.1
        · intro _
          rw [hpeq]
          exact hstep1
    obtain ⟨w', hrec, hwf', hwb', hal'⟩ := ih
      (aupdate encs n (valStepState enc ((values n).getD 0)))
      (enc.add_value w x).2 c (List.Nodup.of_cons hnd)
      (by rw [aupdate_keys]; exact hknd) hwf1
      (fun m hm => by
        rw [aupdate_keys]
        exact hkeys m (List.mem_cons_of_mem n hm))
      (fun m hm => hvals m (List.mem_cons_of_mem n hm))
      hcnt' (fun h0 => hnb1 (by omega))
    refine ⟨w', ?_, hwf', ?_, hal'⟩
    · rw [encodeValues_cons values n rest encs w enc x henc hx]
      rw [show (enc.add_value w x).1
        = valStepState enc ((values n).getD 0) by rw [hgd]; exact hst]
      rw [hrec, valsStepEncs_cons values n rest encs enc henc]
    · rw [hwb', hwb1, valsStepBits_cons values n rest encs enc henc, hgd,
        List.append_assoc]

theorem readValues_cons (n : String) (rest : List String)
    (decs : List (String × ValDec)) (r : BitReader) (dec dec' : ValDec)
    (v : Nat) (r' : BitReader) (vs : List (String × Nat))
    (decs2 : List (String × ValDec)) (r2 : BitReader)
    (hdec : alookup decs n = some dec)
    (hrv : dec.read_value r = .ok (v, dec', r'))
    (hrec : readValues rest (aupdate decs n dec') r' = .ok (vs, decs2, r2)) :
    readValues (n :: rest) decs r = .ok ((n, v) :: vs, decs2, r2) := by
  unfold readValues
  simp only [hdec, hrv, hrec]

theorem readValues_ok (values : String → Option Nat) :
    ∀ (names : List String) (encs : List (String × ValEnc))
      (decs : List (String × ValDec)) (r : BitReader) (c : Nat)
      (rest : List Nat),
    names.Nodup → (encs.map Prod.fst).Nodup →
    (∀ n ∈ names, n ∈ encs.map Prod.fst) →
    (∀ n ∈ names, (values n).getD (2 ^ 64) < 2 ^ 64) →
    (∀ p ∈ encs, (p.1 ∈ names → p.2.count = c) ∧
      (p.1 ∉ names → p.2.count = c + 1)) →
    ValsSync encs decs →
    r.bit_pos < 8 → (c = 0 → r.bit_pos = 0) →
    r.rbits = valsStepBits values names encs ++ rest →
    ∃ decs' r', readValues names decs r
        = .ok (names.map (fun n => (n, (values n).getD 0)), decs', r') ∧
      ValsSync (valsStepEncs values names encs) decs' ∧
      r'.data = r.data ∧ r'.bit_pos < 8 ∧ (c = 0 → r'.bit_pos = 0) ∧
      r'.rbits = rest := by
  intro names
  induction names with
  | nil =>
    intro encs decs r c rest _ _ _ _ _ hsync hbp hal h
    rw [show valsStepBits values [] encs = [] from rfl] at h
    exact ⟨decs, r, rfl, hsync, rfl, hbp, hal, by rw [h]; rfl⟩
  | cons n rest ih =>
    intro encs decs r c tail hnd hknd hkeys hvals hcnt hsync hbp hal h
    have hn : (alookup encs n).isSome :=
      (alookup_isSome_iff encs n).mpr (hkeys n (List.mem_cons_self n rest))
    obtain ⟨enc, henc⟩ := Option.isSome_iff_exists.mp hn
    have hencc : enc.count = c :=
      (hcnt _ (alookup_mem encs n enc henc)).1 (List.mem_cons_self n rest)
    obtain ⟨dec, hdec, hvsync⟩ := valsSync_lookup encs decs n enc hsync henc
    have hvlt : (values n).getD 0 < 2 ^ 64 := by
      have hb := hvals n (List.mem_cons_self n rest)
      cases hvn : values n with
      | none =>
        rw [hvn] at hb
        simp only [Option.getD_none] at hb
        exact absurd hb (lt_irrefl _)
      | some y =>
        rw [hvn] at hb
        simp only [Option.getD_some] at hb ⊢
        exact hb
    rw [valsStepBits_cons values n rest encs enc henc, List.append_assoc] at h
    obtain ⟨dec', r', hrv, hvsync', hdata', hbp', hal', hrb'⟩ :=
      ValDec.read_value_ok enc dec r ((values n).getD 0)
        (valsStepBits values rest
          (aupdate encs n (valStepState enc ((values n).getD 0))) ++ tail)
        hvsync hvlt hbp (fun h0 => hal (by omega)) h
    have hstep1 : (valStepState enc ((values n).getD 0)).count = c + 1 := by
      unfold valStepState
      split
      · show 1 = c + 1
        omega
      · split
        · show enc.count + 1 = c + 1
          omega
        · split
          · show enc.count + 1 = c + 1
            omega
          · show enc.count + 1 = c + 1
            omega
    have hcnt' : ∀ p ∈ aupdate encs n (valStepState enc ((values n).getD 0)),
        (p.1 ∈ rest → p.2.count = c) ∧ (p.1 ∉ rest → p.2.count = c + 1) := by
      intro p hp
      rcases mem_aupdate_nodup encs n _ hknd p hp with ⟨hpin, hpne⟩ | hpeq
      · constructor
        · intro hrest
          exact (hcnt p hpin).1 (List.mem_cons_of_mem n hrest)
        · intro hrest
          apply (hcnt p hpin).2
          intro hcon
          rcases List.mem_cons.mp hcon with hh | hh
          · exact hpne hh
          · exact hrest hh
      · have hnd1 := List.nodup_cons.mp hnd
        constructor
        · intro hrest
          rw [hpeq] at hrest
          exact absurd hrest hnd1.1
        · intro _
          rw [hpeq]
          exact hstep1
    obtain ⟨decs', r2, hrec, hsync2, hdata2, hbp2, hal2, hrb2⟩ := ih
      (aupdate encs n (valStepState enc ((values n).getD 0)))
      (aupdate decs n dec') r' c tail (List.Nodup.of_cons hnd)
      (by rw [aupdate_keys]; exact hknd)
      (fun m hm => by
        rw [aupdate_keys]
        exact hkeys m (List.mem_cons_of_mem n hm))
      (fun m hm => hvals m (List.mem_cons_of_mem n hm))
      hcnt'
      (valsSync_update encs decs n _ dec' hsync hvsync')
      hbp' (fun h0 => hal' (by omega)) hrb'
    refine ⟨decs', r2, ?_, ?_, hdata2.trans hdata', hbp2, hal2, hrb2⟩
    · exact readValues_cons n rest decs r dec dec' ((values n).getD 0) r'
        _ decs' r2 hdec hrv hrec
    · rw [valsStepEncs_cons values n rest encs enc henc]
      exact hsync2

/-! Inversion lemmas: what a successful call tells us about its input. -/

theorem BitWriter.write_i64_err (w : BitWriter) (x : Int) (h : ¬ i64Ok x) :
    w.write_i64 x = .error .structError := by
  unfold BitWriter.write_i64
  rw [if_pos]
  unfold i64Ok at h
  by_contra hc
  push_neg at hc
  exact h ⟨hc.1, hc.2⟩

theorem to_twos_err (x : Int) (m : Nat) (hm : m ≠ 0)
    (h : ¬(-(2 ^ (m - 1)) ≤ x ∧ x ≤ 2 ^ (m - 1) - 1)) :
    to_twos_complement x m = .error .valueError := by
  unfold to_twos_complement
  rw [if_neg hm]
  have hd : x < -(2 ^ (m - 1)) ∨ (2 : Int) ^ (m - 1) - 1 < x := by
    by_contra hc
    push_neg at hc
    exact h ⟨hc.1, hc.2⟩
  simp only
  rw [if_pos hd]

theorem BitWriter.write_signed_err (w : BitWriter) (x : Int) (m : Nat)
    (hm : m ≠ 0) (h : ¬(-(2 ^ (m - 1)) ≤ x ∧ x ≤ 2 ^ (m - 1) - 1)) :
    w.write_signed x m = .error .valueError := by
  unfold BitWriter.write_signed
  rw [to_twos_err x m hm h]
  rfl

theorem encodeDod_err (w : BitWriter) (dod : Int) (h : ¬ dodEncOk dod) :
    (encodeDod w dod).2 = some .valueError := by
  have h0 : ¬ dod = 0 := fun hc => h (Or.inl hc)
  unfold encodeDod
  rw [if_neg h0]
  by_cases h1 : -63 ≤ dod ∧ dod ≤ 64
  · rw [if_pos h1]
    rw [BitWriter.write_signed_err _ dod 7 (by norm_num) ?_]
    · intro hc
      apply h
      right; left
      norm_num at hc
      exact ⟨h1.1, hc.2⟩
  · rw [if_neg h1]
    by_cases h2 : -255 ≤ dod ∧ dod ≤ 256
    · rw [if_pos h2]
      rw [BitWriter.write_signed_err _ dod 9 (by norm_num) ?_]
      · intro hc
        apply h
        right; right; left
        norm_num at hc
        exact ⟨h1, h2.1, hc.2⟩
    · rw [if_neg h2]
      by_cases h3 : -2047 ≤ dod ∧ dod ≤ 2048
      · rw [if_pos h3]
        rw [BitWriter.write_signed_err _ dod 12 (by norm_num) ?_]
        · intro hc
          apply h
          right; right; right; left
          norm_num at hc
          exact ⟨h2, h3.1, hc.2⟩
      · rw [if_neg h3]
        rw [BitWriter.write_signed_err _ dod 32 (by norm_num) ?_]
        · intro hc
          apply h
          right; right; right; right
          norm_num at hc
          exact ⟨h3, hc.1, by omega⟩

theorem TsEnc.add_timestamp_none (e : TsEnc) (w : BitWriter) (t : Int)
    (h : (e.add_timestamp w t).2.2 = none) : tsStepOk e t := by
  unfold TsEnc.add_timestamp at h
  unfold tsStepOk
  by_cases hc0 : e.count = 0
  · rw [if_pos hc0] at h ⊢
    by_contra hok
    rw [BitWriter.write_i64_err w t hok] at h
    simp at h
  · rw [if_neg hc0] at h ⊢
    cases hpt : e.prev_timestamp with
    | none =>
      simp only [hpt] at h
      simp at h
    | some pt =>
      simp only [hpt] at h ⊢
      by_cases hc1 : e.count = 1
      · rw [if_pos hc1] at h ⊢
        by_contra hok
        rw [BitWriter.write_i64_err w (t - pt) hok] at h
        simp at h
      · rw [if_neg hc1] at h ⊢
        cases hpd : e.prev_delta with
        | none =>
          simp only [hpd] at h
          simp at h
        | some pd =>
          simp only [hpd] at h ⊢
          by_contra hok
          have herr := encodeDod_err w ((t - pt) - pd) hok
          rcases henc : encodeDod w ((t - pt) - pd) with ⟨w', oe⟩
          rw [henc] at h herr
          simp only at herr
          rw [herr] at h
          simp at h

theorem tsStepState_count (e : TsEnc) (t : Int) (hok : tsStepOk e t) :
    (tsStepState e t).count = e.count + 1 := by
  unfold tsStepOk at hok
  unfold tsStepState
  by_cases hc0 : e.count = 0
  · rw [if_pos hc0]
    show 1 = e.count + 1
    omega
  · rw [if_neg hc0] at hok ⊢
    cases hpt : e.prev_timestamp with
    | none =>
      rw [hpt] at hok
      simp at hok
    | some pt =>
      simp only [hpt]
      by_cases hc1 : e.count = 1
      · rw [if_pos hc1]
        show 2 = e.count + 1
        omega
      · rw [if_neg hc1]

/-! The block-level invariant and footprint. -/

/-- The block produced by a successful `MultiVariateBlock.__init__`. -/
def blockInit (V : List String) (st : Option Int) : MultiVariateBlock :=
  ⟨V, BitWriter.init, TsEnc.init, V.map (fun n => (n, ValEnc.init)), 0, false,
    none, st⟩

theorem mkBlock_eq (V : List String) (st : Option Int) (hV : V ≠ []) :
    MultiVariateBlock.mkBlock V st = .ok (blockInit V st) := by
  unfold MultiVariateBlock.mkBlock blockInit
  rw [if_neg hV]

/-- Invariant of an open block: well-formed writer, distinct variable names
that key the encoder dict, all codec counts in lockstep with the block
count, and a byte-aligned writer while only 8-byte records have been
written. -/
def MVInv (b : MultiVariateBlock) : Prop :=
  b.writer.WFw ∧ b.var_names ≠ [] ∧ b.var_names.Nodup ∧
  b.val_encoders.map Prod.fst = b.var_names ∧
  (∀ p ∈ b.val_encoders, p.2.count = b.count) ∧
  b.ts_encoder.count = b.count ∧
  (b.count ≤ 1 → b.writer.nbits = 0) ∧
  b.closed = false

theorem MVInv_init (V : List String) (st : Option Int) (hV : V ≠ [])
    (hnd : V.Nodup) : MVInv (blockInit V st) := by
  refine ⟨BitWriter.WFw_init, hV, hnd, ?_, ?_, rfl, fun _ => rfl, rfl⟩
  · show (V.map (fun n => (n, ValEnc.init))).map Prod.fst = V
    rw [List.map_map]
    exact List.map_id'' (fun _ => rfl) V
  · intro p hp
    obtain ⟨n, _, hn⟩ := List.mem_map.mp hp
    rw [← hn]
    rfl

/-- Bits appended by one successful `add`. -/
def blockStepBits (b : MultiVariateBlock) (p : MVPoint) : List Nat :=
  tsStepBits b.ts_encoder p.1 ++ valsStepBits p.2 b.var_names b.val_encoders

/-- Bits appended by a successful run of `add` over a point list. -/
def blockAllBits (b : MultiVariateBlock) : List MVPoint → List Nat
  | [] => []
  | p :: rest => blockStepBits b p ++ blockAllBits (b.add p.1 p.2).1 rest

theorem MultiVariateBlock.add_ok (b : MultiVariateBlock) (t : Int)
    (vals : String → Option Nat) (hinv : MVInv b)
    (hok : (b.add t vals).2 = none) :
    b.add t vals
      = (⟨b.var_names, (b.add t vals).1.writer, tsStepState b.ts_encoder t,
          valsStepEncs vals b.var_names b.val_encoders, b.count + 1, b.closed,
          b.compressed_data,
          if b.count = 0 ∧ b.start_timestamp = none then some t
          else b.start_timestamp⟩, none) ∧
    MVInv (b.add t vals).1 ∧
    (b.add t vals).1.writer.wbits
      = b.writer.wbits ++ blockStepBits b (t, vals) ∧
    tsStepOk b.ts_encoder t := by
  obtain ⟨hw, hVne, hVnd, hkeys, hcnts, htsc, halw, hcl⟩ := hinv
  have hclosed : ¬(b.closed = true) := by
    rw [hcl]
    exact Bool.false_ne_true
  by_cases hmiss : ∃ n ∈ b.var_names, vals n = none
  · exfalso
    unfold MultiVariateBlock.add at hok
    rw [if_neg hclosed, if_pos hmiss] at hok
    simp at hok
  have hvpres : ∀ n ∈ b.var_names, (vals n).isSome := by
    intro n hn
    cases hvn : vals n with
    | none => exact absurd ⟨n, hn, hvn⟩ hmiss
    | some y => rfl
  have hknd : (b.val_encoders.map Prod.fst).Nodup := by
    rw [hkeys]
    exact hVnd
  have hred : b.add t vals
      = (match b.ts_encoder.add_timestamp b.writer t with
        | (e', w', some er) =>
          (⟨b.var_names, w', e', b.val_encoders, b.count, b.closed,
            b.compressed_data,
            if b.count = 0 ∧ b.start_timestamp = none then some t
            else b.start_timestamp⟩, some er)
        | (e', w', none) =>
          match encodeValues vals b.var_names b.val_encoders w' with
          | (encs', w2, some er) =>
            (⟨b.var_names, w2, e', encs', b.count, b.closed,
              b.compressed_data,
              if b.count = 0 ∧ b.start_timestamp = none then some t
              else b.start_timestamp⟩, some er)
          | (encs', w2, none) =>
            (⟨b.var_names, w2, e', encs', b.count + 1, b.closed,
              b.compressed_data,
              if b.count = 0 ∧ b.start_timestamp = none then some t
              else b.start_timestamp⟩, none)) := by
    unfold MultiVariateBlock.add
    rw [if_neg hclosed, if_neg hmiss]
  rcases hA : b.ts_encoder.add_timestamp b.writer t with ⟨e', w', oe⟩
  cases oe with
  | some er =>
    exfalso
    rw [hred] at hok
    rw [hA] at hok
    simp at hok
  | none =>
    have htsok : tsStepOk b.ts_encoder t :=
      TsEnc.add_timestamp_none b.ts_encoder b.writer t (by rw [hA])
    obtain ⟨w2, hAeq, hw2, hwb2, hal2⟩ :=
      TsEnc.add_timestamp_ok b.ts_encoder b.writer t hw
        (fun hle => halw (by omega)) htsok
    have he' : e' = tsStepState b.ts_encoder t := by
      rw [hA] at hAeq
      injection hAeq with h1 h2
    have hw' : w' = w2 := by
      rw [hA] at hAeq
      injection hAeq with h1 h2
      injection h2
    obtain ⟨w3, hEeq, hw3, hwb3, hal3⟩ :=
      encodeValues_ok vals b.var_names b.val_encoders w2 b.count hVnd hknd hw2
        (fun n hn => by rw [hkeys]; exact hn) hvpres
        (fun p hp =>
          ⟨fun _ => hcnts p hp,
            fun hni =>
              absurd (by rw [← hkeys]; exact List.mem_map_of_mem Prod.fst hp)
                hni⟩)
        (fun hc0 => hal2 (by omega))
    have hfinal : b.add t vals
        = (⟨b.var_names, w3, tsStepState b.ts_encoder t,
            valsStepEncs vals b.var_names b.val_encoders, b.count + 1,
            b.closed, b.compressed_data,
            if b.count = 0 ∧ b.start_timestamp = none then some t
            else b.start_timestamp⟩, none) := by
      rw [hred, hA, he', hw']
      simp only [hAeq, hEeq]
    refine ⟨?_, ?_, ?_, htsok⟩
    · rw [hfinal]
    · rw [hfinal]
      refine ⟨hw3, hVne, hVnd, ?_, ?_, ?_, ?_, hcl⟩
      · show (valsStepEncs vals b.var_names b.val_encoders).map Prod.fst
          = b.var_names
        rw [valsStepEncs_keys vals b.var_names b.val_encoders
          (fun n hn => by rw [hkeys]; exact hn)]
        exact hkeys
      · show ∀ p ∈ valsStepEncs vals b.var_names b.val_encoders,
          p.2.count = b.count + 1
        exact valsStepEncs_counts vals b.var_names b.val_encoders b.count hVnd
          hknd (fun n hn => by rw [hkeys]; exact hn)
          (fun p hp =>
            ⟨fun _ => hcnts p hp,
              fun hni =>
                absurd
                  (by rw [← hkeys]; exact List.mem_map_of_mem Prod.fst hp)
                  hni⟩)
      · show (tsStepState b.ts_encoder t).count = b.count + 1
        rw [tsStepState_count b.ts_encoder t htsok, htsc]
      · show b.count + 1 ≤ 1 → w3.nbits = 0
        intro hle
        exact hal3 (by omega)
    · rw [hfinal]
      show w3.wbits = b.writer.wbits ++ blockStepBits b (t, vals)
      rw [hwb3, hwb2]
      unfold blockStepBits
      rw [List.append_assoc]

theorem MultiVariateDecoder.read_point_ok (b : MultiVariateBlock)
    (d : MultiVariateDecoder) (t : Int) (vals : String → Option Nat)
    (rest : List Nat) (hinv : MVInv b) (hok : (b.add t vals).2 = none)
    (hvo : ValsOk b.var_names vals) (hvn : d.var_names = b.var_names)
    (hts : TsSync b.ts_encoder d.ts_decoder)
    (hvs : ValsSync b.val_encoders d.val_decoders)
    (hbp : d.reader.bit_pos < 8) (hal : b.count ≤ 1 → d.reader.bit_pos = 0)
    (hrb : d.reader.rbits = blockStepBits b (t, vals) ++ rest) :
    ∃ d', d.read_point = .ok (pointView b.var_names (t, vals), d') ∧
      d'.var_names = b.var_names ∧
      TsSync (b.add t vals).1.ts_encoder d'.ts_decoder ∧
      ValsSync (b.add t vals).1.val_encoders d'.val_decoders ∧
      d'.reader.data = d.reader.data ∧ d'.reader.bit_pos < 8 ∧
      ((b.add t vals).1.count ≤ 1 → d'.reader.bit_pos = 0) ∧
      d'.reader.rbits = rest := by
  obtain ⟨hfeq, hinv', hwb', htsok⟩ :=
    MultiVariateBlock.add_ok b t vals hinv hok
  obtain ⟨hw, hVne, hVnd, hkeys, hcnts, htsc, halw, hcl⟩ := hinv
  have hknd : (b.val_encoders.map Prod.fst).Nodup := by
    rw [hkeys]
    exact hVnd
  rw [show blockStepBits b (t, vals)
      = tsStepBits b.ts_encoder t
        ++ valsStepBits vals b.var_names b.val_encoders from rfl,
    List.append_assoc] at hrb
  obtain ⟨d1, r1, hts_eq, hts', hdata1, hbp1, hal1, hrb1⟩ :=
    TsDec.read_timestamp_ok b.ts_encoder d.ts_decoder d.reader t
      (valsStepBits vals b.var_names b.val_encoders ++ rest) hts hbp
      (fun hle => hal (by omega)) htsok hrb
  obtain ⟨decs', r2, hrv_eq, hvs', hdata2, hbp2, hal2, hrb2⟩ :=
    readValues_ok vals b.var_names b.val_encoders d.val_decoders r1 b.count
      rest hVnd hknd (fun n hn => by rw [hkeys]; exact hn) hvo
      (fun p hp =>
        ⟨fun _ => hcnts p hp,
          fun hni =>
            absurd (by rw [← hkeys]; exact List.mem_map_of_mem Prod.fst hp)
              hni⟩)
      hvs hbp1 (fun hc0 => hal1 (by omega)) hrb1
  refine ⟨⟨d.var_names, r2, d1, decs', d.count + 1⟩, ?_, hvn, ?_, ?_,
    hdata2.trans hdata1, hbp2, ?_, hrb2⟩
  · unfold MultiVariateDecoder.read_point
    simp only [hts_eq]
    rw [hvn]
    simp only [hrv_eq]
    rfl
  · rw [hfeq]
    exact hts'
  · rw [hfeq]
    exact hvs'
  · intro hle
    rw [hfeq] at hle
    have hc0 : b.count = 0 := by
      have : b.count + 1 ≤ 1 := hle
      omega
    exact hal2 hc0

theorem blockAddAll_cons_ok (b : MultiVariateBlock) (p : MVPoint)
    (rest : List MVPoint) (hok : (blockAddAll b (p :: rest)).2 = none) :
    (b.add p.1 p.2).2 = none ∧
    blockAddAll b (p :: rest) = blockAddAll (b.add p.1 p.2).1 rest := by
  rcases hA : b.add p.1 p.2 with ⟨b', oe⟩
  cases oe with
  | some er =>
    exfalso
    unfold blockAddAll at hok
    rw [hA] at hok
    simp at hok
  | none =>
    constructor
    · rfl
    · simp only [blockAddAll]
      rw [hA]

theorem blockAllBits_cons (b : MultiVariateBlock) (p : MVPoint)
    (rest : List MVPoint) :
    blockAllBits b (p :: rest)
      = blockStepBits b p ++ blockAllBits (b.add p.1 p.2).1 rest := rfl

theorem blockAddAll_ok : ∀ (pts : List MVPoint) (b : MultiVariateBlock),
    MVInv b → (blockAddAll b pts).2 = none →
    MVInv (blockAddAll b pts).1 ∧
    (blockAddAll b pts).1.var_names = b.var_names ∧
    (blockAddAll b pts).1.count = b.count + pts.length ∧
    (blockAddAll b pts).1.writer.wbits
      = b.writer.wbits ++ blockAllBits b pts ∧
    (b.start_timestamp.isSome →
      (blockAddAll b pts).1.start_timestamp = b.start_timestamp) := by
  intro pts
  induction pts with
  | nil =>
    intro b hinv _
    exact ⟨hinv, rfl, rfl,
      by
        simp only [blockAddAll]
        rw [show blockAllBits b [] = [] from rfl, List.append_nil],
      fun _ => rfl⟩
  | cons p rest ih =>
    intro b hinv hok
    obtain ⟨hA, hsplit⟩ := blockAddAll_cons_ok b p rest hok
    rw [hsplit] at hok ⊢
    obtain ⟨hfeq, hinv', hwb', _⟩ := MultiVariateBlock.add_ok b p.1 p.2 hinv hA
    obtain ⟨ih1, ih2, ih3, ih4, ih5⟩ := ih (b.add p.1 p.2).1 hinv' hok
    refine ⟨ih1, ?_, ?_, ?_, ?_⟩
    · rw [ih2, hfeq]
    · rw [ih3, hfeq]
      show b.count + 1 + rest.length = b.count + (rest.length + 1)
      omega
    · rw [ih4, hwb', blockAllBits_cons, List.append_assoc]
    · intro hsome
      rw [ih5, hfeq]
      · rw [hfeq]
        show (if b.count = 0 ∧ b.start_timestamp = none then some p.1
          else b.start_timestamp) = b.start_timestamp
        have hne : ¬(b.count = 0 ∧ b.start_timestamp = none) := by
          intro hc
          rw [hc.2] at hsome
          simp at hsome
        rw [if_neg hne]
      · rw [hfeq]
        show (if b.count = 0 ∧ b.start_timestamp = none then some p.1
            else b.start_timestamp).isSome
        have hne : ¬(b.count = 0 ∧ b.start_timestamp = none) := by
          intro hc
          rw [hc.2] at hsome
          simp at hsome
        rw [if_neg hne]
        exact hsome

theorem MultiVariateDecoder.read_all_ok :
    ∀ (pts : List MVPoint) (b : MultiVariateBlock) (d : MultiVariateDecoder)
      (rest : List Nat),
    MVInv b → (blockAddAll b pts).2 = none →
    (∀ p ∈ pts, ValsOk b.var_names p.2) →
    d.var_names = b.var_names → TsSync b.ts_encoder d.ts_decoder →
    ValsSync b.val_encoders d.val_decoders →
    d.reader.bit_pos < 8 → (b.count ≤ 1 → d.reader.bit_pos = 0) →
    d.reader.rbits = blockAllBits b pts ++ rest →
    ∃ d', d.read_all pts.length = .ok (pts.map (pointView b.var_names), d') ∧
      d'.reader.data = d.reader.data ∧ d'.reader.rbits = rest ∧
      d'.reader.bit_pos < 8 := by
  intro pts
  induction pts with
  | nil =>
    intro b d rest _ _ _ _ _ _ hbp _ hrb
    rw [show blockAllBits b [] = [] from rfl] at hrb
    exact ⟨d, rfl, rfl, by rw [hrb]; rfl, hbp⟩
  | cons p tailp ih =>
    intro b d rest hinv hok hvo hvn hts hvs hbp hal hrb
    obtain ⟨hA, hsplit⟩ := blockAddAll_cons_ok b p tailp hok
    rw [hsplit] at hok
    obtain ⟨hfeq, hinv', hwb', _⟩ := MultiVariateBlock.add_ok b p.1 p.2 hinv hA
    rw [blockAllBits_cons, List.append_assoc] at hrb
    obtain ⟨d1, hrp_eq, hvn1, hts1, hvs1, hdata1, hbp1, hal1, hrb1⟩ :=
      MultiVariateDecoder.read_point_ok b d p.1 p.2
        (blockAllBits (b.add p.1 p.2).1 tailp ++ rest) hinv hA
        (hvo p (List.mem_cons_self p tailp)) hvn hts hvs hbp hal
        (by rw [hrb])
    have hvn' : (b.add p.1 p.2).1.var_names = b.var_names := by
      rw [hfeq]
    obtain ⟨d2, hra_eq, hdata2, hrb2, hbp2⟩ := ih (b.add p.1 p.2).1 d1 rest
      hinv' hok
      (fun q hq => by
        rw [hvn']
        exact hvo q (List.mem_cons_of_mem p hq))
      (by rw [hvn1, hvn']) hts1 hvs1 hbp1 hal1 hrb1
    refine ⟨d2, ?_, hdata2.trans hdata1, hrb2, hbp2⟩
    show d.read_all (tailp.length + 1) = _
    unfold MultiVariateDecoder.read_all
    simp only [hrp_eq, hra_eq]
    rw [hvn']
    simp only [List.map_cons]

theorem MultiVariateBlock.seal_open (b : MultiVariateBlock)
    (h : b.closed = false) :
    b.seal = ({ b with
      closed := true
      compressed_data := some b.writer.to_bytes }, b.writer.to_bytes) := by
  unfold MultiVariateBlock.seal
  rw [if_neg (by simp [h])]

/-- Round trip of one block: the points a successful `add` run stored are
decoded back exactly (as timestamp/bit-pattern pairs) by a fresh
`MultiVariateDecoder` over the sealed bytes, leaving only the zero padding
of the final partial byte unread. -/
theorem block_decode (V : List String) (st : Option Int) (pts : List MVPoint)
    (hV : V ≠ []) (hnd : V.Nodup)
    (hok : (blockAddAll (blockInit V st) pts).2 = none)
    (hvo : ∀ p ∈ pts, ValsOk V p.2) :
    ∃ d', (MultiVariateDecoder.mkDecoder
        ((blockAddAll (blockInit V st) pts).1.seal.2) V).read_all pts.length
      = .ok (pts.map (pointView V), d') ∧
      d'.reader.rbits = List.replicate
        (padLen (blockAddAll (blockInit V st) pts).1.writer.nbits) 0 := by
  have hinv0 : MVInv (blockInit V st) := MVInv_init V st hV hnd
  obtain ⟨hinvF, hvnF, hcntF, hwbF, _⟩ := blockAddAll_ok pts (blockInit V st)
    hinv0 hok
  have hdata : (blockAddAll (blockInit V st) pts).1.seal.2
      = (blockAddAll (blockInit V st) pts).1.writer.to_bytes := by
    rw [MultiVariateBlock.seal_open _ hinvF.2.2.2.2.2.2.2]
  have hbb : bytesBits (blockAddAll (blockInit V st) pts).1.writer.to_bytes
      = blockAllBits (blockInit V st) pts
        ++ List.replicate
          (padLen (blockAddAll (blockInit V st) pts).1.writer.nbits) 0 := by
    rw [BitWriter.to_bytes_spec _ hinvF.1, hwbF]
    rw [show (blockInit V st).writer.wbits = [] from BitWriter.wbits_init]
    rw [List.nil_append]
  obtain ⟨d', hred, _, hrb', _⟩ := MultiVariateDecoder.read_all_ok pts
    (blockInit V st)
    (MultiVariateDecoder.mkDecoder
      ((blockAddAll (blockInit V st) pts).1.seal.2) V)
    (List.replicate (padLen (blockAddAll (blockInit V st) pts).1.writer.nbits)
      0)
    hinv0 hok hvo rfl TsSync_init (valsSync_init V)
    (by show (0 : Nat) < 8; norm_num)
    (fun _ => rfl)
    (by
      show ((bytesBits (blockAddAll (blockInit V st) pts).1.seal.2).drop
        (8 * 0 + 0)) = _
      rw [hdata, hbb]
      rfl)
  exact ⟨d', hred, hrb'⟩

/-! A single value codec run over a list of doubles (value_compression.py
used standalone, as the spec's value-codec round-trip claims read it). -/

/-- `add_value` once per element. -/
def ValEnc.addAll (e : ValEnc) (w : BitWriter) : List Nat → ValEnc × BitWriter
  | [] => (e, w)
  | v :: vs => ValEnc.addAll (e.add_value w v).1 (e.add_value w v).2 vs

/-- `add_value_verification` once per element. -/
def ValEnc.addAllV (e : ValEnc) (w : BitWriter) :
    List Nat → ValEnc × BitWriter
  | [] => (e, w)
  | v :: vs =>
    ValEnc.addAllV (e.add_value_verification w v).1
      (e.add_value_verification w v).2 vs

/-- `read_value` `k` times. -/
def ValDec.readAll (d : ValDec) (r : BitReader) :
    Nat → Except PyErr (List Nat × ValDec × BitReader)
  | 0 => .ok ([], d, r)
  | k + 1 =>
    match d.read_value r with
    | .error e => .error e
    | .ok (v, d', r') =>
      match ValDec.readAll d' r' k with
      | .error e => .error e
      | .ok (vs, d2, r2) => .ok (v :: vs, d2, r2)

/-- Encoder state after a run of `add_value`. -/
def valStateAll (e : ValEnc) : List Nat → ValEnc
  | [] => e
  | v :: vs => valStateAll (valStepState e v) vs

def valStateAllV (e : ValEnc) : List Nat → ValEnc
  | [] => e
  | v :: vs => valStateAllV (valStepStateV e v) vs

/-- Bits of a run of `add_value`. -/
def valAllBits (e : ValEnc) : List Nat → List Nat
  | [] => []
  | v :: vs => valStepBits e v ++ valAllBits (valStepState e v) vs

def valAllBitsV (e : ValEnc) : List Nat → List Nat
  | [] => []
  | v :: vs => valStepBitsV e v ++ valAllBitsV (valStepStateV e v) vs

theorem ValEnc.addAll_ok : ∀ (vs : List Nat) (e : ValEnc) (w : BitWriter),
    w.WFw → (e.count = 0 → w.nbits = 0) →
    (ValEnc.addAll e w vs).1 = valStateAll e vs ∧
    (ValEnc.addAll e w vs).2.WFw ∧
    (ValEnc.addAll e w vs).2.wbits = w.wbits ++ valAllBits e vs := by
  intro vs
  induction vs with
  | nil =>
    intro e w hw _
    exact ⟨rfl, hw, by
      simp only [ValEnc.addAll]
      rw [show valAllBits e [] = [] from rfl, List.append_nil]⟩
  | cons v tl ih =>
    intro e w hw hal
    obtain ⟨hst, hwf1, hwb1, hnb1⟩ := ValEnc.add_value_ok e w v hw hal
    have hcnt1 : (e.add_value w v).1.count ≠ 0 := by
      rw [hst]
      unfold valStepState
      split
      · show (1 : Nat) ≠ 0
        omega
      · split
        · show e.count + 1 ≠ 0
          omega
        · split
          · show e.count + 1 ≠ 0
            omega
          · show e.count + 1 ≠ 0
            omega
    obtain ⟨ih1, ih2, ih3⟩ := ih (e.add_value w v).1 (e.add_value w v).2 hwf1
      (fun h0 => absurd h0 hcnt1)
    refine ⟨?_, ?_, ?_⟩
    · show (ValEnc.addAll (e.add_value w v).1 (e.add_value w v).2 tl).1 = _
      rw [ih1, hst]
      rfl
    · exact ih2
    · show (ValEnc.addAll (e.add_value w v).1 (e.add_value w v).2 tl).2.wbits
        = _
      rw [ih3, hwb1, hst]
      rw [show valAllBits e (v :: tl)
        = valStepBits e v ++ valAllBits (valStepState e v) tl from rfl]
      rw [List.append_assoc]

theorem ValEnc.addAllV_ok : ∀ (vs : List Nat) (e : ValEnc) (w : BitWriter),
    w.WFw → (e.count = 0 → w.nbits = 0) →
    (ValEnc.addAllV e w vs).1 = valStateAllV e vs ∧
    (ValEnc.addAllV e w vs).2.WFw ∧
    (ValEnc.addAllV e w vs).2.wbits = w.wbits ++ valAllBitsV e vs := by
  intro vs
  induction vs with
  | nil =>
    intro e w hw _
    exact ⟨rfl, hw, by
      simp only [ValEnc.addAllV]
      rw [show valAllBitsV e [] = [] from rfl, List.append_nil]⟩
  | cons v tl ih =>
    intro e w hw hal
    obtain ⟨hst, hwf1, hwb1, hnb1⟩ := ValEnc.add_value_verification_ok e w v
      hw hal
    have hcnt1 : (e.add_value_verification w v).1.count ≠ 0 := by
      rw [hst]
      unfold valStepStateV
      split
      · show (1 : Nat) ≠ 0
        omega
      · split
        · show e.count + 1 ≠ 0
          omega
        · split
          · show e.count + 1 ≠ 0
            omega
          · show e.count + 1 ≠ 0
            omega
    obtain ⟨ih1, ih2, ih3⟩ := ih (e.add_value_verification w v).1
      (e.add_value_verification w v).2 hwf1 (fun h0 => absurd h0 hcnt1)
    refine ⟨?_, ?_, ?_⟩
    · show (ValEnc.addAllV (e.add_value_verification w v).1
        (e.add_value_verification w v).2 tl).1 = _
      rw [ih1, hst]
      rfl
    · exact ih2
    · show (ValEnc.addAllV (e.add_value_verification w v).1
        (e.add_value_verification w v).2 tl).2.wbits = _
      rw [ih3, hwb1, hst]
      rw [show valAllBitsV e (v :: tl)
        = valStepBitsV e v ++ valAllBitsV (valStepStateV e v) tl from rfl]
      rw [List.append_assoc]

theorem ValDec.readAll_ok : ∀ (vs : List Nat) (e : ValEnc) (d : ValDec)
    (r : BitReader) (rest : List Nat),
    (∀ v ∈ vs, v < 2 ^ 64) → ValSync e d → r.bit_pos < 8 →
    (e.count = 0 → r.bit_pos = 0) → r.rbits = valAllBits e vs ++ rest →
    ∃ d' r', ValDec.readAll d r vs.length = .ok (vs, d', r') ∧
      r'.data = r.data ∧ r'.rbits = rest ∧ r'.bit_pos < 8 := by
  intro vs
  induction vs with
  | nil =>
    intro e d r rest _ _ hbp _ hrb
    exact ⟨d, r, rfl, rfl, by rw [hrb]; rfl, hbp⟩
  | cons v tl ih =>
    intro e d r rest hvs hsync hbp hal hrb
    rw [show valAllBits e (v :: tl)
      = valStepBits e v ++ valAllBits (valStepState e v) tl from rfl,
      List.append_assoc] at hrb
    obtain ⟨d1, r1, hrv, hsync1, hdata1, hbp1, hal1, hrb1⟩ :=
      ValDec.read_value_ok e d r v (valAllBits (valStepState e v) tl ++ rest)
        hsync (hvs v (List.mem_cons_self v tl)) hbp hal hrb
    have hcnt1 : (valStepState e v).count ≠ 0 := by
      unfold valStepState
      split
      · show (1 : Nat) ≠ 0
        omega
      · split
        · show e.count + 1 ≠ 0
          omega
        · split
          · show e.count + 1 ≠ 0
            omega
          · show e.count + 1 ≠ 0
            omega
    obtain ⟨d2, r2, hra, hdata2, hrb2, hbp2⟩ := ih (valStepState e v) d1 r1
      rest (fun u hu => hvs u (List.mem_cons_of_mem v hu)) hsync1 hbp1
      (fun h0 => absurd h0 hcnt1) hrb1
    refine ⟨d2, r2, ?_, hdata2.trans hdata1, hrb2, hbp2⟩
    show ValDec.readAll d r (tl.length + 1) = _
    unfold ValDec.readAll
    simp only [hrv, hra]

theorem ValDec.readAllV_ok : ∀ (vs : List Nat) (e : ValEnc) (d : ValDec)
    (r : BitReader) (rest : List Nat),
    (∀ v ∈ vs, v < 2 ^ 64) → ValSync e d → r.bit_pos < 8 →
    (e.count = 0 → r.bit_pos = 0) → r.rbits = valAllBitsV e vs ++ rest →
    ∃ d' r', ValDec.readAll d r vs.length = .ok (vs, d', r') ∧
      r'.data = r.data ∧ r'.rbits = rest ∧ r'.bit_pos < 8 := by
  intro vs
  induction vs with
  | nil =>
    intro e d r rest _ _ hbp _ hrb
    exact ⟨d, r, rfl, rfl, by rw [hrb]; rfl, hbp⟩
  | cons v tl ih =>
    intro e d r rest hvs hsync hbp hal hrb
    rw [show valAllBitsV e (v :: tl)
      = valStepBitsV e v ++ valAllBitsV (valStepStateV e v) tl from rfl,
      List.append_assoc] at hrb
    obtain ⟨d1, r1, hrv, hsync1, hdata1, hbp1, hal1, hrb1⟩ :=
      ValDec.read_value_okV e d r v
        (valAllBitsV (valStepStateV e v) tl ++ rest)
        hsync (hvs v (List.mem_cons_self v tl)) hbp hal hrb
    have hcnt1 : (valStepStateV e v).count ≠ 0 := by
      unfold valStepStateV
      split
      · show (1 : Nat) ≠ 0
        omega
      · split
        · show e.count + 1 ≠ 0
          omega
        · split
          · show e.count + 1 ≠ 0
            omega
          · show e.count + 1 ≠ 0
            omega
    obtain ⟨d2, r2, hra, hdata2, hrb2, hbp2⟩ := ih (valStepStateV e v) d1 r1
      rest (fun u hu => hvs u (List.mem_cons_of_mem v hu)) hsync1 hbp1
      (fun h0 => absurd h0 hcnt1) hrb1
    refine ⟨d2, r2, ?_, hdata2.trans hdata1, hrb2, hbp2⟩
    show ValDec.readAll d r (tl.length + 1) = _
    unfold ValDec.readAll
    simp only [hrv, hra]

/-! multivariate series: the block-rotation invariant. -/

theorem blockAddAll_single (b : MultiVariateBlock) (p : MVPoint) :
    blockAddAll b [p] = ((b.add p.1 p.2).1, (b.add p.1 p.2).2) := by
  simp only [blockAddAll]
  rcases hA : b.add p.1 p.2 with ⟨b', oe⟩
  cases oe with
  | some er => rfl
  | none => rfl

theorem blockAddAll_append : ∀ (xs ys : List MVPoint) (b : MultiVariateBlock),
    (blockAddAll b xs).2 = none →
    blockAddAll b (xs ++ ys) = blockAddAll (blockAddAll b xs).1 ys := by
  intro xs
  induction xs with
  | nil =>
    intro ys b _
    rfl
  | cons p tl ih =>
    intro ys b hok
    obtain ⟨hA, hsplit⟩ := blockAddAll_cons_ok b p tl hok
    rw [hsplit] at hok
    rw [List.cons_append]
    have hsplit2 : blockAddAll b (p :: (tl ++ ys))
        = blockAddAll (b.add p.1 p.2).1 (tl ++ ys) := by
      simp only [blockAddAll]
      rcases hAe : b.add p.1 p.2 with ⟨b', oe⟩
      cases oe with
      | some er =>
        exfalso
        rw [hAe] at hA
        simp at hA
      | none => rfl
    rw [hsplit2, ih ys (b.add p.1 p.2).1 hok, hsplit]

theorem fdiv_mul_bounds (t D : Int) (hD : 0 < D) :
    Int.fdiv t D * D ≤ t ∧ t < Int.fdiv t D * D + D := by
  have hfd : Int.fdiv t D = t / D := Int.fdiv_eq_ediv t (le_of_lt hD)
  have h1 := Int.emod_add_ediv t D
  have h2 := Int.emod_nonneg t (ne_of_gt hD)
  have h3 := Int.emod_lt_of_pos t hD
  have hc : D * (t / D) = (t / D) * D := mul_comm D (t / D)
  constructor
  · rw [hfd]
    linarith
  · rw [hfd]
    linarith

/-- Geometry of one block's segment: the start is a multiple of the block
duration and every point of the segment lands inside the window. -/
def SegProps (D st : Int) (seg : List MVPoint) : Prop :=
  (∃ k, st = D * k) ∧ ∀ p ∈ seg, st ≤ p.1 ∧ p.1 < st + D

/-- The closed-blocks entry `(start_ts, count, data)` produced by sealing the
block that accumulated `seg` from a fresh block with start `st`. -/
def closedEntryOf (V : List String) (st : Int) (seg : List MVPoint) :
    Int × Nat × List Nat :=
  (st, seg.length, (blockAddAll (blockInit V (some st)) seg).1.writer.to_bytes)

/-- Relation between the abstract point sequence accepted so far and the
series state: the points split into the closed blocks' segments (in order)
followed by the open block's segment, each segment encoded by a successful
`add` run from a fresh aligned block, each respecting the block geometry. -/
def SeriesInv (V : List String) (D : Int) (pts : List MVPoint)
    (s : MultiVariateSeries) : Prop :=
  s.var_names = V ∧ s.block_duration = D ∧
  ∃ (csegs : List (Int × List MVPoint)) (ost : Int) (oseg : List MVPoint),
    pts = (csegs.map Prod.snd).flatten ++ oseg ∧
    s.closed_blocks = csegs.map (fun c => closedEntryOf V c.1 c.2) ∧
    (∀ c ∈ csegs, SegProps D c.1 c.2 ∧ c.2 ≠ [] ∧
      (blockAddAll (blockInit V (some c.1)) c.2).2 = none) ∧
    ((s.open_block = none ∧ oseg = []) ∨
      (s.open_block = some (blockAddAll (blockInit V (some ost)) oseg).1 ∧
        oseg ≠ [] ∧ (blockAddAll (blockInit V (some ost)) oseg).2 = none ∧
        SegProps D ost oseg))

theorem SeriesInv_init (V : List String) (D : Int) :
    SeriesInv V D [] (MultiVariateSeries.mkSeries V D) :=
  ⟨rfl, rfl, [], 0, [], rfl, rfl, fun c hc => absurd hc (List.not_mem_nil c),
    Or.inl ⟨rfl, rfl⟩⟩

theorem create_new_block_eq (s : MultiVariateSeries) (t : Int)
    (hV : s.var_names ≠ []) :
    s.create_new_block t
      = ({ s with open_block := some (blockInit s.var_names
          (some (Int.fdiv t s.block_duration * s.block_duration))) }, none) := by
  unfold MultiVariateSeries.create_new_block
  rw [mkBlock_eq _ _ hV]

/-- One successful `insert` extends the invariant by one point, provided the
new timestamp is at least every timestamp already stored. -/
theorem insert_inv (V : List String) (D : Int) (hV : V ≠ []) (hnd : V.Nodup)
    (hD : 0 < D) (pts : List MVPoint) (p : MVPoint) (s : MultiVariateSeries)
    (hinv : SeriesInv V D pts s) (hord : ∀ q ∈ pts, q.1 ≤ p.1)
    (hok : (s.insert p.1 p.2).2 = none) :
    SeriesInv V D (pts ++ [p]) (s.insert p.1 p.2).1 := by
  obtain ⟨hsV, hsD, csegs, ost, oseg, hsplit, hcb, hcprops, hopen⟩ := hinv
  have hsVne : s.var_names ≠ [] := by
    rw [hsV]
    exact hV
  rcases hopen with ⟨hob, hoe⟩ | ⟨hob, hone, hosucc, hoseg⟩
  · -- no open block: create a fresh one and add the point to it
    have hins : s.insert p.1 p.2
        = insertIntoOpen ({ s with open_block := some (blockInit s.var_names
            (some (Int.fdiv p.1 s.block_duration * s.block_duration))) })
          p.1 p.2 := by
      unfold MultiVariateSeries.insert
      rw [hob]
      rw [create_new_block_eq s p.1 hsVne]
    have hii : s.insert p.1 p.2
        = ({ s with open_block := some ((blockInit s.var_names
              (some (Int.fdiv p.1 s.block_duration * s.block_duration))).add
                p.1 p.2).1 },
           ((blockInit s.var_names
              (some (Int.fdiv p.1 s.block_duration * s.block_duration))).add
                p.1 p.2).2) := by
      rw [hins]
      unfold insertIntoOpen
      rfl
    have hadd_ok : ((blockInit s.var_names
        (some (Int.fdiv p.1 s.block_duration * s.block_duration))).add
          p.1 p.2).2 = none := by
      rw [hii] at hok
      exact hok
    refine ⟨?_, ?_, csegs, Int.fdiv p.1 D * D, [p], ?_, ?_, hcprops,
      Or.inr ⟨?_, by simp, ?_, ?_, ?_⟩⟩
    · rw [hii]
      exact hsV
    · rw [hii]
      exact hsD
    · rw [hsplit, hoe, List.append_nil]
    · rw [hii]
      exact hcb
    · rw [hii]
      show some _ = some _
      rw [blockAddAll_single]
      rw [hsV, hsD]
    · rw [blockAddAll_single]
      show ((blockInit V (some (Int.fdiv p.1 D * D))).add p.1 p.2).2 = none
      rw [← hsV, ← hsD]
      exact hadd_ok
    · exact ⟨Int.fdiv p.1 D, mul_comm _ _⟩
    · intro q hq
      rw [List.mem_singleton] at hq
      rw [hq]
      exact fdiv_mul_bounds p.1 D hD
  · -- open block present; it carries `oseg` from a fresh block at `ost`
    have hbinv : MVInv (blockAddAll (blockInit V (some ost)) oseg).1 :=
      (blockAddAll_ok oseg (blockInit V (some ost))
        (MVInv_init V (some ost) hV hnd) hosucc).1
    obtain ⟨_, hbvn, hbcnt, _, hbst⟩ := blockAddAll_ok oseg
      (blockInit V (some ost)) (MVInv_init V (some ost) hV hnd) hosucc
    have hbst' : (blockAddAll (blockInit V (some ost)) oseg).1.start_timestamp
        = some ost := hbst rfl
    have hcount_pos :
        0 < (blockAddAll (blockInit V (some ost)) oseg).1.count := by
      rw [hbcnt]
      show 0 < 0 + oseg.length
      have := List.length_pos.mpr hone
      omega
    by_cases hrot : ost + D ≤ p.1
    · -- rotation: seal the open block, then start a fresh one with `p`
      have hclose : s.close_current_block
          = { s with
              open_block := none
              closed_blocks := s.closed_blocks
                ++ [closedEntryOf V ost oseg] } := by
        unfold MultiVariateSeries.close_current_block
        simp only [hob]
        rw [if_pos hcount_pos]
        have hseal : (blockAddAll (blockInit V (some ost)) oseg).1.seal.2
            = (blockAddAll (blockInit V (some ost)) oseg).1.writer.to_bytes := by
          rw [MultiVariateBlock.seal_open _ hbinv.2.2.2.2.2.2.2]
        rw [hseal, hbst', hbcnt]
        unfold closedEntryOf
        have hz : (blockInit V (some ost)).count + oseg.length
            = oseg.length := by
          show 0 + oseg.length = oseg.length
          omega
        rw [hz]
        simp only [Option.getD_some]
      have hins : s.insert p.1 p.2
          = insertIntoOpen ({ s.close_current_block with
              open_block := some (blockInit s.var_names
                (some (Int.fdiv p.1 s.block_duration * s.block_duration))) })
            p.1 p.2 := by
        unfold MultiVariateSeries.insert
        simp only [hob, hbst']
        rw [if_pos (by rw [hsD]; exact hrot)]
        simp only [create_new_block_eq s.close_current_block p.1
          (by
            show s.close_current_block.var_names ≠ []
            rw [hclose]
            exact hsVne)]
        have hcd : s.close_current_block.block_duration = s.block_duration := by
          rw [hclose]
        have hcv : s.close_current_block.var_names = s.var_names := by
          rw [hclose]
        rw [hcd, hcv]
      have hii : s.insert p.1 p.2
          = ({ s.close_current_block with
              open_block := some ((blockInit s.var_names
                (some (Int.fdiv p.1 s.block_duration * s.block_duration))).add
                  p.1 p.2).1 },
             ((blockInit s.var_names
                (some (Int.fdiv p.1 s.block_duration * s.block_duration))).add
                  p.1 p.2).2) := by
        rw [hins]
        unfold insertIntoOpen
        rfl
      have hadd_ok : ((blockInit s.var_names
          (some (Int.fdiv p.1 s.block_duration * s.block_duration))).add
            p.1 p.2).2 = none := by
        rw [hii] at hok
        exact hok
      refine ⟨?_, ?_, csegs ++ [(ost, oseg)], Int.fdiv p.1 D * D, [p], ?_,
        ?_, ?_, Or.inr ⟨?_, by simp, ?_, ?_, ?_⟩⟩
      · rw [hii]
        show s.close_current_block.var_names = V
        rw [hclose]
        exact hsV
      · rw [hii]
        show s.close_current_block.block_duration = D
        rw [hclose]
        exact hsD
      · rw [hsplit]
        simp only [List.map_append, List.flatten_append, List.map_cons,
          List.map_nil, List.flatten_cons, List.flatten_nil, List.append_nil,
          List.append_assoc]
      · rw [hii]
        show s.close_current_block.closed_blocks = _
        rw [hclose]
        show s.closed_blocks ++ [closedEntryOf V ost oseg] = _
        rw [hcb, List.map_append]
        rfl
      · intro c hc
        rcases List.mem_append.mp hc with hc1 | hc2
        · exact hcprops c hc1
        · rw [List.mem_singleton] at hc2
          rw [hc2]
          exact ⟨hoseg, hone, hosucc⟩
      · rw [hii]
        show some _ = some _
        rw [blockAddAll_single]
        rw [hsV, hsD]
      · rw [blockAddAll_single]
        show ((blockInit V (some (Int.fdiv p.1 D * D))).add p.1 p.2).2 = none
        rw [← hsV, ← hsD]
        exact hadd_ok
      · exact ⟨Int.fdiv p.1 D, mul_comm _ _⟩
      · intro q hq
        rw [List.mem_singleton] at hq
        rw [hq]
        exact fdiv_mul_bounds p.1 D hD
    · -- no rotation: the point joins the open block
      have hins : s.insert p.1 p.2 = insertIntoOpen s p.1 p.2 := by
        unfold MultiVariateSeries.insert
        simp only [hob, hbst']
        rw [if_neg (by rw [hsD]; exact hrot)]
      have hii : s.insert p.1 p.2
          = ({ s with
              open_block := some
                ((blockAddAll (blockInit V (some ost)) oseg).1.add
                  p.1 p.2).1 },
             ((blockAddAll (blockInit V (some ost)) oseg).1.add p.1 p.2).2) := by
        rw [hins]
        unfold insertIntoOpen
        simp only [hob]
      have hadd_ok : ((blockAddAll (blockInit V (some ost)) oseg).1.add
          p.1 p.2).2 = none := by
        rw [hii] at hok
        exact hok
      have happ : blockAddAll (blockInit V (some ost)) (oseg ++ [p])
          = (((blockAddAll (blockInit V (some ost)) oseg).1.add p.1 p.2).1,
             ((blockAddAll (blockInit V (some ost)) oseg).1.add p.1 p.2).2) := by
        rw [blockAddAll_append oseg [p] (blockInit V (some ost)) hosucc]
        rw [blockAddAll_single]
      refine ⟨?_, ?_, csegs, ost, oseg ++ [p], ?_, ?_, hcprops,
        Or.inr ⟨?_, by simp, ?_, ?_, ?_⟩⟩
      · rw [hii]
        exact hsV
      · rw [hii]
        exact hsD
      · rw [hsplit, List.append_assoc]
      · rw [hii]
        exact hcb
      · rw [hii]
        show some _ = some _
        rw [happ]
      · rw [happ]
        exact hadd_ok
      · exact hoseg.1
      · intro q hq
        rcases List.mem_append.mp hq with hq1 | hq2
        · exact hoseg.2 q hq1
        · rw [List.mem_singleton] at hq2
          rw [hq2]
          constructor
          · obtain ⟨q0, hq0⟩ := List.exists_mem_of_ne_nil oseg hone
            have h1 : ost ≤ q0.1 := (hoseg.2 q0 hq0).1
            have h2 : q0.1 ≤ p.1 := by
              apply hord
              rw [hsplit]
              exact List.mem_append_right _ hq0
            omega
          · omega

theorem insertAll_cons_ok (s : MultiVariateSeries) (p : MVPoint)
    (rest : List MVPoint) (hok : (insertAll s (p :: rest)).2 = none) :
    (s.insert p.1 p.2).2 = none ∧
    insertAll s (p :: rest) = insertAll (s.insert p.1 p.2).1 rest := by
  rcases hA : s.insert p.1 p.2 with ⟨s', oe⟩
  cases oe with
  | some er =>
    exfalso
    unfold insertAll at hok
    rw [hA] at hok
    simp at hok
  | none =>
    constructor
    · rfl
    · simp only [insertAll]
      rw [hA]

/-- Non-decreasing timestamps, as the spec's ingestion contract states. -/
def PtsOrd (l : List MVPoint) : Prop :=
  l.Pairwise (fun q1 q2 => q1.1 ≤ q2.1)

theorem insertAll_inv (V : List String) (D : Int) (hV : V ≠ [])
    (hnd : V.Nodup) (hD : 0 < D) :
    ∀ (pts0 pts : List MVPoint) (s : MultiVariateSeries),
    SeriesInv V D pts s → PtsOrd (pts ++ pts0) →
    (insertAll s pts0).2 = none →
    SeriesInv V D (pts ++ pts0) (insertAll s pts0).1 := by
  intro pts0
  induction pts0 with
  | nil =>
    intro pts s hinv _ _
    simp only [insertAll]
    rw [List.append_nil]
    exact hinv
  | cons p rest ih =>
    intro pts s hinv hpw hok
    obtain ⟨hi, hsplit⟩ := insertAll_cons_ok s p rest hok
    rw [hsplit] at hok ⊢
    have hord : ∀ q ∈ pts, q.1 ≤ p.1 := by
      intro q hq
      obtain ⟨_, _, hcross⟩ := List.pairwise_append.mp hpw
      exact hcross q hq p (List.mem_cons_self p rest)
    have hinv1 := insert_inv V D hV hnd hD pts p s hinv hord hi
    have hpw' : PtsOrd ((pts ++ [p]) ++ rest) := by
      unfold PtsOrd
      rw [List.append_assoc]
      exact hpw
    have hres := ih (pts ++ [p]) (s.insert p.1 p.2).1 hinv1 hpw' hok
    rw [List.append_assoc] at hres
    exact hres

theorem queryBlockLoop_of_read_all :
    ∀ (k : Nat) (d : MultiVariateDecoder)
      (ps : List (Int × List (String × Nat))) (d' : MultiVariateDecoder)
      (a b : Int), d.read_all k = .ok (ps, d') →
    queryBlockLoop a b k d
      = .ok (ps.filter (fun q => decide (a ≤ q.1 ∧ q.1 ≤ b))) := by
  intro k
  induction k with
  | zero =>
    intro d ps d' a b h
    simp only [MultiVariateDecoder.read_all] at h
    have hps : ps = [] := by
      injection h with h1
      injection h1 with h2 h3
      rw [← h2]
    rw [hps]
    rfl
  | succ k ih =>
    intro d ps d' a b h
    rcases hrp : d.read_point with e | q
    · exfalso
      simp only [MultiVariateDecoder.read_all, hrp] at h
      cases h
    · rcases q with ⟨⟨ts, vs⟩, d1⟩
      simp only [MultiVariateDecoder.read_all, hrp] at h
      rcases hra : d1.read_all k with e | q2
      · exfalso
        rw [hra] at h
        cases h
      · rcases q2 with ⟨ps1, d2⟩
        rw [hra] at h
        have hps : ps = (ts, vs) :: ps1 := by
          injection h with h1
          injection h1 with h2 h3
          rw [← h2]
        rw [hps]
        unfold queryBlockLoop
        simp only [hrp, ih d1 ps1 d2 a b hra]
        rw [List.filter_cons]
        by_cases hc : a ≤ ts ∧ ts ≤ b
        · rw [if_pos hc]
          simp [hc]
        · rw [if_neg hc]
          simp [hc]

theorem filter_map_pointView (V : List String) (a b : Int) :
    ∀ (seg : List MVPoint),
    (seg.map (pointView V)).filter (fun q => decide (a ≤ q.1 ∧ q.1 ≤ b))
      = (seg.filter (fun p => decide (a ≤ p.1 ∧ p.1 ≤ b))).map
          (pointView V) := by
  intro seg
  induction seg with
  | nil => rfl
  | cons p tl ih =>
    have h1 : (pointView V p).1 = p.1 := rfl
    simp only [List.map_cons, List.filter_cons, h1]
    by_cases hc : a ≤ p.1 ∧ p.1 ≤ b
    · rw [if_pos (decide_eq_true_eq.mpr hc),
        if_pos (decide_eq_true_eq.mpr hc), List.map_cons, ih]
    · rw [if_neg (fun h => hc (decide_eq_true_eq.mp h)),
        if_neg (fun h => hc (decide_eq_true_eq.mp h)), ih]

theorem filter_outside (a b st D : Int) (seg : List MVPoint)
    (hgeo : ∀ p ∈ seg, st ≤ p.1 ∧ p.1 < st + D)
    (hno : ¬(st ≤ b ∧ a ≤ st + D)) :
    seg.filter (fun p => decide (a ≤ p.1 ∧ p.1 ≤ b)) = [] := by
  rw [List.filter_eq_nil_iff]
  intro p hp
  obtain ⟨h1, h2⟩ := hgeo p hp
  simp only [decide_eq_true_eq]
  intro hcon
  apply hno
  constructor
  · omega
  · omega

theorem queryClosed_cons (vn : List String) (dur a b bs : Int) (cnt : Nat)
    (data : List Nat) (rest : List (Int × Nat × List Nat)) :
    queryClosed vn dur a b ((bs, cnt, data) :: rest)
      = if bs ≤ b ∧ a ≤ bs + dur then
          match queryBlockLoop a b cnt
              (MultiVariateDecoder.mkDecoder data vn) with
          | .error e => .error e
          | .ok res =>
            match queryClosed vn dur a b rest with
            | .error e => .error e
            | .ok res2 => .ok (res ++ res2)
        else queryClosed vn dur a b rest := by
  unfold queryClosed
  cases rest <;> rfl

theorem queryClosed_eval (V : List String) (D a b : Int) (hV : V ≠ [])
    (hnd : V.Nodup) :
    ∀ (csegs : List (Int × List MVPoint)),
    (∀ c ∈ csegs, SegProps D c.1 c.2 ∧ c.2 ≠ [] ∧
      (blockAddAll (blockInit V (some c.1)) c.2).2 = none) →
    (∀ c ∈ csegs, ∀ p ∈ c.2, ValsOk V p.2) →
    queryClosed V D a b (csegs.map (fun c => closedEntryOf V c.1 c.2))
      = .ok (((csegs.map Prod.snd).flatten.filter
          (fun p => decide (a ≤ p.1 ∧ p.1 ≤ b))).map (pointView V)) := by
  intro csegs
  induction csegs with
  | nil =>
    intro _ _
    rfl
  | cons c tl ih =>
    intro hprops hvo
    obtain ⟨hgeo, hne, hsucc⟩ := hprops c (List.mem_cons_self c tl)
    have hinvF : MVInv (blockAddAll (blockInit V (some c.1)) c.2).1 :=
      (blockAddAll_ok c.2 (blockInit V (some c.1))
        (MVInv_init V (some c.1) hV hnd) hsucc).1
    have hseal : (blockAddAll (blockInit V (some c.1)) c.2).1.seal.2
        = (blockAddAll (blockInit V (some c.1)) c.2).1.writer.to_bytes := by
      rw [MultiVariateBlock.seal_open _ hinvF.2.2.2.2.2.2.2]
    obtain ⟨d', hread, _⟩ := block_decode V (some c.1) c.2 hV hnd hsucc
      (hvo c (List.mem_cons_self c tl))
    rw [hseal] at hread
    have hloop := queryBlockLoop_of_read_all c.2.length
      (MultiVariateDecoder.mkDecoder
        (blockAddAll (blockInit V (some c.1)) c.2).1.writer.to_bytes V)
      (c.2.map (pointView V)) d' a b hread
    rw [filter_map_pointView] at hloop
    have hih := ih (fun c2 hc2 => hprops c2 (List.mem_cons_of_mem c hc2))
      (fun c2 hc2 => hvo c2 (List.mem_cons_of_mem c hc2))
    simp only [List.map_cons]
    rw [show closedEntryOf V c.1 c.2
      = (c.1, c.2.length,
          (blockAddAll (blockInit V (some c.1)) c.2).1.writer.to_bytes)
      from rfl]
    rw [queryClosed_cons]
    by_cases hov : c.1 ≤ b ∧ a ≤ c.1 + D
    · rw [if_pos hov]
      simp only [hloop, hih]
      simp only [List.flatten_cons, List.filter_append, List.map_append]
    · rw [if_neg hov]
      rw [hih]
      have hnil : c.2.filter (fun p => decide (a ≤ p.1 ∧ p.1 ≤ b)) = [] :=
        filter_outside a b c.1 D c.2 hgeo.2 hov
      simp only [List.flatten_cons, List.filter_append, hnil,
        List.nil_append]

theorem query_eval (V : List String) (D a b : Int) (pts : List MVPoint)
    (s : MultiVariateSeries) (hV : V ≠ []) (hnd : V.Nodup) (_hD : 0 < D)
    (hinv : SeriesInv V D pts s) (hvo : ∀ p ∈ pts, ValsOk V p.2) :
    (s.query a b).1
      = .ok ((pts.filter (fun p => decide (a ≤ p.1 ∧ p.1 ≤ b))).map
          (pointView V)) := by
  obtain ⟨hsV, hsD, csegs, ost, oseg, hsplit, hcb, hcprops, hopen⟩ := hinv
  have hvoc : ∀ c ∈ csegs, ∀ p ∈ c.2, ValsOk V p.2 := by
    intro c hc p hp
    apply hvo
    rw [hsplit]
    apply List.mem_append_left
    exact List.mem_flatten.mpr ⟨c.2, List.mem_map_of_mem Prod.snd hc, hp⟩
  have hclosed_eval := queryClosed_eval V D a b hV hnd csegs hcprops hvoc
  unfold MultiVariateSeries.query
  rw [hsV, hsD, hcb]
  simp only [hclosed_eval]
  rcases hopen with ⟨hob, hoe⟩ | ⟨hob, hone, hosucc, hoseg⟩
  · rw [hob]
    rw [hsplit, hoe, List.append_nil]
  · simp only [hob]
    have hinvF : MVInv (blockAddAll (blockInit V (some ost)) oseg).1 :=
      (blockAddAll_ok oseg (blockInit V (some ost))
        (MVInv_init V (some ost) hV hnd) hosucc).1
    obtain ⟨_, _, hbcnt, _, hbst⟩ := blockAddAll_ok oseg
      (blockInit V (some ost)) (MVInv_init V (some ost) hV hnd) hosucc
    have hbst' : (blockAddAll (blockInit V (some ost)) oseg).1.start_timestamp
        = some ost := hbst rfl
    have hcnt : (blockAddAll (blockInit V (some ost)) oseg).1.count
        = oseg.length := by
      rw [hbcnt]
      show 0 + oseg.length = oseg.length
      omega
    have hcount_pos :
        0 < (blockAddAll (blockInit V (some ost)) oseg).1.count := by
      rw [hcnt]
      have := List.length_pos.mpr hone
      omega
    rw [if_pos hcount_pos]
    simp only [hbst']
    have hgcd : (blockAddAll (blockInit V (some ost)) oseg).1.get_compressed_data
        = (some (blockAddAll (blockInit V (some ost)) oseg).1.writer.to_bytes,
           { (blockAddAll (blockInit V (some ost)) oseg).1 with
             writer :=
               (blockAddAll (blockInit V (some ost))
                 oseg).1.writer.align_to_byte }) := by
      unfold MultiVariateBlock.get_compressed_data
      rw [if_pos hinvF.2.2.2.2.2.2.2]
    have hseal : (blockAddAll (blockInit V (some ost)) oseg).1.seal.2
        = (blockAddAll (blockInit V (some ost)) oseg).1.writer.to_bytes := by
      rw [MultiVariateBlock.seal_open _ hinvF.2.2.2.2.2.2.2]
    obtain ⟨d', hread, _⟩ := block_decode V (some ost) oseg hV hnd hosucc
      (fun p hp => hvo p (by
        rw [hsplit]
        exact List.mem_append_right _ hp))
    rw [hseal] at hread
    rw [← hcnt] at hread
    have hloop := queryBlockLoop_of_read_all
      (blockAddAll (blockInit V (some ost)) oseg).1.count
      (MultiVariateDecoder.mkDecoder
        (blockAddAll (blockInit V (some ost)) oseg).1.writer.to_bytes V)
      (oseg.map (pointView V)) d' a b hread
    rw [filter_map_pointView] at hloop
    by_cases hov : ost ≤ b ∧ a ≤ ost + D
    · rw [if_pos hov]
      simp only [hgcd, hloop]
      rw [hsplit]
      simp only [List.filter_append, List.map_append]
    · rw [if_neg hov]
      have hnil : oseg.filter (fun p => decide (a ≤ p.1 ∧ p.1 ≤ b)) = [] :=
        filter_outside a b ost D oseg hoseg.2 hov
      rw [hsplit]
      simp only [List.filter_append, hnil, List.append_nil]

/-! What a FAILING `add` leaves behind (for the failure-atomicity claim). -/

theorem dodBits_length (dod : Int) :
    (dodBits dod).length
      = (if dod = 0 then 1 else if -63 ≤ dod ∧ dod ≤ 64 then 9
         else if -255 ≤ dod ∧ dod ≤ 256 then 12
         else if -2047 ≤ dod ∧ dod ≤ 2048 then 16 else 36) := by
  unfold dodBits
  split_ifs <;> simp [sbits, natBits_length]

theorem encodeDod_err_bits (w : BitWriter) (dod : Int) (er : PyErr)
    (hw : w.WFw) (h : (encodeDod w dod).2 = some er) :
    ∃ extra, extra.length ≤ 4 ∧
      (encodeDod w dod).1.wbits = w.wbits ++ extra := by
  obtain ⟨hwa, hba⟩ := BitWriter.write_bit_spec w 1 hw
  obtain ⟨hwb, hbb⟩ := BitWriter.write_bit_spec (w.write_bit 1) 0 hwa
  obtain ⟨hwb1, hbb1⟩ := BitWriter.write_bit_spec (w.write_bit 1) 1 hwa
  obtain ⟨hwc, hbc⟩ := BitWriter.write_bit_spec ((w.write_bit 1).write_bit 1)
    0 hwb1
  obtain ⟨hwc1, hbc1⟩ := BitWriter.write_bit_spec ((w.write_bit 1).write_bit 1)
    1 hwb1
  obtain ⟨hwd, hbd⟩ := BitWriter.write_bit_spec
    (((w.write_bit 1).write_bit 1).write_bit 1) 0 hwc1
  obtain ⟨hwd1, hbd1⟩ := BitWriter.write_bit_spec
    (((w.write_bit 1).write_bit 1).write_bit 1) 1 hwc1
  unfold encodeDod at h ⊢
  by_cases h0 : dod = 0
  · rw [if_pos h0] at h
    simp at h
  rw [if_neg h0] at h ⊢
  by_cases h1 : -63 ≤ dod ∧ dod ≤ 64
  · rw [if_pos h1] at h ⊢
    rcases hws : ((w.write_bit 1).write_bit 0).write_signed dod 7 with er2 | w2
    · simp only [hws]
      refine ⟨[1, 0], by norm_num, ?_⟩
      rw [hbb, hba, List.append_assoc]
      rfl
    · rw [hws] at h
      simp at h
  rw [if_neg h1] at h ⊢
  by_cases h2 : -255 ≤ dod ∧ dod ≤ 256
  · rw [if_pos h2] at h ⊢
    rcases hws : (((w.write_bit 1).write_bit 1).write_bit 0).write_signed dod 9
      with er2 | w2
    · simp only [hws]
      refine ⟨[1, 1, 0], by norm_num, ?_⟩
      rw [hbc, hbb1, hba, List.append_assoc, List.append_assoc]
      rfl
    · rw [hws] at h
      simp at h
  rw [if_neg h2] at h ⊢
  by_cases h3 : -2047 ≤ dod ∧ dod ≤ 2048
  · rw [if_pos h3] at h ⊢
    rcases hws : ((((w.write_bit 1).write_bit 1).write_bit 1).write_bit
        0).write_signed dod 12 with er2 | w2
    · simp only [hws]
      refine ⟨[1, 1, 1, 0], by norm_num, ?_⟩
      rw [hbd, hbc1, hbb1, hba, List.append_assoc, List.append_assoc,
        List.append_assoc]
      rfl
    · rw [hws] at h
      simp at h
  rw [if_neg h3] at h ⊢
  rcases hws : ((((w.write_bit 1).write_bit 1).write_bit 1).write_bit
      1).write_signed dod 32 with er2 | w2
  · simp only [hws]
    refine ⟨[1, 1, 1, 1], by norm_num, ?_⟩
    rw [hbd1, hbc1, hbb1, hba, List.append_assoc, List.append_assoc,
      List.append_assoc]
    rfl
  · rw [hws] at h
    simp at h

theorem TsEnc.add_timestamp_err (e : TsEnc) (w : BitWriter) (t : Int)
    (er : PyErr) (hw : w.WFw) (h : (e.add_timestamp w t).2.2 = some er) :
    (e.add_timestamp w t).1 = e ∧
    ∃ extra, extra.length ≤ 4 ∧
      (e.add_timestamp w t).2.1.wbits = w.wbits ++ extra := by
  unfold TsEnc.add_timestamp at h ⊢
  by_cases hc0 : e.count = 0
  · rw [if_pos hc0] at h ⊢
    rcases hwi : w.write_i64 t with er2 | w2
    · simp only [hwi]
      exact ⟨by trivial, [], by norm_num, (List.append_nil _).symm⟩
    · rw [hwi] at h
      simp at h
  · rw [if_neg hc0] at h ⊢
    cases hpt : e.prev_timestamp with
    | none =>
      simp only [hpt]
      exact ⟨by trivial, [], by norm_num, (List.append_nil _).symm⟩
    | some pt =>
      simp only [hpt] at h ⊢
      by_cases hc1 : e.count = 1
      · rw [if_pos hc1] at h ⊢
        rcases hwi : w.write_i64 (t - pt) with er2 | w2
        · simp only [hwi]
          exact ⟨by trivial, [], by norm_num, (List.append_nil _).symm⟩
        · rw [hwi] at h
          simp at h
      · rw [if_neg hc1] at h ⊢
        cases hpd : e.prev_delta with
        | none =>
          simp only [hpd]
          exact ⟨by trivial, [], by norm_num, (List.append_nil _).symm⟩
        | some pd =>
          simp only [hpd] at h ⊢
          rcases henc : encodeDod w ((t - pt) - pd) with ⟨w', oe⟩
          cases oe with
          | none =>
            rw [henc] at h
            simp at h
          | some er3 =>
            simp only [henc]
            obtain ⟨extra, hlen, hwb⟩ := encodeDod_err_bits w ((t - pt) - pd)
              er3 hw (by rw [henc])
            rw [henc] at hwb
            exact ⟨by trivial, extra, hlen, hwb⟩

theorem encodeValues_no_err (values : String → Option Nat) :
    ∀ (names : List String) (encs : List (String × ValEnc)) (w : BitWriter),
    (∀ n ∈ names, n ∈ encs.map Prod.fst) →
    (∀ n ∈ names, (values n).isSome) →
    (encodeValues values names encs w).2.2 = none := by
  intro names
  induction names with
  | nil =>
    intro encs w _ _
    rfl
  | cons n rest ih =>
    intro encs w hkeys hvals
    have hn : (alookup encs n).isSome :=
      (alookup_isSome_iff encs n).mpr (hkeys n (List.mem_cons_self n rest))
    obtain ⟨enc, henc⟩ := Option.isSome_iff_exists.mp hn
    obtain ⟨x, hx⟩ :=
      Option.isSome_iff_exists.mp (hvals n (List.mem_cons_self n rest))
    rw [encodeValues_cons values n rest encs w enc x henc hx]
    apply ih
    · intro m hm
      rw [aupdate_keys]
      exact hkeys m (List.mem_cons_of_mem n hm)
    · intro m hm
      exact hvals m (List.mem_cons_of_mem n hm)

/-- What a failing `add` leaves behind: the counters and codec states do not
advance and the block is not closed, but the shared writer may keep the
control bits of the failed delta-of-delta record (at most 4), and the first
point's failure may have set `start_timestamp`. -/
theorem MultiVariateBlock.add_err (b : MultiVariateBlock) (t : Int)
    (vals : String → Option Nat) (er : PyErr) (hw : b.writer.WFw)
    (hkeys : b.val_encoders.map Prod.fst = b.var_names)
    (h : (b.add t vals).2 = some er) :
    (b.add t vals).1.count = b.count ∧
    (b.add t vals).1.ts_encoder = b.ts_encoder ∧
    (b.add t vals).1.val_encoders = b.val_encoders ∧
    (b.add t vals).1.closed = b.closed ∧
    (b.add t vals).1.compressed_data = b.compressed_data ∧
    (b.add t vals).1.var_names = b.var_names ∧
    ((b.add t vals).1.start_timestamp = b.start_timestamp ∨
      (b.add t vals).1.start_timestamp = some t) ∧
    ∃ extra, extra.length ≤ 4 ∧
      (b.add t vals).1.writer.wbits = b.writer.wbits ++ extra := by
  unfold MultiVariateBlock.add at h ⊢
  by_cases hcl : b.closed = true
  · rw [if_pos hcl] at h ⊢
    exact ⟨by trivial, by trivial, by trivial, by trivial, by trivial,
      by trivial, Or.inl (by trivial), [], by norm_num,
      (List.append_nil _).symm⟩
  rw [if_neg hcl] at h ⊢
  by_cases hmiss : ∃ n ∈ b.var_names, vals n = none
  · rw [if_pos hmiss] at h ⊢
    exact ⟨by trivial, by trivial, by trivial, by trivial, by trivial,
      by trivial, Or.inl (by trivial), [], by norm_num,
      (List.append_nil _).symm⟩
  rw [if_neg hmiss] at h ⊢
  have hvpres : ∀ n ∈ b.var_names, (vals n).isSome := by
    intro n hn
    cases hvn : vals n with
    | none => exact absurd ⟨n, hn, hvn⟩ hmiss
    | some y => rfl
  rcases hA : b.ts_encoder.add_timestamp b.writer t with ⟨e', w', oe⟩
  cases oe with
  | some er2 =>
    simp only [hA] at h ⊢
    obtain ⟨he', extra, hlen, hwb⟩ :=
      TsEnc.add_timestamp_err b.ts_encoder b.writer t er2 hw (by rw [hA])
    rw [hA] at he' hwb
    refine ⟨by trivial, he', by trivial, by trivial, by trivial, by trivial,
      ?_, extra, hlen, hwb⟩
    by_cases hst : b.count = 0 ∧ b.start_timestamp = none
    · right
      show (if b.count = 0 ∧ b.start_timestamp = none then some t
        else b.start_timestamp) = some t
      rw [if_pos hst]
    · left
      show (if b.count = 0 ∧ b.start_timestamp = none then some t
        else b.start_timestamp) = b.start_timestamp
      rw [if_neg hst]
  | none =>
    exfalso
    simp only [hA] at h
    rcases hE : encodeValues vals b.var_names b.val_encoders w'
      with ⟨encs2, w2, oe2⟩
    have hnoerr := encodeValues_no_err vals b.var_names b.val_encoders w'
      (fun n hn => by rw [hkeys]; exact hn) hvpres
    rw [hE] at hnoerr h
    simp only at hnoerr
    rw [hnoerr] at h
    simp at h

/-! Concrete inputs used by the claims (IEEE-754 bit patterns of the doubles
named in the spec's scenarios). -/

set_option maxRecDepth 1000000

set_option maxHeartbeats 4000000

deriving instance DecidableEq for Except

instance BitWriter.WFw_dec (w : BitWriter) : Decidable w.WFw := by
  unfold BitWriter.WFw
  infer_instance

/-- Bit pattern of `22.5`. -/
def pat225 : Nat := 0x4036800000000000

/-- Bit pattern of `22.6`. -/
def pat226 : Nat := 0x403699999999999A

/-- Bit pattern of `22.7`. -/
def pat227 : Nat := 0x4036B33333333333

/-- Bit pattern of a quiet `NaN`. -/
def patNaN : Nat := 0x7FF8000000000000

/-- Bit pattern of `-0.0` (distinct from `0.0`, whose pattern is `0`). -/
def patNegZero : Nat := 0x8000000000000000

/-- Bit pattern of `+Inf`. -/
def patInf : Nat := 0x7FF0000000000000

/-- A `values` dict holding only the variable `"temp"`. -/
def tempVal (v : Nat) : String → Option Nat :=
  fun n => if n = "temp" then some v else none

/-- The spec's concrete scenario: `(1000, 22.5), (1010, 22.5), (1020, 22.6)`
on the single variable `"temp"`. -/
def c5pts : List MVPoint :=
  [(1000, tempVal pat225), (1010, tempVal pat225), (1020, tempVal pat226)]

/-- The series of the concrete scenario, flushed. -/
def c5series : MultiVariateSeries :=
  (insertAll (MultiVariateSeries.mkSeries ["temp"] 7200000) c5pts).1.flush

/-- The sealed block's bytes in the concrete scenario. -/
def c5data : List Nat :=
  match c5series.closed_blocks with
  | [(_, _, data)] => data
  | _ => []

/-- A block holding `(0, 22.5), (1, 22.5)`; the next add with timestamp 66
has delta-of-delta `64` and raises inside `_encode_delta_of_delta`. -/
def c3block : MultiVariateBlock :=
  (blockAddAll (blockInit ["temp"] none)
    [(0, tempVal pat225), (1, tempVal pat225)]).1

/-- The open series of the query-mutation scenario (same three points, not
flushed). -/
def c4series : MultiVariateSeries :=
  (insertAll (MultiVariateSeries.mkSeries ["temp"] 7200000) c5pts).1

/-- The same series after one overlapping query (whose open-block read pads
the live writer to a byte boundary). -/
def c4queried : MultiVariateSeries := (c4series.query 0 10000).2

/-- Query first, then insert `(1035, 22.7)`. -/
def c4mutated : MultiVariateSeries :=
  (c4queried.insert 1035 (tempVal pat227)).1

/-- Insert `(1035, 22.7)` without the intermediate query. -/
def c4clean : MultiVariateSeries := (c4series.insert 1035 (tempVal pat227)).1

/-! The claims. -/

/-- C1 (amended): whenever every `add` call of the run returns normally (the
original claim fails on inputs whose delta-of-delta hits a tier maximum, see
the counterexample), adding a point sequence to a `MultiVariateBlock`,
sealing, and decoding with a `MultiVariateDecoder` built from the same
variable-name list yields exactly the original timestamps and per-variable
bit patterns. -/
theorem C1_roundtrip (V : List String) (st : Option Int) (pts : List MVPoint)
    (hV : V ≠ []) (hnd : V.Nodup) (hvo : ∀ p ∈ pts, ValsOk V p.2)
    (hok : (blockAddAll (blockInit V st) pts).2 = none) :
    ∃ d', (MultiVariateDecoder.mkDecoder
        ((blockAddAll (blockInit V st) pts).1.seal.2) V).read_all pts.length
      = .ok (pts.map (pointView V), d') := by
  obtain ⟨d', h, _⟩ := block_decode V st pts hV hnd hok hvo
  exact ⟨d', h⟩

theorem C1_roundtrip_witness :
    ∃ d', (MultiVariateDecoder.mkDecoder
        ((blockAddAll (blockInit ["temp"] none) c5pts).1.seal.2)
        ["temp"]).read_all c5pts.length
      = .ok (c5pts.map (pointView ["temp"]), d') :=
  C1_roundtrip ["temp"] none c5pts (by decide) (by decide) (by decide)
    (by decide)

theorem C1_counterexample :
    (blockAddAll (blockInit ["temp"] none)
      [(0, tempVal pat225), (1, tempVal pat225), (66, tempVal pat225)]).2
      = some .valueError := by decide

/-- C2 (amended): for the third and later timestamps the encoder selects the
code by the asymmetric range tests `-63..64` / `-255..256` / `-2047..2048`
(not by two's-complement fit: `-64` falls through to the `1110` tier), and on
every accepted `dod` it emits the tier's control bits plus the fixed-width
two's-complement payload (1/9/12/16/36 bits in total), which the decoder
inverts; a `dod` equal to a tier maximum `64`/`256`/`2048` (or outside the
signed 32-bit range) is selected by the range test but rejected by
`write_signed`, raising `ValueError` instead of promoting to the next
tier. -/
theorem C2_dod_code (dod : Int) (w : BitWriter) (hw : w.WFw) :
    (dodEncOk dod →
      ∃ w', encodeDod w dod = (w', none) ∧
        w'.wbits = w.wbits ++ dodBits dod ∧
        (dodBits dod).length
          = (if dod = 0 then 1 else if -63 ≤ dod ∧ dod ≤ 64 then 9
             else if -255 ≤ dod ∧ dod ≤ 256 then 12
             else if -2047 ≤ dod ∧ dod ≤ 2048 then 16 else 36) ∧
        ∀ (r : BitReader) (rest : List Nat), r.bit_pos < 8 →
          r.rbits = dodBits dod ++ rest →
          ∃ r', decodeDod r = .ok (dod, r') ∧ r'.rbits = rest) ∧
    (¬ dodEncOk dod → (encodeDod w dod).2 = some .valueError) := by
  constructor
  · intro hok
    obtain ⟨w', heq, hwf, hwb⟩ := encodeDod_ok w dod hw hok
    refine ⟨w', heq, hwb, dodBits_length dod, ?_⟩
    intro r rest hbp hrb
    obtain ⟨r', hdec, _, _, hrb'⟩ := decodeDod_ok r dod rest hbp hok hrb
    exact ⟨r', hdec, hrb'⟩
  · exact encodeDod_err w dod

theorem C2_dod_code_witness :
    (dodEncOk 5 →
      ∃ w', encodeDod BitWriter.init 5 = (w', none) ∧
        w'.wbits = BitWriter.init.wbits ++ dodBits 5 ∧
        (dodBits 5).length
          = (if (5 : Int) = 0 then 1
             else if -63 ≤ (5 : Int) ∧ (5 : Int) ≤ 64 then 9
             else if -255 ≤ (5 : Int) ∧ (5 : Int) ≤ 256 then 12
             else if -2047 ≤ (5 : Int) ∧ (5 : Int) ≤ 2047 + 1 then 16
             else 36) ∧
        ∀ (r : BitReader) (rest : List Nat), r.bit_pos < 8 →
          r.rbits = dodBits 5 ++ rest →
          ∃ r', decodeDod r = .ok (5, r') ∧ r'.rbits = rest) ∧
    (¬ dodEncOk 5 → (encodeDod BitWriter.init 5).2 = some .valueError) :=
  C2_dod_code 5 BitWriter.init BitWriter.WFw_init

theorem C2_counterexample :
    (encodeDod BitWriter.init 64).2 = some .valueError ∧
    (encodeDod BitWriter.init (-64)).1.wbits.length = 12 ∧
    (encodeDod BitWriter.init 63).1.wbits.length = 9 ∧
    (encodeDod BitWriter.init 63).2 = none := by decide

/-- C3 (amended): a failing `add` leaves the point count, the timestamp
encoder, every value encoder, the closed flag and the stored data unchanged
(so no codec state advances), but it is NOT fully atomic: a delta-of-delta
range failure leaves the already-written control bits (at most 4) in the
shared bit stream, and a first-point failure may set `start_timestamp`. -/
theorem C3_add_failure (b : MultiVariateBlock) (t : Int)
    (vals : String → Option Nat) (er : PyErr) (hw : b.writer.WFw)
    (hkeys : b.val_encoders.map Prod.fst = b.var_names)
    (h : (b.add t vals).2 = some er) :
    (b.add t vals).1.count = b.count ∧
    (b.add t vals).1.ts_encoder = b.ts_encoder ∧
    (b.add t vals).1.val_encoders = b.val_encoders ∧
    (b.add t vals).1.closed = b.closed ∧
    (b.add t vals).1.compressed_data = b.compressed_data ∧
    (b.add t vals).1.var_names = b.var_names ∧
    ((b.add t vals).1.start_timestamp = b.start_timestamp ∨
      (b.add t vals).1.start_timestamp = some t) ∧
    ∃ extra, extra.length ≤ 4 ∧
      (b.add t vals).1.writer.wbits = b.writer.wbits ++ extra :=
  MultiVariateBlock.add_err b t vals er hw hkeys h

theorem C3_add_failure_witness :
    (c3block.add 66 (tempVal pat225)).1.count = c3block.count ∧
    (c3block.add 66 (tempVal pat225)).1.ts_encoder = c3block.ts_encoder ∧
    (c3block.add 66 (tempVal pat225)).1.val_encoders
      = c3block.val_encoders ∧
    (c3block.add 66 (tempVal pat225)).1.closed = c3block.closed ∧
    (c3block.add 66 (tempVal pat225)).1.compressed_data
      = c3block.compressed_data ∧
    (c3block.add 66 (tempVal pat225)).1.var_names = c3block.var_names ∧
    ((c3block.add 66 (tempVal pat225)).1.start_timestamp
        = c3block.start_timestamp ∨
      (c3block.add 66 (tempVal pat225)).1.start_timestamp = some 66) ∧
    ∃ extra, extra.length ≤ 4 ∧
      (c3block.add 66 (tempVal pat225)).1.writer.wbits
        = c3block.writer.wbits ++ extra :=
  C3_add_failure c3block 66 (tempVal pat225) .valueError (by decide)
    (by decide) (by decide)

theorem C3_counterexample :
    (c3block.add 66 (tempVal pat225)).2 = some .valueError ∧
    (c3block.add 66 (tempVal pat225)).1.writer.wbits
      = c3block.writer.wbits ++ [1, 0] ∧
    (c3block.add 66 (tempVal pat225)).1.writer.wbits
      ≠ c3block.writer.wbits := by decide

/-- C4 (code bug): `query` is not read-only.  On a series with an open
block, an overlapping query calls `get_compressed_data`, whose
`writer.to_bytes()` pads the live writer to a byte boundary; a later insert
then lands after the zero padding, and the next query decodes the padding as
a spurious point `(1030, 22.6)` while the real point `(1035, 22.7)` is never
reached.  Without the intermediate query the same inserts decode correctly,
and the query visibly changes the open block. -/
theorem C4_query_mutates :
    (c4mutated.query 0 10000).1 ≠ (c4clean.query 0 10000).1 ∧
    (c4clean.query 0 10000).1
      = .ok [(1000, [("temp", pat225)]), (1010, [("temp", pat225)]),
          (1020, [("temp", pat226)]), (1035, [("temp", pat227)])] ∧
    (c4mutated.query 0 10000).1
      = .ok [(1000, [("temp", pat225)]), (1010, [("temp", pat225)]),
          (1020, [("temp", pat226)]), (1030, [("temp", pat226)])] ∧
    c4queried.open_block ≠ c4series.open_block := by
  refine ⟨by decide, by decide, by decide, by decide⟩

/-- C5 (amended): the concrete scenario stores one sealed block with start 0
and 3 points, decoding returns exactly the three (timestamp, pattern) pairs,
but `bits_remaining` after reading them is 5, not 0: the 251 content bits
are zero-padded to 32 bytes by `to_bytes`. -/
theorem C5_scenario :
    c5series.closed_blocks.map (fun e => (e.1, e.2.1)) = [(0, 3)] ∧
    ((MultiVariateDecoder.mkDecoder c5data ["temp"]).read_all 3).map
        Prod.fst
      = .ok [(1000, [("temp", pat225)]), (1010, [("temp", pat225)]),
          (1020, [("temp", pat226)])] ∧
    ((MultiVariateDecoder.mkDecoder c5data ["temp"]).read_all 3).map
        (fun q => q.2.reader.bits_remaining) = .ok 5 := by decide

theorem C5_counterexample :
    ((MultiVariateDecoder.mkDecoder c5data ["temp"]).read_all 3).map
        (fun q => q.2.reader.bits_remaining) ≠ .ok 0 ∧
    ((MultiVariateDecoder.mkDecoder c5data ["temp"]).read_all 3).map
        (fun q => q.2.reader.bits_remaining) = .ok 5 := by decide

/-- C6 (code bug): with fewer than 4 (resp. 8) bytes after alignment,
`read_u32`/`read_i64`/`read_u64` raise `struct.error` (the slice handed to
`struct.unpack` is short), which is a different error kind from the
`EOFError` that `read_bit`/`read_bytes` raise on underrun — contradicting
the spec's single end-of-stream error condition. -/
theorem C6_underrun (r : BitReader) :
    (r.align_to_byte.data.length < r.align_to_byte.byte_pos + 4 →
      r.read_u32 = .error .structError) ∧
    (r.align_to_byte.data.length < r.align_to_byte.byte_pos + 8 →
      r.read_i64 = .error .structError ∧ r.read_u64 = .error .structError) ∧
    (∀ n, r.align_to_byte.data.length < r.align_to_byte.byte_pos + n →
      r.read_bytes n = .error .eofError) ∧
    PyErr.structError ≠ PyErr.eofError := by
  refine ⟨?_, ?_, ?_, by decide⟩
  · intro h
    simp only [BitReader.read_u32]
    rw [if_pos h]
  · intro h
    constructor
    · simp only [BitReader.read_i64]
      rw [if_pos h]
    · simp only [BitReader.read_u64]
      rw [if_pos h]
  · intro n h
    simp only [BitReader.read_bytes]
    rw [if_pos h]

theorem C6_underrun_witness :
    BitReader.read_u32 ⟨[0, 0, 0], 0, 0⟩ = .error .structError ∧
    BitReader.read_u64 ⟨[0, 0, 0], 0, 0⟩ = .error .structError ∧
    BitReader.read_bytes ⟨[0, 0, 0], 0, 0⟩ 4 = .error .eofError :=
  ⟨(C6_underrun ⟨[0, 0, 0], 0, 0⟩).1 (by decide),
   ((C6_underrun ⟨[0, 0, 0], 0, 0⟩).2.1 (by decide)).2,
   (C6_underrun ⟨[0, 0, 0], 0, 0⟩).2.2.1 4 (by decide)⟩

/-- C7: under non-decreasing insertion (and positive block duration), the
accepted points split into the closed blocks' segments followed by the open
block's segment; every closed entry's stored start and the open block's
`start_timestamp` are multiples of the duration `D`, and every point of a
block satisfies `start ≤ timestamp < start + D`. -/
theorem C7_alignment (V : List String) (D : Int) (pts : List MVPoint)
    (hV : V ≠ []) (hnd : V.Nodup) (hD : 0 < D) (hord : PtsOrd pts)
    (hok : (insertAll (MultiVariateSeries.mkSeries V D) pts).2 = none) :
    ∃ (csegs : List (Int × List MVPoint)) (ost : Int) (oseg : List MVPoint),
      pts = (csegs.map Prod.snd).flatten ++ oseg ∧
      (insertAll (MultiVariateSeries.mkSeries V D) pts).1.closed_blocks
        = csegs.map (fun c => closedEntryOf V c.1 c.2) ∧
      (∀ c ∈ csegs, (∃ k, c.1 = D * k) ∧
        ∀ p ∈ c.2, c.1 ≤ p.1 ∧ p.1 < c.1 + D) ∧
      (∀ bopen,
        (insertAll (MultiVariateSeries.mkSeries V D) pts).1.open_block
          = some bopen →
        bopen.start_timestamp = some ost ∧ (∃ k, ost = D * k) ∧
        ∀ p ∈ oseg, ost ≤ p.1 ∧ p.1 < ost + D) := by
  have hinv := insertAll_inv V D hV hnd hD pts []
    (MultiVariateSeries.mkSeries V D) (SeriesInv_init V D) hord hok
  obtain ⟨_, _, csegs, ost, oseg, hsplit, hcb, hcprops, hopen⟩ := hinv
  refine ⟨csegs, ost, oseg, hsplit, hcb, ?_, ?_⟩
  · intro c hc
    obtain ⟨⟨hk, hrange⟩, _, _⟩ := hcprops c hc
    exact ⟨hk, hrange⟩
  · intro bopen hob
    rcases hopen with ⟨hnone, _⟩ | ⟨hsome, hone, hosucc, hoseg⟩
    · rw [hnone] at hob
      cases hob
    · rw [hsome] at hob
      have hbeq : bopen = (blockAddAll (blockInit V (some ost)) oseg).1 := by
        injection hob with hh
        rw [← hh]
      obtain ⟨_, _, _, _, hbst⟩ := blockAddAll_ok oseg
        (blockInit V (some ost)) (MVInv_init V (some ost) hV hnd) hosucc
      refine ⟨?_, hoseg.1, hoseg.2⟩
      rw [hbeq]
      exact hbst rfl

theorem C7_alignment_witness :
    ∃ (csegs : List (Int × List MVPoint)) (ost : Int) (oseg : List MVPoint),
      [((3 : Int), tempVal pat225), ((12 : Int), tempVal pat225)]
        = (csegs.map Prod.snd).flatten ++ oseg ∧
      (insertAll (MultiVariateSeries.mkSeries ["temp"] 10)
        [((3 : Int), tempVal pat225),
          ((12 : Int), tempVal pat225)]).1.closed_blocks
        = csegs.map (fun c => closedEntryOf ["temp"] c.1 c.2) ∧
      (∀ c ∈ csegs, (∃ k, c.1 = 10 * k) ∧
        ∀ p ∈ c.2, c.1 ≤ p.1 ∧ p.1 < c.1 + 10) ∧
      (∀ bopen,
        (insertAll (MultiVariateSeries.mkSeries ["temp"] 10)
          [((3 : Int), tempVal pat225),
            ((12 : Int), tempVal pat225)]).1.open_block = some bopen →
        bopen.start_timestamp = some ost ∧ (∃ k, ost = 10 * k) ∧
        ∀ p ∈ oseg, ost ≤ p.1 ∧ p.1 < ost + 10) :=
  C7_alignment ["temp"] 10
    [((3 : Int), tempVal pat225), ((12 : Int), tempVal pat225)]
    (by decide) (by decide) (by decide)
    (by
      unfold PtsOrd
      decide)
    (by decide)

/-- C8: under non-decreasing insertion into a fresh series, `query a b` with
`a ≤ b` returns exactly the accepted points whose timestamp lies in the
closed interval `[a, b]`, in insertion order, drawn from closed and open
blocks alike. -/
theorem C8_query (V : List String) (D a b : Int) (pts : List MVPoint)
    (hV : V ≠ []) (hnd : V.Nodup) (hD : 0 < D) (hab : a ≤ b)
    (hord : PtsOrd pts) (hvo : ∀ p ∈ pts, ValsOk V p.2)
    (hok : (insertAll (MultiVariateSeries.mkSeries V D) pts).2 = none) :
    ((insertAll (MultiVariateSeries.mkSeries V D) pts).1.query a b).1
      = .ok ((pts.filter (fun p => decide (a ≤ p.1 ∧ p.1 ≤ b))).map
          (pointView V)) := by
  have hinv := insertAll_inv V D hV hnd hD pts []
    (MultiVariateSeries.mkSeries V D) (SeriesInv_init V D) hord hok
  exact query_eval V D a b pts _ hV hnd hD hinv hvo

theorem C8_query_witness :
    ((insertAll (MultiVariateSeries.mkSeries ["temp"] 10)
        [((0 : Int), tempVal pat225), ((5 : Int), tempVal pat226),
          ((12 : Int), tempVal pat227)]).1.query 0 5).1
      = .ok (([((0 : Int), tempVal pat225), ((5 : Int), tempVal pat226),
          ((12 : Int), tempVal pat227)].filter
            (fun p => decide ((0 : Int) ≤ p.1 ∧ p.1 ≤ 5))).map
          (pointView ["temp"])) :=
  C8_query ["temp"] 10 0 5
    [((0 : Int), tempVal pat225), ((5 : Int), tempVal pat226),
      ((12 : Int), tempVal pat227)]
    (by decide) (by decide) (by decide) (by decide)
    (by
      unfold PtsOrd
      decide)
    (by decide) (by decide)

/-- C9: the value codec reproduces every 64-bit input pattern exactly:
encoding a pattern list with `ValueEncoder.add_value` into a fresh writer
and decoding the flushed bytes with `ValueDecoder.read_value` returns the
very same list (so `-0.0`/`0.0`, NaN and infinity patterns round-trip
bit-identically). -/
theorem C9_value_roundtrip (vs : List Nat) (h : ∀ v ∈ vs, v < 2 ^ 64) :
    ∃ d' r', ValDec.readAll ValDec.init
        ⟨(ValEnc.addAll ValEnc.init BitWriter.init vs).2.to_bytes, 0, 0⟩
        vs.length = .ok (vs, d', r') := by
  obtain ⟨hst, hwf, hwb⟩ := ValEnc.addAll_ok vs ValEnc.init BitWriter.init
    BitWriter.WFw_init (fun _ => rfl)
  have hbb : bytesBits (ValEnc.addAll ValEnc.init BitWriter.init vs).2.to_bytes
      = valAllBits ValEnc.init vs
        ++ List.replicate
          (padLen (ValEnc.addAll ValEnc.init BitWriter.init vs).2.nbits) 0 := by
    rw [BitWriter.to_bytes_spec _ hwf, hwb, BitWriter.wbits_init,
      List.nil_append]
  obtain ⟨d', r', hred, _, _, _⟩ := ValDec.readAll_ok vs ValEnc.init
    ValDec.init
    ⟨(ValEnc.addAll ValEnc.init BitWriter.init vs).2.to_bytes, 0, 0⟩
    (List.replicate
      (padLen (ValEnc.addAll ValEnc.init BitWriter.init vs).2.nbits) 0)
    h ValSync_init (by show (0 : Nat) < 8; norm_num) (fun _ => rfl)
    (by
      show (bytesBits
        (ValEnc.addAll ValEnc.init BitWriter.init vs).2.to_bytes).drop
          (8 * 0 + 0) = _
      rw [hbb]
      rfl)
  exact ⟨d', r', hred⟩

theorem C9_value_roundtrip_witness :
    ∃ d' r', ValDec.readAll ValDec.init
        ⟨(ValEnc.addAll ValEnc.init BitWriter.init
            [pat225, patNegZero, 0, patNaN, patNaN, patInf]).2.to_bytes,
          0, 0⟩
        [pat225, patNegZero, 0, patNaN, patNaN, patInf].length
      = .ok ([pat225, patNegZero, 0, patNaN, patNaN, patInf], d', r') :=
  C9_value_roundtrip [pat225, patNegZero, 0, patNaN, patNaN, patInf]
    (by decide)

/-- C10: the verification-variant encoder produces a stream that the same
decoder reads back to exactly the input patterns, and its reuse decision is
precisely the plain reuse condition strengthened by the waste bound
`(64 - prev_leading - prev_trailing) - (64 - leading - trailing) ≤ 11`. -/
theorem C10_verification_variant :
    (∀ (vs : List Nat), (∀ v ∈ vs, v < 2 ^ 64) →
      ∃ d' r', ValDec.readAll ValDec.init
          ⟨(ValEnc.addAllV ValEnc.init BitWriter.init vs).2.to_bytes, 0, 0⟩
          vs.length = .ok (vs, d', r')) ∧
    (∀ (e : ValEnc) (xor : Nat),
      valReuseV e xor ↔ (valReuse e xor ∧
        (64 - e.prev_trailing - e.prev_leading)
          - (64 - xorTrailing xor - xorLeading xor) ≤ 11)) := by
  constructor
  · intro vs h
    obtain ⟨hst, hwf, hwb⟩ := ValEnc.addAllV_ok vs ValEnc.init BitWriter.init
      BitWriter.WFw_init (fun _ => rfl)
    have hbb : bytesBits
        (ValEnc.addAllV ValEnc.init BitWriter.init vs).2.to_bytes
        = valAllBitsV ValEnc.init vs
          ++ List.replicate
            (padLen
              (ValEnc.addAllV ValEnc.init BitWriter.init vs).2.nbits) 0 := by
      rw [BitWriter.to_bytes_spec _ hwf, hwb, BitWriter.wbits_init,
        List.nil_append]
    obtain ⟨d', r', hred, _, _, _⟩ := ValDec.readAllV_ok vs ValEnc.init
      ValDec.init
      ⟨(ValEnc.addAllV ValEnc.init BitWriter.init vs).2.to_bytes, 0, 0⟩
      (List.replicate
        (padLen (ValEnc.addAllV ValEnc.init BitWriter.init vs).2.nbits) 0)
      h ValSync_init (by show (0 : Nat) < 8; norm_num) (fun _ => rfl)
      (by
        show (bytesBits
          (ValEnc.addAllV ValEnc.init BitWriter.init vs).2.to_bytes).drop
            (8 * 0 + 0) = _
        rw [hbb]
        rfl)
    exact ⟨d', r', hred⟩
  · intro e xor
    unfold valReuseV valReuse
    constructor
    · rintro ⟨h1, h2, h3, h4⟩
      exact ⟨⟨h1, h2, h3⟩, by omega⟩
    · rintro ⟨⟨h1, h2, h3⟩, h4⟩
      exact ⟨h1, h2, h3, by omega⟩

theorem C10_verification_variant_witness :
    ∃ d' r', ValDec.readAll ValDec.init
        ⟨(ValEnc.addAllV ValEnc.init BitWriter.init
            [pat225, pat226, pat227]).2.to_bytes, 0, 0⟩
        [pat225, pat226, pat227].length
      = .ok ([pat225, pat226, pat227], d', r') :=
  C10_verification_variant.1 [pat225, pat226, pat227] (by decide)

end Gorilla
